import Mathlib

/-!
# Verification of `sg14::fixed_point` (include/fixed_point.h)

A shallow embedding of the fixed-point header.  Template parameters become
ordinary arguments: an integer type is a descriptor (signedness, byte size), a
`fixed_point<ReprType, Exponent>` specialization is a descriptor (representation
type, exponent), and a value of either is the mathematical integer it holds.

Machine model (two's complement, `CHAR_BIT = 8`, `int` is 32 bits, as on the
Clang/GCC targets for which the header enables 128-bit support):
* conversions between integer types wrap modulo `2^width`, and so does
  arithmetic in an unsigned type; the built-in `+`, binary `-` and `<<` are
  modelled as wrapping in a signed type as well;
* the built-in unary `-` and `*` evaluated in a signed type have no defined
  result (`none`) when the mathematical result is not representable in it;
* operands narrower than `int` are promoted to `int` before any built-in
  operator is applied;
* `>>` on a negative value is an arithmetic shift (rounds toward negative
  infinity);
* a built-in shift whose count is not smaller than the width of the promoted
  left operand has no defined result (`none`), and neither has a division by
  zero or the overflowing signed division.
-/

namespace sg14

/-! ## Integer types -/

/-- An integer type descriptor: the result of `_impl::make_int<Signed, NumBytes>`. -/
structure IntType where
  is_signed : Bool
  bytes : Nat
deriving DecidableEq, Repr

/-- The specializations of `_make_int` that exist (1, 2, 4, 8 and 16 bytes). -/
def IntType.supported (T : IntType) : Prop :=
  T.bytes = 1 ∨ T.bytes = 2 ∨ T.bytes = 4 ∨ T.bytes = 8 ∨ T.bytes = 16

instance (T : IntType) : Decidable T.supported := by
  unfold IntType.supported; infer_instance

/-- Template `_impl::num_bits<T>()`: `sizeof(T) * CHAR_BIT`. -/
def num_bits (T : IntType) : Nat := T.bytes * 8

/-- Template alias `_impl::make_int<Signed, NumBytes>`. -/
def make_int (Signed : Bool) (NumBytes : Nat) : IntType := ⟨Signed, NumBytes⟩

/-- Template alias `_impl::make_signed<T>`. -/
def make_signed (T : IntType) : IntType := make_int true T.bytes

/-- Template alias `_impl::make_unsigned<T>`. -/
def make_unsigned (T : IntType) : IntType := make_int false T.bytes

/-- Template alias `_impl::next_size<IntType>`: same signedness, twice the size. -/
def next_size (T : IntType) : IntType := make_int T.is_signed (T.bytes * 2)

/-- Template alias `_impl::previous_size<IntType>`: same signedness, half the size. -/
def previous_size (T : IntType) : IntType := make_int T.is_signed (T.bytes / 2)

/-- The type `int` (and `std::int32_t`). -/
def int : IntType := make_int true 4

/-- Smallest value of an integer type. -/
def IntType.min_value (T : IntType) : Int :=
  if T.is_signed then -(2 ^ (num_bits T - 1)) else 0

/-- Largest value of an integer type. -/
def IntType.max_value (T : IntType) : Int :=
  if T.is_signed then 2 ^ (num_bits T - 1) - 1 else 2 ^ num_bits T - 1

/-- The integer `x` is a value of type `T` (is representable in `T`). -/
def IntType.holds (T : IntType) (x : Int) : Prop :=
  T.min_value ≤ x ∧ x ≤ T.max_value

instance (T : IntType) (x : Int) : Decidable (T.holds x) := by
  unfold IntType.holds; infer_instance

/-- Conversion `static_cast<T>(x)` between integer types (also the implicit
conversion of an argument or a returned value): reduction modulo `2^width`
into the range of `T`. -/
def static_cast (T : IntType) (x : Int) : Int :=
  if T.is_signed then
    (x + 2 ^ (num_bits T - 1)) % 2 ^ num_bits T - 2 ^ (num_bits T - 1)
  else
    x % 2 ^ num_bits T

/-- Integral promotion: types narrower than `int` are promoted to `int`. -/
def promoted (T : IntType) : IntType :=
  if num_bits T < num_bits int then int else T

/-- Built-in `a << n` for an operand `a` of type `T` (promoted first); the
result has the promoted type. -/
def builtin_shl (T : IntType) (a : Int) (n : Nat) : Option Int :=
  if n < num_bits (promoted T) then some (static_cast (promoted T) (a * 2 ^ n)) else none

/-- Built-in `a >> n` for an operand `a` of type `T` (promoted first); the
result has the promoted type. -/
def builtin_shr (T : IntType) (a : Int) (n : Nat) : Option Int :=
  if n < num_bits (promoted T) then some (a / 2 ^ n) else none

/-- Built-in unary `-a` for an operand `a` of type `T` (promoted first): in a
signed promoted type there is no defined result when `-a` is not representable
(the operand is the most negative value); in an unsigned one the result wraps. -/
def builtin_neg (T : IntType) (a : Int) : Option Int :=
  if (promoted T).is_signed = true ∧ ¬ (promoted T).holds (-a) then none
  else some (static_cast (promoted T) (-a))

/-- Built-in `a * b` for two operands of the same type `T` (promoted first): in
a signed promoted type there is no defined result when the product is not
representable; in an unsigned one the result wraps. -/
def builtin_mul (T : IntType) (a b : Int) : Option Int :=
  if (promoted T).is_signed = true ∧ ¬ (promoted T).holds (a * b) then none
  else some (static_cast (promoted T) (a * b))

/-! ## `_impl::shift_left` and `_impl::shift_right` -/

/-- The two overloads of `shift_left` for `Exponent > 0` and an unsigned
`Input` (both have the body `shift_left<0, Output, Input>(i) << Exponent`). -/
def shift_left_unsigned (Exponent : Nat) (Output : IntType) (i : Int) : Option Int :=
  (builtin_shl Output (static_cast Output i) Exponent).map (static_cast Output)

/-- The overload of `shift_left` for `Exponent > 0` and a signed `Input`:
shifts the magnitude in `make_signed<Output>` and negates. -/
def shift_left_signed (Exponent : Nat) (Output Input : IntType) (i : Int) : Option Int :=
  let unsigned_input := make_unsigned Input
  let signed_output := make_signed Output
  if 0 ≤ i then
    (shift_left_unsigned Exponent signed_output (static_cast unsigned_input i)).map
      (static_cast Output)
  else
    (builtin_neg Input i).bind fun m =>
      (shift_left_unsigned Exponent signed_output (static_cast unsigned_input m)).bind fun r =>
        (builtin_neg signed_output r).map (static_cast Output)

/-- The overloads of `shift_left` for `Exponent > 0`. -/
def shift_left_pos (Exponent : Nat) (Output Input : IntType) (i : Int) : Option Int :=
  if Input.is_signed then shift_left_signed Exponent Output Input i
  else shift_left_unsigned Exponent Output i

/-- The overloads of `shift_right` for `Exponent > 0`: shift then cast when
`sizeof(Output) <= sizeof(Input)`, cast then shift otherwise. -/
def shift_right_pos (Exponent : Nat) (Output Input : IntType) (i : Int) : Option Int :=
  if Output.bytes ≤ Input.bytes then
    (builtin_shr Input i Exponent).map (static_cast Output)
  else
    (builtin_shr Output (static_cast Output i) Exponent).map (static_cast Output)

/-- Function template `_impl::shift_left<Exponent, Output, Input>(i)`. -/
def shift_left (Exponent : Int) (Output Input : IntType) (i : Int) : Option Int :=
  if Exponent = 0 then some (static_cast Output i)
  else if 0 < Exponent then shift_left_pos Exponent.toNat Output Input i
  else shift_right_pos (-Exponent).toNat Output Input i

/-- Function template `_impl::shift_right<Exponent, Output, Input>(i)`. -/
def shift_right (Exponent : Int) (Output Input : IntType) (i : Int) : Option Int :=
  if Exponent = 0 then some (static_cast Output i)
  else if 0 < Exponent then shift_right_pos Exponent.toNat Output Input i
  else shift_left_pos (-Exponent).toNat Output Input i

/-- Width, in bits, of the promoted operand of the built-in shift executed by
`shift_left<Exponent>` (`Exponent > 0`): the shift is applied to a value of
type `Output` (or `make_signed<Output>`). -/
def shift_left_width (Output : IntType) : Nat := num_bits (promoted Output)

/-- Width, in bits, of the promoted operand of the built-in shift executed by
`shift_right<Exponent>` (`Exponent > 0`): the wider of `Input` and `Output`. -/
def shift_right_width (Output Input : IntType) : Nat :=
  if Output.bytes ≤ Input.bytes then num_bits (promoted Input) else num_bits (promoted Output)


/-! ## The `fixed_point` class template -/

/-- A specialization `fixed_point<ReprType, Exponent>`; a value of it is the
integer held in its `_repr` member, and represents `_repr * 2^Exponent`. -/
structure FixedPoint where
  repr_type : IntType
  exponent : Int
deriving DecidableEq, Repr

/-- Constant `fixed_point::digits`: `num_bits<ReprType>() - is_signed<repr_type>::value`. -/
def FixedPoint.digits (F : FixedPoint) : Int :=
  (num_bits F.repr_type : Int) - (if F.repr_type.is_signed then 1 else 0)

/-- Constant `fixed_point::integer_digits`: `digits + exponent`. -/
def FixedPoint.integer_digits (F : FixedPoint) : Int := F.digits + F.exponent

/-- Constant `fixed_point::fractional_digits`: `digits - integer_digits`. -/
def FixedPoint.fractional_digits (F : FixedPoint) : Int := F.digits - F.integer_digits

/-- Member `fixed_point::integral_to_repr<S>(s)`: `shift_right<exponent, repr_type>(s)`. -/
def integral_to_repr (F : FixedPoint) (S : IntType) (s : Int) : Option Int :=
  shift_right F.exponent F.repr_type S s

/-- Member `fixed_point::repr_to_integral<S>(r)`: `shift_left<exponent, S>(r)`. -/
def repr_to_integral (F : FixedPoint) (S : IntType) (r : Int) : Option Int :=
  shift_left F.exponent S F.repr_type r

/-- Member `fixed_point::fixed_point_to_repr(rhs)` for `rhs` of the specialization
`From`: `shift_right<(exponent - FromExponent), repr_type>(rhs.data())`. -/
def fixed_point_to_repr (F From : FixedPoint) (rhs : Int) : Option Int :=
  shift_right (F.exponent - From.exponent) F.repr_type From.repr_type rhs

/-- The real number represented by the value `r` of the specialization `F`. -/
def FixedPoint.value (F : FixedPoint) (r : Int) : ℚ := (r : ℚ) * 2 ^ F.exponent

/-- The integer `floor(x * 2^k)`, for an integer `x` and a power `k` of either sign. -/
def floor_scale (x : Int) (k : Int) : Int := ⌊(x : ℚ) * 2 ^ k⌋

/-- The type `std::int8_t`. -/
def int8 : IntType := make_int true 1

/-- The rational `q` lies within the range of the integer type `T`. -/
def IntType.holds_rat (T : IntType) (q : ℚ) : Prop :=
  (T.min_value : ℚ) ≤ q ∧ q ≤ (T.max_value : ℚ)

instance (T : IntType) (q : ℚ) : Decidable (T.holds_rat q) := by
  unfold IntType.holds_rat; infer_instance

/-! ## Floating-point conversions

Floating-point values are modelled as exact rationals. -/

/-- The overload of `_impl::pow2<S, Exponent>()` for `Exponent > 0`, unrolled on
the exponent: `pow2<S, Exponent - 1>() * S(2)`, ending in `pow2<S, 0>() = 1`. -/
def pow2_pos : Nat → ℚ
  | 0 => 1
  | n + 1 => pow2_pos n * 2

/-- The overload of `_impl::pow2<S, Exponent>()` for `Exponent < 0`, unrolled on
the magnitude of the exponent: `pow2<S, Exponent + 1>() * S(.5)`. -/
def pow2_neg : Nat → ℚ
  | 0 => 1
  | n + 1 => pow2_neg n * (1 / 2)

/-- Function template `_impl::pow2<S, Exponent>()`. -/
def pow2 (Exponent : Int) : ℚ :=
  if 0 ≤ Exponent then pow2_pos Exponent.toNat else pow2_neg (-Exponent).toNat

/-- Member `fixed_point::one<S>()` for a floating-point `S`: `pow2<S, -exponent>()`. -/
def FixedPoint.one (F : FixedPoint) : ℚ := pow2 (-F.exponent)

/-- Member `fixed_point::inverse_one<S>()`: `pow2<S, exponent>()`. -/
def FixedPoint.inverse_one (F : FixedPoint) : ℚ := pow2 F.exponent

/-- Rounding of a rational toward zero. -/
def round_toward_zero (q : ℚ) : Int := if 0 ≤ q then ⌊q⌋ else ⌈q⌉

/-- Conversion `static_cast<T>(q)` from a floating-point value to an integer
type: the fractional part is discarded (truncation toward zero); there is no
defined result when the truncated value is not representable in `T`. -/
def float_to_int (T : IntType) (q : ℚ) : Option Int :=
  if T.holds (round_toward_zero q) then some (round_toward_zero q) else none

/-- Member `fixed_point::floating_point_to_repr<S>(s)`:
`static_cast<repr_type>(s * one<S>())`. -/
def floating_point_to_repr (F : FixedPoint) (s : ℚ) : Option Int :=
  float_to_int F.repr_type (s * F.one)

/-- Member `fixed_point::repr_to_floating_point<S>(r)`: `S(r) * inverse_one<S>()`. -/
def repr_to_floating_point (F : FixedPoint) (r : Int) : ℚ :=
  (r : ℚ) * F.inverse_one

/-- The exponent of `shift_right<Exponent, Output, Input>` is smaller in
magnitude than the width of the promoted operand on which the built-in shift
is executed. -/
def shift_right_in_width (Exponent : Int) (Output Input : IntType) : Prop :=
  if 0 < Exponent then Exponent < shift_right_width Output Input
  else -Exponent < shift_left_width Output

instance (e : Int) (O I : IntType) : Decidable (shift_right_in_width e O I) := by
  unfold shift_right_in_width; infer_instance

/-- The exponent of `shift_left<Exponent, Output, Input>` is smaller in
magnitude than the width of the promoted operand on which the built-in shift
is executed. -/
def shift_left_in_width (Exponent : Int) (Output Input : IntType) : Prop :=
  if 0 < Exponent then Exponent < shift_left_width Output
  else -Exponent < shift_right_width Output Input

instance (e : Int) (O I : IntType) : Decidable (shift_left_in_width e O I) := by
  unfold shift_left_in_width; infer_instance

/-- The two negations executed by the signed overload of `shift_left<Exponent>`
(`Exponent > 0`) on a negative input `i` have a defined result: `i` is not the
most negative value of the promoted `Input` (operand of `-i`), and the shifted
value is not the most negative value of the promoted `make_signed<Output>`
(operand of the outer negation). -/
def shift_left_negation_defined (Exponent : Int) (Output Input : IntType) (i : Int) : Prop :=
  0 < Exponent → i < 0 →
    i ≠ (promoted Input).min_value ∧
    i * 2 ^ Exponent.toNat ≠ (promoted (make_signed Output)).min_value

instance (e : Int) (O I : IntType) (i : Int) : Decidable (shift_left_negation_defined e O I i) := by
  unfold shift_left_negation_defined; infer_instance

/-- The same condition for `shift_right<Exponent>`, which executes the signed
overload of `shift_left<-Exponent>` when `Exponent < 0`. -/
def shift_right_negation_defined (Exponent : Int) (Output Input : IntType) (i : Int) : Prop :=
  Exponent < 0 → i < 0 →
    i ≠ (promoted Input).min_value ∧
    i * 2 ^ (-Exponent).toNat ≠ (promoted (make_signed Output)).min_value

instance (e : Int) (O I : IntType) (i : Int) : Decidable (shift_right_negation_defined e O I i) := by
  unfold shift_right_negation_defined; infer_instance

/-! ## Type resolution -/

/-- Function template `_impl::max(a, b)`: `(a < b) ? b : a`. -/
def impl_max {α : Type} [LT α] [DecidableRel (fun a b : α => a < b)] (a b : α) : α :=
  if a < b then b else a

/-- Template alias `_impl::common_repr_type<ReprTypeHead, ReprTypeTail...>`: a
single type is itself; otherwise the head is combined with the common type of
the tail (signed if either is, and as large as the larger). -/
def common_repr_type : IntType → List IntType → IntType
  | head, [] => head
  | head, t :: ts =>
    let _tail_type := common_repr_type t ts
    make_int (head.is_signed || _tail_type.is_signed) (impl_max head.bytes _tail_type.bytes)

/-- Template alias `make_fixed_from_repr<ReprType, IntegerDigits>`:
`fixed_point<ReprType, IntegerDigits + is_signed<ReprType> - sizeof(ReprType) * CHAR_BIT>`. -/
def make_fixed_from_repr (ReprType : IntType) (IntegerDigits : Int) : FixedPoint :=
  ⟨ReprType, IntegerDigits + (if ReprType.is_signed then 1 else 0) - (ReprType.bytes * 8 : Nat)⟩

/-- Template alias `_impl::common_type<Lhs, Rhs>` for two `fixed_point`
specializations. -/
def common_type (Lhs Rhs : FixedPoint) : FixedPoint :=
  make_fixed_from_repr (common_repr_type Lhs.repr_type [Rhs.repr_type])
    (impl_max Lhs.integer_digits Rhs.integer_digits)

/-- Number of value bits of an integer type (its width without the sign bit). -/
def IntType.value_bits (T : IntType) : Nat :=
  num_bits T - (if T.is_signed then 1 else 0)

/-! ## Multiplication -/

/-- Function template `_impl::multiply<Result>(lhs, rhs)`: the product of the
two representations, each cast to `next_size` of the common representation
type, rescaled by `shift_left<Lhs::exponent + Rhs::exponent - Result::exponent>`.
The argument of `shift_left` has the (promoted) type of the product. -/
def multiply (Result Lhs Rhs : FixedPoint) (lhs rhs : Int) : Option Int :=
  let result_repr_type := Result.repr_type
  let intermediate_repr_type := next_size (common_type Lhs Rhs).repr_type
  (builtin_mul intermediate_repr_type
      (static_cast intermediate_repr_type lhs) (static_cast intermediate_repr_type rhs)).bind
    fun product =>
      shift_left (Lhs.exponent + Rhs.exponent - Result.exponent) result_repr_type
        (promoted intermediate_repr_type) product

/-- Template alias `trunc_multiply_result<Lhs, Rhs>`. -/
def trunc_multiply_result (Lhs Rhs : FixedPoint) : FixedPoint :=
  make_fixed_from_repr (common_repr_type Lhs.repr_type [Rhs.repr_type])
    (Lhs.integer_digits + Rhs.integer_digits)

/-- Function template `trunc_multiply(lhs, rhs)`. -/
def trunc_multiply (Lhs Rhs : FixedPoint) (lhs rhs : Int) : Option Int :=
  multiply (trunc_multiply_result Lhs Rhs) Lhs Rhs lhs rhs

/-! ## Division -/

/-- Recursion of `_impl::capacity<N>::value` with an explicit bound on its depth. -/
def capacity_aux : Nat → Nat → Nat
  | 0, _ => 0
  | fuel + 1, N => if N = 0 then 0 else capacity_aux fuel (N / 2) + 1

/-- Class template `_impl::capacity<N>::value`: the number of bits necessary to
represent `N` in binary, `capacity<0> = 0` and `capacity<N> = capacity<N / 2> + 1`
(the recursion halves `N`, so `N` steps are always enough). -/
def capacity (N : Nat) : Nat := capacity_aux N N

/-- Template alias `_impl::sufficient_repr<RequiredBits, IsSigned>`:
`make_int<IsSigned, 1 << capacity<((RequiredBits + 7) / 8) - 1>::value>`, the
subtraction being that of `unsigned` (32 bits). -/
def sufficient_repr (RequiredBits : Nat) (IsSigned : Bool) : IntType :=
  make_int IsSigned (1 <<< capacity (((RequiredBits + 7) / 8 + (2 ^ 32 - 1)) % 2 ^ 32))

/-- Template alias `make_fixed<IntegerDigits, FractionalDigits, IsSigned>`. -/
def make_fixed (IntegerDigits FractionalDigits : Nat) (IsSigned : Bool) : FixedPoint :=
  ⟨sufficient_repr (IntegerDigits + FractionalDigits + (if IsSigned then 1 else 0)) IsSigned,
    ((IntegerDigits + (if IsSigned then 1 else 0) : Nat) : Int)
      - num_bits
        (sufficient_repr (IntegerDigits + FractionalDigits + (if IsSigned then 1 else 0))
          IsSigned)⟩

/-- The usual arithmetic conversions: the type in which a built-in binary
operator on operands of types `T` and `U` is evaluated (both are promoted; of
two types of different signedness the unsigned one wins unless the signed one
is wider). -/
def arithmetic_conversion (T U : IntType) : IntType :=
  let T' := promoted T
  let U' := promoted U
  if T'.is_signed = U'.is_signed then (if T'.bytes < U'.bytes then U' else T')
  else if T'.is_signed then (if T'.bytes ≤ U'.bytes then U' else T')
  else (if U'.bytes ≤ T'.bytes then T' else U')

/-- Built-in `a / b` for operands of types `T` and `U`: both are converted to
the common type, the quotient is truncated toward zero; there is no defined
result for a zero divisor or when the quotient overflows. -/
def builtin_div (T U : IntType) (a b : Int) : Option Int :=
  let C := arithmetic_conversion T U
  let a' := static_cast C a
  let b' := static_cast C b
  if b' = 0 then none
  else if C.is_signed ∧ a' = C.min_value ∧ b' = -1 then none
  else some (Int.tdiv a' b')

/-- The `intermediate_type` of `_impl::divide`: `make_fixed` of
`max(Quotient::integer_digits, Dividend::integer_digits + Divisor::fractional_digits)`
integer digits and
`max(Quotient::fractional_digits, Dividend::fractional_digits + Divisor::integer_digits)`
fractional digits (both must be non-negative to be passed as `unsigned`
template arguments), signed if the quotient or the dividend is. -/
def divide_intermediate_type (Quotient Dividend Divisor : FixedPoint) : FixedPoint :=
  make_fixed
    (impl_max Quotient.integer_digits
      (Dividend.integer_digits + Divisor.fractional_digits)).toNat
    (impl_max Quotient.fractional_digits
      (Dividend.fractional_digits + Divisor.integer_digits)).toNat
    (Quotient.repr_type.is_signed || Dividend.repr_type.is_signed)

/-- Function template `_impl::divide<FixedPointQuotient>(lhs, rhs)`: the
dividend is converted to the intermediate type, its representation is divided
by the divisor's, and the quotient is rescaled by
`shift_left<intermediate_type::exponent - Divisor::exponent - Quotient::exponent>`. -/
def divide (Quotient Dividend Divisor : FixedPoint) (lhs rhs : Int) : Option Int :=
  let result_repr_type := Quotient.repr_type
  let intermediate_type := divide_intermediate_type Quotient Dividend Divisor
  (fixed_point_to_repr intermediate_type Dividend lhs).bind fun x =>
    (builtin_div intermediate_type.repr_type Divisor.repr_type x rhs).bind fun q =>
      shift_left (intermediate_type.exponent - Divisor.exponent - Quotient.exponent)
        result_repr_type
        (arithmetic_conversion intermediate_type.repr_type Divisor.repr_type) q

/-- The `operator/` taking two `fixed_point` operands:
`_impl::divide<common_type<Lhs, Rhs>>(lhs, rhs)`. -/
def operator_div (Lhs Rhs : FixedPoint) (lhs rhs : Int) : Option Int :=
  divide (common_type Lhs Rhs) Lhs Rhs lhs rhs

/-- Template alias `trunc_divide_result<FixedPointDividend, FixedPointDivisor>`. -/
def trunc_divide_result (Dividend Divisor : FixedPoint) : FixedPoint :=
  make_fixed_from_repr (common_repr_type Dividend.repr_type [Divisor.repr_type])
    (Dividend.integer_digits + Divisor.fractional_digits)

/-- Function template `trunc_divide(lhs, rhs)`. -/
def trunc_divide (Dividend Divisor : FixedPoint) (lhs rhs : Int) : Option Int :=
  divide (trunc_divide_result Dividend Divisor) Dividend Divisor lhs rhs

/-! ## promote, demote and the promoting family -/

/-- Template alias `promote_result<FixedPoint>`:
`fixed_point<next_size<repr_type>, exponent * 2>`. -/
def promote_result (F : FixedPoint) : FixedPoint :=
  ⟨next_size F.repr_type, F.exponent * 2⟩

/-- Function template `promote(from)`: `promote_result<FixedPoint>(from)`. -/
def promote (F : FixedPoint) (x : Int) : Option Int :=
  fixed_point_to_repr (promote_result F) F x

/-- Template alias `demote_result<FixedPoint>`:
`fixed_point<previous_size<repr_type>, exponent / 2>` (the division of `int`
truncates toward zero). -/
def demote_result (F : FixedPoint) : FixedPoint :=
  ⟨previous_size F.repr_type, Int.tdiv F.exponent 2⟩

/-- Function template `demote(from)`: `demote_result<FixedPoint>(from)`. -/
def demote (F : FixedPoint) (x : Int) : Option Int :=
  fixed_point_to_repr (demote_result F) F x

/-- The `operator*` taking two `fixed_point` operands:
`_impl::multiply<common_type<Lhs, Rhs>>(lhs, rhs)`. -/
def operator_mul (Lhs Rhs : FixedPoint) (lhs rhs : Int) : Option Int :=
  multiply (common_type Lhs Rhs) Lhs Rhs lhs rhs

/-- Template alias `promote_multiply_result<Lhs, Rhs>`:
`promote_result<common_type<Lhs, Rhs>>`. -/
def promote_multiply_result (Lhs Rhs : FixedPoint) : FixedPoint :=
  promote_result (common_type Lhs Rhs)

/-- Function template `promote_multiply(lhs, rhs)`. -/
def promote_multiply (Lhs Rhs : FixedPoint) (lhs rhs : Int) : Option Int :=
  multiply (promote_multiply_result Lhs Rhs) Lhs Rhs lhs rhs

/-- Template alias `promote_divide_result<Lhs, Rhs>`:
`promote_result<common_type<Lhs, Rhs>>`. -/
def promote_divide_result (Lhs Rhs : FixedPoint) : FixedPoint :=
  promote_result (common_type Lhs Rhs)

/-- Function template `promote_divide(lhs, rhs)`. -/
def promote_divide (Lhs Rhs : FixedPoint) (lhs rhs : Int) : Option Int :=
  divide (promote_divide_result Lhs Rhs) Lhs Rhs lhs rhs

/-- Template alias `make_ufixed<IntegerDigits, FractionalDigits>`:
`make_fixed<IntegerDigits, FractionalDigits, false>`. -/
def make_ufixed (IntegerDigits FractionalDigits : Nat) : FixedPoint :=
  make_fixed IntegerDigits FractionalDigits false

/-- Template alias `promote_square_result<FixedPoint>`:
`make_ufixed<integer_digits * 2, fractional_digits * 2>` (both must be
non-negative to be passed as `unsigned` template arguments). -/
def promote_square_result (F : FixedPoint) : FixedPoint :=
  make_ufixed (F.integer_digits * 2).toNat (F.fractional_digits * 2).toNat

/-- Function template `promote_square(root)`: the square of the representation
cast to the output representation type, rescaled by
`shift_left<exponent * 2 - output_type::exponent>`. -/
def promote_square (F : FixedPoint) (root : Int) : Option Int :=
  let output_type := promote_square_result F
  let output_repr_type := output_type.repr_type
  (builtin_mul output_repr_type
      (static_cast output_repr_type root) (static_cast output_repr_type root)).bind
    fun square =>
      shift_left (F.exponent * 2 - output_type.exponent) output_repr_type
        (promoted output_repr_type) square

/-- Template alias `trunc_reciprocal_result<FixedPoint>`:
`make_fixed_from_repr<repr_type, fractional_digits + 1>`. -/
def trunc_reciprocal_result (F : FixedPoint) : FixedPoint :=
  make_fixed_from_repr F.repr_type (F.fractional_digits + 1)

/-- Function template `trunc_reciprocal(fixed_point)`:
`_impl::divide<result_type>(dividend_type(1), fixed_point)` with
`dividend_type = make_fixed_from_repr<result_repr_type, 1>`; the literal `1` is
an `int`. -/
def trunc_reciprocal (F : FixedPoint) (x : Int) : Option Int :=
  let result_type := trunc_reciprocal_result F
  let result_repr_type := result_type.repr_type
  let dividend_type := make_fixed_from_repr result_repr_type 1
  (integral_to_repr dividend_type int 1).bind fun one =>
    divide result_type dividend_type F one x

/-! ## Heterogeneous operands -/

/-- The operand types accepted by the heterogeneous operators: a `fixed_point`
specialization, a built-in integer type, or a built-in floating-point type
(given by its size in bytes: `float` 4, `double` 8, `long double` 16). -/
inductive Operand where
  | fixed (F : FixedPoint)
  | integer (T : IntType)
  | floating (bytes : Nat)
deriving DecidableEq, Repr

/-- A value of an operand type: the representation of a `fixed_point` or an
integer, or a floating-point value (an exact rational). -/
inductive Value where
  | int (x : Int)
  | float (q : ℚ)
deriving DecidableEq

/-- Template alias `_impl::make_float<NumBytes>`: `float` for 1, 2 and 4 bytes,
`double` for 8, `long double` for 16 (given by the size of the type). -/
def make_float (NumBytes : Nat) : Nat :=
  if NumBytes = 8 then 8 else if NumBytes = 16 then 16 else 4

/-- The `std::common_type` of two floating-point types: the larger one. -/
def std_common_type (a b : Nat) : Nat := if a < b then b else a

/-- Class template `_impl::_common_type<Lhs, Rhs>`: two `fixed_point` types give
`common_type`; a `fixed_point` and an integer give the `fixed_point` type; a
`fixed_point` and a floating-point type give
`std::common_type<make_float<sizeof(ReprType)>, Float>`; when only the second
type is a `fixed_point` the order is reversed; there is no specialization
without a `fixed_point`. -/
def operand_common_type : Operand → Operand → Option Operand
  | .fixed L, .fixed R => some (.fixed (common_type L R))
  | .fixed L, .integer _ => some (.fixed L)
  | .fixed L, .floating f => some (.floating (std_common_type (make_float L.repr_type.bytes) f))
  | .integer _, .fixed R => some (.fixed R)
  | .floating f, .fixed R => some (.floating (std_common_type (make_float R.repr_type.bytes) f))
  | _, _ => none

/-- Conversion `static_cast<To>(v)` of a value `v` of type `From`: the
`fixed_point` constructors and conversion operators. -/
def operand_cast : Operand → Operand → Value → Option Value
  | .fixed C, .fixed G, .int x => (fixed_point_to_repr C G x).map Value.int
  | .fixed C, .integer S, .int x => (integral_to_repr C S x).map Value.int
  | .fixed C, .floating _, .float q => (floating_point_to_repr C q).map Value.int
  | .floating _, .fixed G, .int x => some (Value.float (repr_to_floating_point G x))
  | .floating _, .floating _, .float q => some (Value.float q)
  | .floating _, .integer _, .int x => some (Value.float x)
  | _, _, _ => none

/-- The homogeneous `operator==` (on two `fixed_point` values of the same type it
compares `data()`), and the built-in one on two floating-point values. -/
def homogeneous_eq (a b : Value) : Bool := decide (a = b)

/-- The homogeneous `operator<`. -/
def homogeneous_lt : Value → Value → Bool
  | .int x, .int y => decide (x < y)
  | .float p, .float q => decide (p < q)
  | _, _ => false

/-- The homogeneous `operator>`. -/
def homogeneous_gt : Value → Value → Bool
  | .int x, .int y => decide (x > y)
  | .float p, .float q => decide (p > q)
  | _, _ => false

/-- The heterogeneous `operator==`: both operands are cast to
`_impl::common_type<Lhs, Rhs>` and compared. -/
def operator_eq (Lhs Rhs : Operand) (lhs rhs : Value) : Option Bool :=
  (operand_common_type Lhs Rhs).bind fun C =>
    (operand_cast C Lhs lhs).bind fun x =>
      (operand_cast C Rhs rhs).map fun y => homogeneous_eq x y

/-- The heterogeneous `operator<`. -/
def operator_lt (Lhs Rhs : Operand) (lhs rhs : Value) : Option Bool :=
  (operand_common_type Lhs Rhs).bind fun C =>
    (operand_cast C Lhs lhs).bind fun x =>
      (operand_cast C Rhs rhs).map fun y => homogeneous_lt x y

/-- The heterogeneous `operator>`. -/
def operator_gt (Lhs Rhs : Operand) (lhs rhs : Value) : Option Bool :=
  (operand_common_type Lhs Rhs).bind fun C =>
    (operand_cast C Lhs lhs).bind fun x =>
      (operand_cast C Rhs rhs).map fun y => homogeneous_gt x y

/-- At least one of the two operand types is a `fixed_point`. -/
def Operand.one_is_fixed : Operand → Operand → Prop
  | .fixed _, _ => True
  | _, .fixed _ => True
  | _, _ => False

/-! ## Square root -/

/-- Built-in `a + b` for two operands of the same type `T` (promoted first). -/
def builtin_add (T : IntType) (a b : Int) : Int :=
  static_cast (promoted T) (a + b)

/-- Built-in `a - b` for two operands of the same type `T` (promoted first). -/
def builtin_sub (T : IntType) (a b : Int) : Int :=
  static_cast (promoted T) (a - b)

/-- The recursion of `_impl::sqrt_bit<ReprType>(n, bit)`,
`(bit > n) ? sqrt_bit<ReprType>(n, bit >> 2) : bit`, with an explicit bound on
its depth. -/
def sqrt_bit_aux (T : IntType) : Nat → Int → Int → Option Int
  | 0, _, _ => none
  | fuel + 1, n, bit =>
    if bit > n then
      (builtin_shr T bit 2).bind fun b => sqrt_bit_aux T fuel n (static_cast T b)
    else some bit

/-- Function template `_impl::sqrt_bit<ReprType>(n)` with the default argument
`bit = ReprType(1) << (num_bits<ReprType>() - 2)`. The candidate bit reaches
zero after `num_bits / 2` recursive calls; from then on the call repeats itself
with unchanged arguments, so a recursion that has not stopped within `num_bits`
calls never does, and has no result (`none`). -/
def sqrt_bit (T : IntType) (n : Int) : Option Int :=
  (builtin_shl T (static_cast T 1) (num_bits T - 2)).bind fun bit =>
    sqrt_bit_aux T (num_bits T) n (static_cast T bit)

/-- The recursion of `_impl::sqrt_solve3<ReprType>(n, bit, result)` with an
explicit bound on its depth. -/
def sqrt_solve3_aux (T : IntType) : Nat → Int → Int → Int → Option Int
  | 0, _, _, _ => none
  | fuel + 1, n, bit, result =>
    if bit ≠ 0 then
      if n ≥ builtin_add T result bit then
        (builtin_shr T bit 2).bind fun b =>
          (builtin_shr T result 1).bind fun r =>
            sqrt_solve3_aux T fuel
              (static_cast T (builtin_sub T n (builtin_add T result bit)))
              (static_cast T b) (static_cast T (builtin_add T r bit))
      else
        (builtin_shr T bit 2).bind fun b =>
          (builtin_shr T result 1).bind fun r =>
            sqrt_solve3_aux T fuel n (static_cast T b) (static_cast T r)
    else some result

/-- Function template `_impl::sqrt_solve3<ReprType>(n, bit, result)`; a
non-negative `bit` reaches zero within `num_bits / 2 + 1` calls. -/
def sqrt_solve3 (T : IntType) (n bit result : Int) : Option Int :=
  sqrt_solve3_aux T (num_bits T) n bit result

/-- Function template `_impl::sqrt_solve1<ReprType>(n)`:
`sqrt_solve3<ReprType>(n, sqrt_bit<ReprType>(n), 0)`. -/
def sqrt_solve1 (T : IntType) (n : Int) : Option Int :=
  (sqrt_bit T n).bind fun bit => sqrt_solve3 T n bit (static_cast T 0)

/-- Function template `sqrt(x)` for `fixed_point<ReprType, Exponent>`:
`from_data(static_cast<ReprType>(_impl::sqrt_solve1(promote(x).data())))`. -/
def sqrt (F : FixedPoint) (x : Int) : Option Int :=
  (promote F x).bind fun p =>
    (sqrt_solve1 (next_size F.repr_type) p).map (static_cast F.repr_type)

/-! ## Raw access, addition and exponent-only rescaling -/

/-- Member `fixed_point::data()`: returns the `_repr` member. -/
def data (_F : FixedPoint) (v : Int) : Int := v

/-- Static member `fixed_point::from_data(repr)`: `fixed_point(repr, 0)`, whose
`_repr` member is the argument, converted to the parameter type `repr_type`. -/
def from_data (F : FixedPoint) (repr : Int) : Int := static_cast F.repr_type repr

/-- The homogeneous `operator+` on two values of the same specialization:
`from_data(lhs.data() + rhs.data())`. -/
def operator_add (F : FixedPoint) (lhs rhs : Int) : Int :=
  from_data F (builtin_add F.repr_type (data F lhs) (data F rhs))

/-- Function template `_impl::add<Result, FixedPoint>(addend_head, addend_tail...)`
on addends of the specialization `Addend`: a single addend is
`static_cast<Result>(addend_head)`; otherwise
`add<Result, FixedPoint, Tail...>(addend_tail...) + static_cast<Result>(addend_head)`. -/
def add (Result Addend : FixedPoint) : Int → List Int → Option Int
  | addend_head, [] => fixed_point_to_repr Result Addend addend_head
  | addend_head, t :: ts =>
    (add Result Addend t ts).bind fun s =>
      (fixed_point_to_repr Result Addend addend_head).map fun h => operator_add Result s h

/-- Template alias `trunc_add_result<FixedPoint, N>`:
`make_fixed_from_repr<repr_type, integer_digits + capacity<N - 1>::value>`, the
subtraction being that of `unsigned` (32 bits). -/
def trunc_add_result (F : FixedPoint) (N : Nat) : FixedPoint :=
  make_fixed_from_repr F.repr_type
    (F.integer_digits + capacity ((N + (2 ^ 32 - 1)) % 2 ^ 32))

/-- Function template `trunc_add(addend1, addend_tail...)`:
`_impl::add<trunc_add_result<FixedPoint, sizeof...(Tail) + 1>, FixedPoint>(addend1, addend_tail...)`. -/
def trunc_add (F : FixedPoint) (addend1 : Int) (addend_tail : List Int) : Option Int :=
  add (trunc_add_result F (addend_tail.length + 1)) F addend1 addend_tail

/-- Return type of `trunc_shift_left<Integer>(fp)`:
`fixed_point<ReprType, Exponent + Integer>`. -/
def trunc_shift_left_result (Integer : Int) (F : FixedPoint) : FixedPoint :=
  ⟨F.repr_type, F.exponent + Integer⟩

/-- Function template `trunc_shift_left<Integer>(fp)`:
`fixed_point<ReprType, Exponent + Integer>::from_data(fp.data())`. -/
def trunc_shift_left (Integer : Int) (F : FixedPoint) (fp : Int) : Int :=
  from_data (trunc_shift_left_result Integer F) (data F fp)

/-- Return type of `trunc_shift_right<Integer>(fp)`:
`fixed_point<ReprType, Exponent - Integer>`. -/
def trunc_shift_right_result (Integer : Int) (F : FixedPoint) : FixedPoint :=
  ⟨F.repr_type, F.exponent - Integer⟩

/-- Function template `trunc_shift_right<Integer>(fp)`:
`fixed_point<ReprType, Exponent - Integer>::from_data(fp.data())`. -/
def trunc_shift_right (Integer : Int) (F : FixedPoint) (fp : Int) : Int :=
  from_data (trunc_shift_right_result Integer F) (data F fp)

/-! ## Facts about conversions and promotion -/

theorem num_bits_pos {T : IntType} (h : 0 < T.bytes) : 0 < num_bits T := by
  unfold num_bits; omega

theorem two_pow_num_bits {T : IntType} (h : 0 < T.bytes) :
    (2 : Int) ^ num_bits T = 2 * 2 ^ (num_bits T - 1) := by
  have hb := num_bits_pos h
  obtain ⟨k, hk⟩ : ∃ k, num_bits T = k + 1 := ⟨num_bits T - 1, by omega⟩
  rw [hk, pow_succ]; simp [mul_comm]

theorem static_cast_modEq (T : IntType) (x : Int) :
    static_cast T x ≡ x [ZMOD 2 ^ num_bits T] := by
  unfold static_cast
  split
  · have h := (Int.mod_modEq (x + 2 ^ (num_bits T - 1)) (2 ^ num_bits T)).sub_right
      (2 ^ (num_bits T - 1))
    simpa using h
  · exact Int.mod_modEq _ _

theorem static_cast_holds {T : IntType} (h : 0 < T.bytes) (x : Int) :
    T.holds (static_cast T x) := by
  have hm : (0 : Int) < 2 ^ num_bits T := by positivity
  have h2 := two_pow_num_bits h
  unfold IntType.holds IntType.min_value IntType.max_value static_cast
  split
  · have h0 := Int.emod_nonneg (x + 2 ^ (num_bits T - 1)) hm.ne'
    have h1 := Int.emod_lt_of_pos (x + 2 ^ (num_bits T - 1)) hm
    constructor <;> omega
  · have h0 := Int.emod_nonneg x hm.ne'
    have h1 := Int.emod_lt_of_pos x hm
    constructor <;> omega

theorem static_cast_of_holds {T : IntType} (h : 0 < T.bytes) {x : Int} (hx : T.holds x) :
    static_cast T x = x := by
  have h2 := two_pow_num_bits h
  unfold IntType.holds IntType.min_value IntType.max_value at hx
  unfold static_cast
  split
  · rename_i hs
    simp only [hs, if_true] at hx
    rw [Int.emod_eq_of_lt (by omega) (by omega)]; omega
  · rename_i hs
    simp only [hs] at hx
    exact Int.emod_eq_of_lt (by simpa using hx.1) (by have := hx.2; simp at this; omega)

theorem static_cast_congr (T : IntType) {x y : Int} (h : x ≡ y [ZMOD 2 ^ num_bits T]) :
    static_cast T x = static_cast T y := by
  unfold static_cast
  split
  · have := h.add_right (2 ^ (num_bits T - 1))
    unfold Int.ModEq at this
    rw [this]
  · exact h

theorem static_cast_unique {T : IntType} (h : 0 < T.bytes) {r x : Int} (hr : T.holds r)
    (hc : r ≡ x [ZMOD 2 ^ num_bits T]) : r = static_cast T x := by
  rw [← static_cast_congr T hc, static_cast_of_holds h hr]

theorem modEq_of_num_bits_le {T U : IntType} (h : num_bits T ≤ num_bits U) {x y : Int}
    (hxy : x ≡ y [ZMOD 2 ^ num_bits U]) : x ≡ y [ZMOD 2 ^ num_bits T] :=
  Int.ModEq.of_dvd (pow_dvd_pow 2 h) hxy

theorem static_cast_static_cast {T U : IntType} (h : num_bits T ≤ num_bits U) (x : Int) :
    static_cast T (static_cast U x) = static_cast T x :=
  static_cast_congr T (modEq_of_num_bits_le h (static_cast_modEq U x))

theorem num_bits_le_promoted (T : IntType) : num_bits T ≤ num_bits (promoted T) := by
  unfold promoted; split <;> omega

theorem promoted_bytes_pos {T : IntType} (h : 0 < T.bytes) : 0 < (promoted T).bytes := by
  unfold promoted; split
  · decide
  · exact h

theorem num_bits_promoted_signed (T : IntType) :
    num_bits (promoted (make_signed T)) = num_bits (promoted T) := by
  unfold promoted make_signed make_int num_bits; simp only []; split <;> rfl

/-! ## The value computed by the shift primitives -/

theorem shift_left_unsigned_eq (n : Nat) (O : IntType) (i : Int)
    (hn : n < shift_left_width O) :
    shift_left_unsigned n O i = some (static_cast O (i * 2 ^ n)) := by
  unfold shift_left_width at hn
  unfold shift_left_unsigned builtin_shl
  rw [if_pos hn]
  simp only [Option.map_some']
  congr 1
  apply static_cast_congr
  have h1 := modEq_of_num_bits_le (num_bits_le_promoted O)
    (static_cast_modEq (promoted O) (static_cast O i * 2 ^ n))
  exact h1.trans ((static_cast_modEq O i).mul_right _)

theorem holds_neg_signed {T : IntType} {x : Int} (hx : T.holds x) (hneg : x < 0) :
    T.is_signed = true := by
  unfold IntType.holds IntType.min_value at hx
  by_contra hs
  simp only [hs] at hx
  have := hx.1
  simp at this
  omega

theorem static_cast_unsigned_nonneg {T : IntType} (h : 0 < T.bytes) {x : Int}
    (hx : T.holds x) (h0 : 0 ≤ x) : static_cast (make_unsigned T) x = x := by
  have h2 := two_pow_num_bits h
  apply static_cast_of_holds (T := make_unsigned T) h
  unfold IntType.holds IntType.min_value IntType.max_value at *
  have hb : num_bits (make_unsigned T) = num_bits T := rfl
  simp only [make_unsigned, make_int, hb] at *
  have hp : (0 : Int) < 2 ^ (num_bits T - 1) := by positivity
  constructor
  · simpa using h0
  · have := hx.2
    split at this <;> simp <;> omega

theorem holds_of_wider {I O : IntType} {x : Int} (hI : 0 < I.bytes) (hx : I.holds x)
    (hw : I.bytes < O.bytes) (hs : x < 0 → O.is_signed = true) : O.holds x := by
  have hb : num_bits I ≤ num_bits O - 1 := by unfold num_bits; omega
  have hp : (2 : Int) ^ num_bits I ≤ 2 ^ (num_bits O - 1) :=
    pow_le_pow_right₀ (by norm_num) hb
  have hO : 0 < O.bytes := by omega
  have h2 := two_pow_num_bits hI
  have h3 := two_pow_num_bits hO
  have hq : (0 : Int) < 2 ^ (num_bits I - 1) := by positivity
  unfold IntType.holds IntType.min_value IntType.max_value at *
  obtain ⟨h1, h4⟩ := hx
  by_cases h0 : x < 0
  · have hsI : I.is_signed = true := by
      by_contra hc
      simp only [hc] at h1
      simp at h1; omega
    simp only [hs h0, hsI, if_true] at *
    constructor <;> omega
  · constructor
    · split <;> omega
    · split at h4 <;> split <;> omega

theorem holds_promoted {T : IntType} (hT : 0 < T.bytes) {x : Int} (hx : T.holds x) :
    (promoted T).holds x := by
  unfold promoted
  split
  · rename_i h
    refine holds_of_wider hT hx ?_ (fun _ => rfl)
    unfold num_bits int make_int at h
    simp only [] at h
    show T.bytes < 4
    omega
  · exact hx

theorem promoted_signed_of_signed {T : IntType} (hs : T.is_signed = true) :
    (promoted T).is_signed = true := by
  unfold promoted; split
  · rfl
  · exact hs

theorem holds_neg_of_ne_min {T : IntType} (hs : T.is_signed = true) {x : Int}
    (hx : T.holds x) (hne : x ≠ T.min_value) : T.holds (-x) := by
  unfold IntType.holds IntType.min_value IntType.max_value at *
  simp only [hs, if_true] at *
  constructor <;> omega

/-- Built-in negation of a value of a signed type other than the most negative
value of the promoted type. -/
theorem builtin_neg_eq {T : IntType} (hT : 0 < T.bytes) (hs : T.is_signed = true) {x : Int}
    (hx : T.holds x) (hne : x ≠ (promoted T).min_value) : builtin_neg T x = some (-x) := by
  have hps := promoted_signed_of_signed hs
  have hn := holds_neg_of_ne_min hps (holds_promoted hT hx) hne
  unfold builtin_neg
  rw [if_neg (fun h => h.2 hn), static_cast_of_holds (promoted_bytes_pos hT) hn]

/-- Built-in negation of the most negative value of a signed promoted type has
no defined result. -/
theorem builtin_neg_min {T : IntType} (hT : 0 < T.bytes) (hs : (promoted T).is_signed = true) :
    builtin_neg T (promoted T).min_value = none := by
  have hp := promoted_bytes_pos hT
  have h2 := two_pow_num_bits hp
  have hq : (0 : Int) < 2 ^ (num_bits (promoted T) - 1) := by positivity
  unfold builtin_neg
  rw [if_pos]
  refine ⟨hs, ?_⟩
  unfold IntType.holds IntType.min_value IntType.max_value
  simp only [hs, if_true]
  omega

/-- Built-in product that is representable in the promoted type. -/
theorem builtin_mul_eq {T : IntType} (hT : 0 < T.bytes) {a b : Int}
    (hp : (promoted T).holds (a * b)) : builtin_mul T a b = some (a * b) := by
  unfold builtin_mul
  rw [if_neg (fun h => h.2 hp), static_cast_of_holds (promoted_bytes_pos hT) hp]

theorem static_cast_unsigned_neg {T : IntType} (h : 0 < T.bytes) {x : Int}
    (hx : T.holds x) (h0 : x < 0) :
    static_cast (make_unsigned T) (-x) = -x := by
  have h2 := two_pow_num_bits h
  have hs := holds_neg_signed hx h0
  have hb : num_bits (make_unsigned T) = num_bits T := rfl
  apply static_cast_of_holds (T := make_unsigned T) h
  unfold IntType.holds IntType.min_value IntType.max_value at *
  simp only [make_unsigned, make_int, hb, hs, if_true] at *
  have hp : (0 : Int) < 2 ^ (num_bits T - 1) := by positivity
  constructor
  · simp; omega
  · simp; omega

theorem make_signed_eq_self {T : IntType} (hs : T.is_signed = true) : make_signed T = T := by
  obtain ⟨s, b⟩ := T
  simp only at hs
  subst hs
  rfl

theorem promoted_min_value_le {T : IntType} (hs : T.is_signed = true) :
    (promoted T).min_value ≤ T.min_value ∧
      ((promoted T).min_value = T.min_value → promoted T = T) := by
  unfold promoted
  split
  · rename_i h
    have h32 : num_bits int = 32 := rfl
    rw [h32] at h
    have hlt : (2 : Int) ^ (num_bits T - 1) < 2 ^ 31 :=
      pow_lt_pow_right₀ (by norm_num) (by omega)
    have hm : int.min_value = -(2 ^ 31) := by decide
    have hTm : T.min_value = -(2 ^ (num_bits T - 1)) := by
      unfold IntType.min_value; rw [if_pos hs]
    rw [hm, hTm]
    constructor
    · omega
    · intro he; omega
  · exact ⟨le_refl _, fun _ => rfl⟩

/-- The magnitude of a negative value of `Output` other than the most negative
value of the promoted type, converted to `make_signed<Output>`, is not the most
negative value of the promoted type either: the outer negation is defined. -/
theorem magnitude_ne_min {O : IntType} (hO : 0 < O.bytes) {r : Int} (hr : O.holds r)
    (h0 : r < 0) (hne : r ≠ (promoted (make_signed O)).min_value) :
    static_cast (make_signed O) (-r) ≠ (promoted (make_signed O)).min_value := by
  have hs := holds_neg_signed hr h0
  rw [make_signed_eq_self hs] at hne ⊢
  obtain ⟨hle, heq⟩ := promoted_min_value_le hs
  intro hc
  have hh := static_cast_holds hO (-r)
  have hmin : (promoted O).min_value = O.min_value := by
    have := hh.1
    omega
  rw [heq hmin] at hne hc
  have hn := holds_neg_of_ne_min hs hr hne
  rw [static_cast_of_holds hO hn] at hc
  have : O.min_value ≤ r := hr.1
  omega

theorem shift_left_signed_eq (n : Nat) (O I : IntType) (i : Int)
    (hO : 0 < O.bytes) (hI : 0 < I.bytes) (hi : I.holds i) (hn : n < shift_left_width O)
    (hneg : i < 0 → i ≠ (promoted I).min_value ∧
      static_cast (make_signed O) (-i * 2 ^ n) ≠ (promoted (make_signed O)).min_value) :
    shift_left_signed n O I i = some (static_cast O (i * 2 ^ n)) := by
  have hw : n < shift_left_width (make_signed O) := by
    unfold shift_left_width at *; rw [num_bits_promoted_signed]; exact hn
  have hb : num_bits O ≤ num_bits (make_signed O) := le_of_eq rfl
  unfold shift_left_signed
  simp only []
  split
  · rename_i h0
    rw [shift_left_unsigned_eq n _ _ hw, static_cast_unsigned_nonneg hI hi h0]
    simp only [Option.map_some']
    rw [static_cast_static_cast hb]
  · rename_i h0
    have h0' : i < 0 := by omega
    obtain ⟨h1, h2⟩ := hneg h0'
    have hsO : 0 < (make_signed O).bytes := hO
    rw [builtin_neg_eq hI (holds_neg_signed hi h0') hi h1]
    simp only [Option.some_bind]
    rw [static_cast_unsigned_neg hI hi h0', shift_left_unsigned_eq n _ _ hw]
    simp only [Option.some_bind]
    rw [builtin_neg_eq hsO rfl (static_cast_holds hsO _) h2]
    simp only [Option.map_some']
    congr 1
    apply static_cast_congr
    have h3 := (modEq_of_num_bits_le hb (static_cast_modEq (make_signed O) (-i * 2 ^ n))).neg
    refine h3.trans ?_
    rw [neg_mul, neg_neg]

theorem shift_left_pos_eq (n : Nat) (O I : IntType) (i : Int)
    (hO : 0 < O.bytes) (hI : 0 < I.bytes) (hi : I.holds i) (hn : n < shift_left_width O)
    (hneg : i < 0 → i ≠ (promoted I).min_value ∧
      static_cast (make_signed O) (-i * 2 ^ n) ≠ (promoted (make_signed O)).min_value) :
    shift_left_pos n O I i = some (static_cast O (i * 2 ^ n)) := by
  unfold shift_left_pos
  split
  · exact shift_left_signed_eq n O I i hO hI hi hn hneg
  · exact shift_left_unsigned_eq n O i hn

/-- The signed overload of `shift_left` has no defined result on the most
negative value of an `Input` at least as wide as `int`. -/
theorem shift_left_signed_min (n : Nat) (O I : IntType) (hI : 0 < I.bytes)
    (hs : (promoted I).is_signed = true) :
    shift_left_signed n O I (promoted I).min_value = none := by
  have hp := promoted_bytes_pos hI
  have hq : (0 : Int) < 2 ^ (num_bits (promoted I) - 1) := by positivity
  have hneg : ¬ (0 ≤ (promoted I).min_value) := by
    unfold IntType.min_value; rw [if_pos hs]; omega
  unfold shift_left_signed
  simp only []
  rw [if_neg hneg, builtin_neg_min hI hs]
  rfl

theorem shift_right_pos_eq (n : Nat) (O I : IntType) (i : Int)
    (hO : 0 < O.bytes) (hc : O.bytes ≤ I.bytes ∨ O.holds i)
    (hn : n < shift_right_width O I) :
    shift_right_pos n O I i = some (static_cast O (i / 2 ^ n)) := by
  unfold shift_right_width at hn
  unfold shift_right_pos builtin_shr
  split
  · rename_i hle
    rw [if_pos hle] at hn
    rw [if_pos hn]; rfl
  · rename_i hle
    rw [if_neg hle] at hn
    rw [if_pos hn]
    have := static_cast_of_holds hO (hc.resolve_left hle)
    rw [this]; rfl

/-! ## Scaling by powers of two -/

theorem floor_scale_of_nonneg (x : Int) {k : Int} (hk : 0 ≤ k) :
    floor_scale x k = x * 2 ^ k.toNat := by
  unfold floor_scale
  obtain ⟨n, rfl⟩ := Int.eq_ofNat_of_zero_le hk
  simp only [Int.toNat_ofNat, zpow_natCast]
  have : ((x : ℚ) * 2 ^ n) = (((x * 2 ^ n : Int)) : ℚ) := by push_cast; ring
  rw [this, Int.floor_intCast]

theorem floor_scale_of_neg (x : Int) {k : Int} (hk : k < 0) :
    floor_scale x k = x / 2 ^ (-k).toNat := by
  unfold floor_scale
  obtain ⟨n, hn⟩ : ∃ n : Nat, k = -(n : Int) := ⟨(-k).toNat, by omega⟩
  subst hn
  simp only [neg_neg, Int.toNat_ofNat, zpow_neg, zpow_natCast]
  have h := Rat.floor_intCast_div_natCast x (2 ^ n)
  have e : ((x : ℚ) * ((2 : ℚ) ^ n)⁻¹) = (x : ℚ) / ((2 ^ n : Nat) : ℚ) := by
    push_cast; rw [div_eq_mul_inv]
  rw [e, h]; push_cast; rfl

theorem floor_scale_zero (x : Int) : floor_scale x 0 = x := by
  rw [floor_scale_of_nonneg x (le_refl 0)]; simp

theorem scale_exact_of_nonneg (x : Int) {k : Int} (hk : 0 ≤ k) :
    (x : ℚ) * 2 ^ k = ((x * 2 ^ k.toNat : Int) : ℚ) := by
  obtain ⟨n, rfl⟩ := Int.eq_ofNat_of_zero_le hk
  simp only [Int.toNat_ofNat, zpow_natCast]
  push_cast; ring

theorem holds_rat_of_holds {T : IntType} {x : Int} (h : T.holds x) : T.holds_rat (x : ℚ) := by
  unfold IntType.holds at h
  exact ⟨by exact_mod_cast h.1, by exact_mod_cast h.2⟩

theorem supported_pos {T : IntType} (h : T.supported) : 0 < T.bytes := by
  unfold IntType.supported at h; omega

/-! ## Ranges of wider types -/

theorem num_bits_promoted_mono {T U : IntType} (h : T.bytes ≤ U.bytes) :
    num_bits (promoted T) ≤ num_bits (promoted U) := by
  unfold promoted num_bits int make_int
  split <;> split <;> omega

theorem shift_left_width_le_right (O I : IntType) :
    shift_left_width O ≤ shift_right_width O I := by
  unfold shift_left_width shift_right_width
  split
  · rename_i h; exact num_bits_promoted_mono h
  · exact le_refl _

theorem shift_left_width_le_right' (O I : IntType) :
    shift_left_width I ≤ shift_right_width O I := by
  unfold shift_left_width shift_right_width
  split
  · exact le_refl _
  · rename_i h; exact num_bits_promoted_mono (by omega)

theorem num_bits_le_shift_left_width (T : IntType) : num_bits T ≤ shift_left_width T :=
  num_bits_le_promoted T

/-! ## Integer round trip -/

theorem pow2_pos_eq (n : Nat) : pow2_pos n = 2 ^ n := by
  induction n with
  | zero => rfl
  | succ n ih => rw [pow2_pos, ih, pow_succ]

theorem pow2_neg_eq (n : Nat) : pow2_neg n = (2 ^ n)⁻¹ := by
  induction n with
  | zero => simp [pow2_neg]
  | succ n ih => rw [pow2_neg, ih, pow_succ, mul_inv]; simp

theorem pow2_eq (e : Int) : pow2 e = 2 ^ e := by
  unfold pow2
  split
  · rename_i h
    obtain ⟨n, rfl⟩ := Int.eq_ofNat_of_zero_le h
    simp [pow2_pos_eq]
  · rename_i h
    obtain ⟨n, hn⟩ : ∃ n : Nat, e = -(n : Int) := ⟨(-e).toNat, by omega⟩
    subst hn
    simp [pow2_neg_eq]

theorem float_trunc_holds {T : IntType} {q : ℚ} (h : T.holds_rat q) :
    T.holds (round_toward_zero q) := by
  unfold IntType.holds_rat at h
  unfold IntType.holds round_toward_zero
  split
  · exact ⟨Int.le_floor.mpr h.1, by
      have := (Int.floor_le q).trans h.2
      exact_mod_cast this⟩
  · exact ⟨by
      have := h.1.trans (Int.le_ceil q)
      exact_mod_cast this, Int.ceil_le.mpr h.2⟩

theorem float_trunc_abs_sub_lt (q : ℚ) : |((round_toward_zero q : Int) : ℚ) - q| < 1 := by
  unfold round_toward_zero
  split
  · rw [abs_lt]
    have h1 := Int.floor_le q
    have h2 := Int.lt_floor_add_one q
    constructor <;> linarith
  · rw [abs_lt]
    have h1 := Int.le_ceil q
    have h2 := Int.ceil_lt_add_one q
    constructor <;> linarith

/-- C2: with floating-point values modelled as exact rationals, for every
`fixed_point<R,E>` and every `f` such that `f * 2^(-E)` lies within the range
of `R`, `floating_point_to_repr` yields a representation `r`, and converting it
back gives `g = r * 2^E` with `|g - f| < 2^E`; every in-range multiple of `2^E`
round-trips exactly; and `3.5` in `fixed_point<int8_t, -4>` has raw
representation `56`, which converts back to exactly `3.5`. -/
theorem C2_floating_point_round_trip :
    (∀ (F : FixedPoint) (f : ℚ), F.repr_type.holds_rat (f * 2 ^ (-F.exponent)) →
      ∃ r : Int, floating_point_to_repr F f = some r ∧
        |repr_to_floating_point F r - f| < 2 ^ F.exponent ∧
        ((∃ m : Int, f = (m : ℚ) * 2 ^ F.exponent) → repr_to_floating_point F r = f)) ∧
    floating_point_to_repr ⟨int8, -4⟩ (7 / 2) = some 56 ∧
    repr_to_floating_point ⟨int8, -4⟩ 56 = 7 / 2 := by
  have hgen : ∀ (F : FixedPoint) (f : ℚ), F.repr_type.holds_rat (f * 2 ^ (-F.exponent)) →
      ∃ r : Int, floating_point_to_repr F f = some r ∧
        |repr_to_floating_point F r - f| < 2 ^ F.exponent ∧
        ((∃ m : Int, f = (m : ℚ) * 2 ^ F.exponent) → repr_to_floating_point F r = f) := by
    intro F f hf
    have hp : (0 : ℚ) < 2 ^ F.exponent := by positivity
    have hinv : (2 : ℚ) ^ (-F.exponent) * 2 ^ F.exponent = 1 := by
      rw [← zpow_add₀ (by norm_num : (2 : ℚ) ≠ 0)]; simp
    refine ⟨round_toward_zero (f * 2 ^ (-F.exponent)), ?_, ?_, ?_⟩
    · unfold floating_point_to_repr float_to_int FixedPoint.one
      rw [pow2_eq, if_pos (float_trunc_holds hf)]
    · unfold repr_to_floating_point FixedPoint.inverse_one
      rw [pow2_eq]
      have hlt := float_trunc_abs_sub_lt (f * 2 ^ (-F.exponent))
      have e : ∀ t : ℚ, t * 2 ^ F.exponent - f = (t - f * 2 ^ (-F.exponent)) * 2 ^ F.exponent := by
        intro t
        rw [sub_mul, mul_assoc, hinv, mul_one]
      rw [e, abs_mul, abs_of_pos hp]
      calc _ < 1 * (2 : ℚ) ^ F.exponent := mul_lt_mul_of_pos_right hlt hp
        _ = 2 ^ F.exponent := one_mul _
    · rintro ⟨m, rfl⟩
      unfold repr_to_floating_point FixedPoint.inverse_one
      rw [pow2_eq]
      have e : (m : ℚ) * 2 ^ F.exponent * 2 ^ (-F.exponent) = (m : ℚ) := by
        rw [mul_assoc, mul_comm ((2 : ℚ) ^ F.exponent), hinv, mul_one]
      rw [e]
      congr 1
      unfold round_toward_zero
      split
      · rw [Int.floor_intCast]
      · rw [Int.ceil_intCast]
  refine ⟨hgen, ?_, ?_⟩
  · obtain ⟨r, hr, -, hex⟩ := hgen ⟨int8, -4⟩ (7 / 2) (by
      unfold IntType.holds_rat
      norm_num [IntType.min_value, IntType.max_value, int8, make_int, num_bits])
    have h56 := hex ⟨56, by norm_num⟩
    unfold repr_to_floating_point FixedPoint.inverse_one at h56
    rw [pow2_eq] at h56
    have : (r : ℚ) = 56 := by
      have h16 : (2 : ℚ) ^ (-4 : Int) = 1 / 16 := by norm_num
      simp only [h16] at h56
      linarith
    have : r = 56 := by exact_mod_cast this
    rw [hr, this]
  · unfold repr_to_floating_point FixedPoint.inverse_one
    rw [pow2_eq]
    norm_num

/-! ## The shift primitives as scaling by a power of two -/

theorem shift_left_eq_shift_right_neg (e : Int) (O I : IntType) (x : Int) :
    shift_left e O I x = shift_right (-e) O I x := by
  unfold shift_left shift_right
  by_cases h0 : e = 0
  · simp [h0]
  · have h0' : ¬ -e = 0 := by omega
    by_cases hp : 0 < e
    · have hn : ¬ 0 < -e := by omega
      simp only [h0, h0', hp, hn, if_true, if_false, neg_neg]
    · have hn : 0 < -e := by omega
      simp only [h0, h0', hp, hn, if_true, if_false]

theorem shift_left_width_ge (O : IntType) : 32 ≤ shift_left_width O := by
  unfold shift_left_width promoted
  have h32 : num_bits int = 32 := rfl
  split
  · omega
  · omega

theorem shift_left_in_width_iff (e : Int) (O I : IntType) :
    shift_left_in_width e O I ↔ shift_right_in_width (-e) O I := by
  unfold shift_left_in_width shift_right_in_width
  have hw := shift_left_width_le_right O I
  have hg := shift_left_width_ge O
  by_cases h0 : e = 0
  · subst h0
    simp only [lt_self_iff_false, if_false, neg_zero]
    constructor <;> intro h <;> omega
  · by_cases hp : 0 < e
    · have hn : ¬ 0 < -e := by omega
      simp only [hp, hn, if_true, if_false, neg_neg]
    · have hn : 0 < -e := by omega
      simp only [hp, hn, if_true, if_false]

/-- Value of `shift_right<e, O, I>(x)` whenever the exponent is within the
shift width: `floor(x * 2^(-e))` converted to `O` (when the input is cast before
a right shift, it has to be representable in `O`; when a negative input is
shifted left, its two negations have to be defined). -/
theorem shift_right_eq_cast (e : Int) (O I : IntType) (x : Int)
    (hO : 0 < O.bytes) (hI : 0 < I.bytes) (hx : I.holds x)
    (hw : shift_right_in_width e O I)
    (hc : 0 < e → O.bytes ≤ I.bytes ∨ O.holds x)
    (hneg : e < 0 → x < 0 → x ≠ (promoted I).min_value ∧
      static_cast (make_signed O) (-x * 2 ^ (-e).toNat) ≠ (promoted (make_signed O)).min_value) :
    shift_right e O I x = some (static_cast O (floor_scale x (-e))) := by
  unfold shift_right_in_width at hw
  unfold shift_right
  by_cases h0 : e = 0
  · subst h0
    simp only [if_true, neg_zero, floor_scale_zero]
  · by_cases hp : 0 < e
    · simp only [h0, hp, if_true, if_false] at hw ⊢
      rw [shift_right_pos_eq _ O I x hO (hc hp) (by omega),
        floor_scale_of_neg x (by omega : -e < 0), neg_neg]
    · simp only [h0, hp, if_false] at hw ⊢
      rw [shift_left_pos_eq _ O I x hO hI hx (by omega) (hneg (by omega)),
        floor_scale_of_nonneg x (by omega : 0 ≤ -e)]

theorem floor_scale_neg_of_neg {x : Int} (hx : x < 0) (k : Int) : floor_scale x k < 0 := by
  unfold floor_scale
  rw [Int.floor_lt]
  have hp : (0 : ℚ) < 2 ^ k := by positivity
  have : (x : ℚ) < 0 := by exact_mod_cast hx
  simpa using mul_neg_of_neg_of_pos this hp

/-- Value of `shift_right<e, O, I>(x)` whenever the exponent is within the
shift width, the scaled value is representable in `O` and the negations of a
left shift are defined: exactly `floor(x * 2^(-e))`. -/
theorem shift_right_eq_floor (e : Int) (O I : IntType) (x : Int)
    (hO : 0 < O.bytes) (hI : 0 < I.bytes) (hx : I.holds x)
    (hw : shift_right_in_width e O I) (hr : O.holds (floor_scale x (-e)))
    (hneg : shift_right_negation_defined e O I x) :
    shift_right e O I x = some (floor_scale x (-e)) := by
  rw [shift_right_eq_cast e O I x hO hI hx hw, static_cast_of_holds hO hr]
  · intro _
    by_cases hle : O.bytes ≤ I.bytes
    · exact Or.inl hle
    · refine Or.inr (holds_of_wider hI hx (by omega) ?_)
      intro hneg
      exact holds_neg_signed hr (floor_scale_neg_of_neg hneg _)
  · intro he h0
    obtain ⟨h1, h2⟩ := hneg he h0
    refine ⟨h1, ?_⟩
    rw [floor_scale_of_nonneg x (by omega : 0 ≤ -e)] at hr
    rw [neg_mul]
    exact magnitude_ne_min hO hr (mul_neg_of_neg_of_pos h0 (by positivity)) h2

theorem shift_left_negation_defined_iff (e : Int) (O I : IntType) (x : Int) :
    shift_left_negation_defined e O I x ↔ shift_right_negation_defined (-e) O I x := by
  unfold shift_left_negation_defined shift_right_negation_defined
  rw [neg_neg]
  constructor
  · intro h he
    exact h (by omega)
  · intro h he
    exact h (by omega)

theorem shift_left_eq_floor (e : Int) (O I : IntType) (x : Int)
    (hO : 0 < O.bytes) (hI : 0 < I.bytes) (hx : I.holds x)
    (hw : shift_left_in_width e O I) (hr : O.holds (floor_scale x e))
    (hneg : shift_left_negation_defined e O I x) :
    shift_left e O I x = some (floor_scale x e) := by
  rw [shift_left_eq_shift_right_neg]
  have := shift_right_eq_floor (-e) O I x hO hI hx
    ((shift_left_in_width_iff e O I).mp hw) (by rwa [neg_neg])
    ((shift_left_negation_defined_iff e O I x).mp hneg)
  rwa [neg_neg] at this

/-- The negations of a left shift are defined whenever the input is not
negative. -/
theorem shift_left_negation_defined_of_nonneg (e : Int) (O I : IntType) {x : Int}
    (hx : 0 ≤ x) : shift_left_negation_defined e O I x := by
  intro _ h
  omega

theorem shift_right_negation_defined_of_nonneg (e : Int) (O I : IntType) {x : Int}
    (hx : 0 ≤ x) : shift_right_negation_defined e O I x := by
  intro _ h
  omega

/-- No negation is executed when `shift_right` shifts to the right. -/
theorem shift_right_negation_defined_of_exp (O I : IntType) (x : Int) {e : Int}
    (he : 0 ≤ e) : shift_right_negation_defined e O I x := by
  intro h
  omega

theorem shift_left_negation_defined_of_exp (O I : IntType) (x : Int) {e : Int}
    (he : e ≤ 0) : shift_left_negation_defined e O I x := by
  intro h
  omega

/-- The negations of a left shift are defined whenever input and output are
narrower than `int`. -/
theorem shift_right_negation_defined_of_narrow (e : Int) (O I : IntType) {x : Int}
    (hO : 0 < O.bytes) (hI : 0 < I.bytes) (hx : I.holds x)
    (hr : O.holds (x * 2 ^ (-e).toNat))
    (hIn : I.bytes < 4) (hOn : O.bytes < 4) : shift_right_negation_defined e O I x := by
  intro _ h0
  have hr0 : x * 2 ^ (-e).toNat < 0 := mul_neg_of_neg_of_pos h0 (by positivity)
  have hsI := holds_neg_signed hx h0
  have hsO := holds_neg_signed hr hr0
  have hpI : promoted I = int := by
    unfold promoted; rw [if_pos]; unfold num_bits int make_int; simp only []; omega
  have hpO : promoted (make_signed O) = int := by
    unfold promoted; rw [if_pos]; unfold num_bits int make_signed make_int; simp only []; omega
  have hm : int.min_value = -(2 ^ 31) := by decide
  have hIm : I.min_value = -(2 ^ (num_bits I - 1)) := by
    unfold IntType.min_value; rw [if_pos hsI]
  have hOm : O.min_value = -(2 ^ (num_bits O - 1)) := by
    unfold IntType.min_value; rw [if_pos hsO]
  have hI2 : (2 : Int) ^ (num_bits I - 1) < 2 ^ 31 :=
    pow_lt_pow_right₀ (by norm_num) (by unfold num_bits; omega)
  have hO2 : (2 : Int) ^ (num_bits O - 1) < 2 ^ 31 :=
    pow_lt_pow_right₀ (by norm_num) (by unfold num_bits; omega)
  have h1 := hx.1
  have h2 := hr.1
  rw [hpI, hpO, hm]
  constructor <;> omega

theorem floor_scale_eq_floor_div (x : Int) (N : Int) :
    floor_scale x (-N) = ⌊(x : ℚ) / 2 ^ N⌋ := by
  unfold floor_scale
  rw [zpow_neg, div_eq_mul_inv]

/-! ## Claims on the shift primitives -/

/-- C7: for every constant `N` with `0 < N` smaller than the width at which the
shift is performed, all signed `Input` and `Output` types and every value `x` of
`Input` (negative ones included), `shift_right<N, Output, Input>(x)` is
`floor(x / 2^N)` converted to `Output`: it rounds toward negative infinity, not
toward zero; e.g. `shift_right<1>(-1) = -1` and `shift_right<4>(-56) = -4`. -/
theorem C7_shift_right_floors :
    (∀ (N : Int) (O I : IntType) (x : Int), O.supported → I.supported →
      O.is_signed = true → I.is_signed = true → I.holds x →
      0 < N → N < shift_right_width O I →
      shift_right N O I x = some (static_cast O ⌊(x : ℚ) / 2 ^ N⌋)) ∧
    shift_right 1 int int (-1) = some (-1) ∧
    shift_right 4 int8 int8 (-56) = some (-4) := by
  refine ⟨?_, by decide, by decide⟩
  intro N O I x hO hI hsO hsI hx hN hw
  rw [← floor_scale_eq_floor_div]
  refine shift_right_eq_cast N O I x (supported_pos hO) (supported_pos hI) hx ?_ ?_
    (by intro h; omega)
  · unfold shift_right_in_width; rw [if_pos hN]; exact hw
  · intro _
    by_cases hle : O.bytes ≤ I.bytes
    · exact Or.inl hle
    · exact Or.inr (holds_of_wider (supported_pos hI) hx (by omega) (fun _ => hsO))

/-- Witness for C7: `shift_right<3, int32_t, int8_t>(-7)`. -/
theorem C7_shift_right_floors_witness :
    shift_right 3 int int8 (-7) = some (static_cast int ⌊((-7 : Int) : ℚ) / 2 ^ (3 : Int)⌋) :=
  C7_shift_right_floors.1 3 int int8 (-7) (by decide) (by decide) rfl rfl (by decide)
    (by decide) (by decide)

theorem digits_eq_value_bits {F : FixedPoint} (h : 0 < F.repr_type.bytes) :
    F.digits = (F.repr_type.value_bits : Int) := by
  have := num_bits_pos h
  unfold FixedPoint.digits IntType.value_bits
  split <;> omega

theorem holds_iff_value_bits {T : IntType} (hT : 0 < T.bytes) (x : Int) :
    T.holds x ↔ (x < 0 → T.is_signed = true) ∧
      -(2 : Int) ^ T.value_bits ≤ x ∧ x < 2 ^ T.value_bits := by
  have hb := num_bits_pos hT
  have hq : (0 : Int) < 2 ^ (num_bits T - 1) := by positivity
  have hq' : (0 : Int) < 2 ^ num_bits T := by positivity
  unfold IntType.holds IntType.min_value IntType.max_value IntType.value_bits
  cases hs : T.is_signed
  · simp only [Bool.false_eq_true, if_false, Nat.sub_zero, imp_false, not_lt]
    constructor
    · rintro ⟨h1, h2⟩; exact ⟨h1, by omega, by omega⟩
    · rintro ⟨h1, _, h2⟩; exact ⟨h1, by omega⟩
  · simp only [if_true, imp_true_iff, true_and]
    constructor
    · rintro ⟨h1, h2⟩; exact ⟨h1, by omega⟩
    · rintro ⟨h1, h2⟩; exact ⟨h1, by omega⟩

theorem scale_bounds (a : Int) (da dc k : Int) (h : da + k ≤ dc)
    (hlo : -(2 : ℚ) ^ da ≤ a) (hhi : (a : ℚ) < 2 ^ da) :
    -(2 : ℚ) ^ dc ≤ (a : ℚ) * 2 ^ k ∧ (a : ℚ) * 2 ^ k < 2 ^ dc := by
  have hk : (0 : ℚ) < 2 ^ k := by positivity
  have hmono : (2 : ℚ) ^ (da + k) ≤ 2 ^ dc := zpow_le_zpow_right₀ (by norm_num) h
  have hsplit : (2 : ℚ) ^ (da + k) = 2 ^ da * 2 ^ k := zpow_add₀ (by norm_num) _ _
  constructor
  · have : -(2 : ℚ) ^ da * 2 ^ k ≤ (a : ℚ) * 2 ^ k := mul_le_mul_of_nonneg_right hlo hk.le
    linarith
  · have : (a : ℚ) * 2 ^ k < 2 ^ da * 2 ^ k := mul_lt_mul_of_pos_right hhi hk
    linarith

/-- A value of `T` scaled by `2^k` and rounded down is a value of `C` whenever
`C` has at least `k` more value bits than `T` (and a sign bit if needed). -/
theorem holds_floor_scale {T C : IntType} (hT : 0 < T.bytes) (hC : 0 < C.bytes) {a : Int}
    (ha : T.holds a) (k : Int) (hk : (T.value_bits : Int) + k ≤ C.value_bits)
    (hs : a < 0 → C.is_signed = true) : C.holds (floor_scale a k) := by
  rw [holds_iff_value_bits hT] at ha
  rw [holds_iff_value_bits hC]
  obtain ⟨_, hlo, hhi⟩ := ha
  have hlo' : -(2 : ℚ) ^ (T.value_bits : Int) ≤ a := by
    rw [zpow_natCast]; exact_mod_cast hlo
  have hhi' : (a : ℚ) < 2 ^ (T.value_bits : Int) := by
    rw [zpow_natCast]; exact_mod_cast hhi
  obtain ⟨h1, h2⟩ := scale_bounds a _ _ k hk hlo' hhi'
  rw [zpow_natCast] at h1 h2
  refine ⟨?_, ?_, ?_⟩
  · intro hneg
    apply hs
    by_contra hc
    have h0 : (0 : ℚ) ≤ (a : ℚ) * 2 ^ k :=
      mul_nonneg (by exact_mod_cast (not_lt.mp hc)) (by positivity)
    have : 0 ≤ floor_scale a k := Int.floor_nonneg.mpr h0
    omega
  · unfold floor_scale
    rw [Int.le_floor]
    push_cast
    exact h1
  · unfold floor_scale
    rw [Int.floor_lt]
    push_cast
    exact h2

/-! ## Conversion between specializations -/

theorem floor_scale_mul_cancel (v : Int) {k : Int} (hk : 0 ≤ k) :
    floor_scale (floor_scale v k) (-k) = v := by
  unfold floor_scale
  have e : (v : ℚ) * 2 ^ k = ((v * 2 ^ k.toNat : Int) : ℚ) := scale_exact_of_nonneg v hk
  rw [e, Int.floor_intCast, ← e, mul_assoc, ← zpow_add₀ (by norm_num : (2 : ℚ) ≠ 0)]
  simp

/-- C10 (as stated) fails: converting the `fixed_point<int32_t, -16>` value with
representation `5` to `fixed_point<int32_t, 16>` should give `floor(5 * 2^(-32)) = 0`,
which is in range, yet the conversion executes `int(5) >> 32`, a shift by the
full width of `int`, which has no defined result. Likewise, converting the most
negative value `-2^31` of `fixed_point<int32_t, 0>` to `fixed_point<int64_t, -8>`
should give `-2^39`, which is in range, yet the signed overload of `shift_left`
negates the most negative `int`, which has no defined result. -/
theorem C10_counterexample :
    (int.holds 5 ∧ int.holds (floor_scale 5 ((-16) - 16)) ∧
      fixed_point_to_repr ⟨int, 16⟩ ⟨int, -16⟩ 5 = none) ∧
    (int.holds (-2147483648) ∧
      (make_int true 8).holds (floor_scale (-2147483648) (0 - (-8))) ∧
      shift_right_in_width ((-8) - 0) (make_int true 8) int ∧
      fixed_point_to_repr ⟨make_int true 8, -8⟩ ⟨int, 0⟩ (-2147483648) = none) := by
  refine ⟨⟨by decide, ?_, by decide⟩, by decide, ?_, by decide, by decide⟩
  · rw [floor_scale_of_neg 5 (by decide)]
    decide
  · rw [floor_scale_of_nonneg (-2147483648) (by decide)]
    decide

/-- C10 (amended): for every source `fixed_point<R2,E2>` value `v` and target
`fixed_point<R,E>` such that `|E - E2|` is smaller than the width at which the
shift is performed and, when a negative `v` is shifted left (`E < E2`), neither
`v` nor the converted value is the most negative value of a promoted type (the
signed overload of `shift_left` negates both), whenever
`floor(v.data() * 2^(E2 - E))` lies within the range of `R` the converted
representation equals exactly that floor; hence the conversion preserves the
represented value when `E ≤ E2`, and converting `A → B → A` is the identity
whenever `B`'s exponent is at most `A`'s and `B`'s range contains the value. -/
theorem C10_fixed_point_conversion (To From : FixedPoint) (v : Int)
    (hTo : To.repr_type.supported) (hFrom : From.repr_type.supported)
    (hv : From.repr_type.holds v)
    (hw : shift_right_in_width (To.exponent - From.exponent) To.repr_type From.repr_type)
    (hn : shift_right_negation_defined (To.exponent - From.exponent)
      To.repr_type From.repr_type v)
    (hr : To.repr_type.holds (floor_scale v (From.exponent - To.exponent))) :
    fixed_point_to_repr To From v = some (floor_scale v (From.exponent - To.exponent)) ∧
    (To.exponent ≤ From.exponent →
      To.value (floor_scale v (From.exponent - To.exponent)) = From.value v) ∧
    (To.exponent ≤ From.exponent →
      shift_right_in_width (From.exponent - To.exponent) From.repr_type To.repr_type →
      (fixed_point_to_repr To From v).bind (fixed_point_to_repr From To) = some v) := by
  have hTp := supported_pos hTo
  have hFp := supported_pos hFrom
  have hneg : -(To.exponent - From.exponent) = From.exponent - To.exponent := by ring
  have hconv : fixed_point_to_repr To From v
      = some (floor_scale v (From.exponent - To.exponent)) := by
    unfold fixed_point_to_repr
    rw [← hneg] at hr ⊢
    exact shift_right_eq_floor _ _ _ v hTp hFp hv hw hr hn
  refine ⟨hconv, ?_, ?_⟩
  · intro hle
    unfold FixedPoint.value floor_scale
    have e := scale_exact_of_nonneg v (k := From.exponent - To.exponent) (by omega)
    rw [e, Int.floor_intCast, ← e, mul_assoc, ← zpow_add₀ (by norm_num : (2 : ℚ) ≠ 0)]
    congr 2
    ring
  · intro hle hw'
    rw [hconv]
    simp only [Option.some_bind]
    unfold fixed_point_to_repr
    have hback : floor_scale (floor_scale v (From.exponent - To.exponent))
        (-(From.exponent - To.exponent)) = v :=
      floor_scale_mul_cancel v (by omega)
    have := shift_right_eq_floor (From.exponent - To.exponent) From.repr_type To.repr_type
      (floor_scale v (From.exponent - To.exponent)) hFp hTp hr hw' (by rw [hback]; exact hv)
      (shift_right_negation_defined_of_exp _ _ _ (by omega))
    rw [this, hback]

/-- Witness for C10: the `fixed_point<int8_t, -2>` value `-7` converted to
`fixed_point<int16_t, -5>` and back. -/
theorem C10_fixed_point_conversion_witness :
    fixed_point_to_repr ⟨make_int true 2, -5⟩ ⟨int8, -2⟩ (-7)
        = some (floor_scale (-7) ((-2) - (-5))) ∧
    FixedPoint.value ⟨make_int true 2, -5⟩ (floor_scale (-7) ((-2) - (-5)))
        = FixedPoint.value ⟨int8, -2⟩ (-7) ∧
    (fixed_point_to_repr ⟨make_int true 2, -5⟩ ⟨int8, -2⟩ (-7)).bind
        (fixed_point_to_repr ⟨int8, -2⟩ ⟨make_int true 2, -5⟩) = some (-7) :=
  have h := C10_fixed_point_conversion ⟨make_int true 2, -5⟩ ⟨int8, -2⟩ (-7) (by decide)
    (by decide) (by decide) (by decide) (by decide)
    (by rw [floor_scale_of_nonneg (-7) (by decide)]; decide)
  ⟨h.1, h.2.1 (by decide), h.2.2 (by decide) (by decide)⟩

/-! ## Conversion to the common type -/

theorem impl_max_eq_max (a b : Int) : impl_max a b = max a b := by
  unfold impl_max
  split
  · rename_i h; exact (max_eq_right h.le).symm
  · rename_i h; exact (max_eq_left (not_lt.mp h)).symm

theorem impl_max_nat_eq_max (a b : Nat) : impl_max a b = max a b := by
  unfold impl_max
  split
  · rename_i h; exact (max_eq_right h.le).symm
  · rename_i h; exact (max_eq_left (not_lt.mp h)).symm

theorem common_repr_type_pair (L R : IntType) :
    common_repr_type L [R] = ⟨L.is_signed || R.is_signed, max L.bytes R.bytes⟩ := by
  simp only [common_repr_type, make_int, impl_max_nat_eq_max]

theorem make_fixed_from_repr_exponent {T : IntType} (hT : 0 < T.bytes) (I : Int) :
    (make_fixed_from_repr T I).exponent = I - T.value_bits := by
  have := num_bits_pos hT
  unfold make_fixed_from_repr IntType.value_bits num_bits at *
  simp only []
  split <;> omega

theorem integer_digits_make_fixed_from_repr {T : IntType} (hT : 0 < T.bytes) (I : Int) :
    (make_fixed_from_repr T I).integer_digits = I := by
  unfold FixedPoint.integer_digits
  rw [digits_eq_value_bits (F := make_fixed_from_repr T I) hT, make_fixed_from_repr_exponent hT]
  show ((T.value_bits : Int) + (I - T.value_bits)) = I
  ring

theorem holds_floor_scale_of_bounds {C : IntType} (hC : 0 < C.bytes) {p : Int} (d : Int)
    (hlo : -(2 : ℚ) ^ d ≤ p) (hhi : (p : ℚ) < 2 ^ d) (k : Int)
    (hk : d + k ≤ C.value_bits) (hs : p < 0 → C.is_signed = true) :
    C.holds (floor_scale p k) := by
  rw [holds_iff_value_bits hC]
  obtain ⟨h1, h2⟩ := scale_bounds p _ _ k hk hlo hhi
  rw [zpow_natCast] at h1 h2
  refine ⟨?_, ?_, ?_⟩
  · intro hneg
    apply hs
    by_contra hc
    have h0 : (0 : ℚ) ≤ (p : ℚ) * 2 ^ k :=
      mul_nonneg (by exact_mod_cast (not_lt.mp hc)) (by positivity)
    have : 0 ≤ floor_scale p k := Int.floor_nonneg.mpr h0
    omega
  · unfold floor_scale
    rw [Int.le_floor]
    push_cast
    exact h1
  · unfold floor_scale
    rw [Int.floor_lt]
    push_cast
    exact h2

theorem value_bits_le (T : IntType) : (T.value_bits : Int) ≤ 8 * T.bytes := by
  unfold IntType.value_bits num_bits; split <;> omega

theorem value_bits_eq {T : IntType} (hT : 0 < T.bytes) :
    (T.value_bits : Int) = 8 * T.bytes - (if T.is_signed then 1 else 0) := by
  unfold IntType.value_bits num_bits; split <;> omega

theorem mul_neg_cases {a b : Int} (h : a * b < 0) : a < 0 ∨ b < 0 := by
  by_contra hc
  push_neg at hc
  have := mul_nonneg hc.1 hc.2
  omega

/-- The value of `trunc_multiply` whenever the product of the representations
is smaller in magnitude than `2^(digits of lhs + digits of rhs)`. -/
theorem trunc_multiply_of_bound (L R : FixedPoint) (a b : Int)
    (hL : 0 < L.repr_type.bytes) (hR : 0 < R.repr_type.bytes)
    (ha : L.repr_type.holds a) (hb : R.repr_type.holds b)
    (hp : |a * b| < 2 ^ (L.repr_type.value_bits + R.repr_type.value_bits)) :
    trunc_multiply L R a b
        = some (floor_scale (a * b)
            (L.exponent + R.exponent - (trunc_multiply_result L R).exponent)) ∧
      (trunc_multiply_result L R).repr_type.holds
        (floor_scale (a * b)
          (L.exponent + R.exponent - (trunc_multiply_result L R).exponent)) := by
  -- the types involved
  set Rc : IntType := ⟨L.repr_type.is_signed || R.repr_type.is_signed,
    max L.repr_type.bytes R.repr_type.bytes⟩ with hRc
  have hres : (trunc_multiply_result L R).repr_type = Rc := by
    unfold trunc_multiply_result make_fixed_from_repr
    exact common_repr_type_pair _ _
  have hct : (common_type L R).repr_type = Rc := by
    unfold common_type make_fixed_from_repr
    exact common_repr_type_pair _ _
  have hRcp : 0 < Rc.bytes := lt_of_lt_of_le hL (le_max_left _ _)
  set inter : IntType := next_size Rc with hinter
  have hinterp : 0 < inter.bytes := by
    show 0 < Rc.bytes * 2
    omega
  have hLle : L.repr_type.bytes ≤ Rc.bytes := le_max_left _ _
  have hRle : R.repr_type.bytes ≤ Rc.bytes := le_max_right _ _
  have hsL : L.repr_type.is_signed = true → Rc.is_signed = true := by
    intro h; simp [hRc, h]
  have hsR : R.repr_type.is_signed = true → Rc.is_signed = true := by
    intro h; simp [hRc, h]
  -- the exponent of the rescaling shift
  have hexp : L.exponent + R.exponent - (trunc_multiply_result L R).exponent
      = (Rc.value_bits : Int) - L.repr_type.value_bits - R.repr_type.value_bits := by
    have h1 : (trunc_multiply_result L R).exponent
        = L.integer_digits + R.integer_digits - Rc.value_bits := by
      unfold trunc_multiply_result
      rw [common_repr_type_pair, make_fixed_from_repr_exponent hRcp]
    rw [h1]
    unfold FixedPoint.integer_digits
    rw [digits_eq_value_bits hL, digits_eq_value_bits hR]
    ring
  have hvL := value_bits_eq hL
  have hvR := value_bits_eq hR
  have hvc := value_bits_eq hRcp
  have hvi := value_bits_eq hinterp
  have hib : (inter.bytes : Int) = 2 * Rc.bytes := by
    show ((Rc.bytes * 2 : Nat) : Int) = 2 * Rc.bytes
    push_cast; ring
  have his : inter.is_signed = Rc.is_signed := rfl
  have hmaxL : (L.repr_type.bytes : Int) ≤ Rc.bytes := by exact_mod_cast hLle
  have hmaxR : (R.repr_type.bytes : Int) ≤ Rc.bytes := by exact_mod_cast hRle
  have hRcs : (if Rc.is_signed = true then (1 : Int) else 0)
      ≤ (if L.repr_type.is_signed = true then 1 else 0)
        + (if R.repr_type.is_signed = true then 1 else 0) := by
    have : Rc.is_signed = (L.repr_type.is_signed || R.repr_type.is_signed) := rfl
    rw [this]
    cases L.repr_type.is_signed <;> cases R.repr_type.is_signed <;> simp
  have hmaxeq : (Rc.bytes : Int) = L.repr_type.bytes ∨ (Rc.bytes : Int) = R.repr_type.bytes := by
    have : Rc.bytes = max L.repr_type.bytes R.repr_type.bytes := rfl
    rcases le_total L.repr_type.bytes R.repr_type.bytes with h | h
    · right; rw [this, max_eq_right h]
    · left; rw [this, max_eq_left h]
  -- the product is exact in the intermediate type
  have hinter_a : static_cast inter a = a := by
    apply static_cast_of_holds hinterp
    refine holds_of_wider hL ha ?_ (fun hneg => hsL (holds_neg_signed ha hneg))
    show L.repr_type.bytes < Rc.bytes * 2
    omega
  have hinter_b : static_cast inter b = b := by
    apply static_cast_of_holds hinterp
    refine holds_of_wider hR hb ?_ (fun hneg => hsR (holds_neg_signed hb hneg))
    show R.repr_type.bytes < Rc.bytes * 2
    omega
  have hsign : a * b < 0 → Rc.is_signed = true := by
    intro hneg
    rcases mul_neg_cases hneg with h | h
    · exact hsL (holds_neg_signed ha h)
    · exact hsR (holds_neg_signed hb h)
  have hab := abs_lt.mp hp
  have hprod_inter : inter.holds (a * b) := by
    rw [holds_iff_value_bits hinterp]
    have hpow : (2 : Int) ^ (L.repr_type.value_bits + R.repr_type.value_bits)
        ≤ 2 ^ inter.value_bits := by
      refine pow_le_pow_right₀ (by norm_num) ?_
      have : ((L.repr_type.value_bits + R.repr_type.value_bits : Nat) : Int)
          ≤ inter.value_bits := by
        push_cast
        rw [hvL, hvR, hvi, hib, his]
        omega
      exact_mod_cast this
    exact ⟨hsign, by omega, by omega⟩
  have hprod : builtin_mul inter (static_cast inter a) (static_cast inter b)
      = some (a * b) := by
    rw [hinter_a, hinter_b]
    exact builtin_mul_eq hinterp (holds_promoted hinterp hprod_inter)
  -- the rescaled product is in range
  have hrange : Rc.holds (floor_scale (a * b)
      ((Rc.value_bits : Int) - L.repr_type.value_bits - R.repr_type.value_bits)) := by
    refine holds_floor_scale_of_bounds hRcp
      ((L.repr_type.value_bits + R.repr_type.value_bits : Nat) : Int) ?_ ?_ _ ?_ hsign
    · rw [zpow_natCast]; exact_mod_cast hab.1.le
    · rw [zpow_natCast]; exact_mod_cast hab.2
    · push_cast; omega
  rw [hres, hexp]
  refine ⟨?_, hrange⟩
  unfold trunc_multiply multiply
  simp only []
  rw [hct, hres, hexp, ← hinter, hprod]
  simp only [Option.some_bind]
  have hright : (Rc.value_bits : Int) - L.repr_type.value_bits - R.repr_type.value_bits ≤ 0 := by
    have hL0 : (0 : Int) < L.repr_type.bytes := by exact_mod_cast hL
    have hR0 : (0 : Int) < R.repr_type.bytes := by exact_mod_cast hR
    rw [hvL, hvR, hvc]
    split_ifs <;> omega
  refine shift_left_eq_floor _ Rc (promoted inter) (a * b) hRcp (promoted_bytes_pos hinterp)
    (holds_promoted hinterp hprod_inter) ?_ hrange
    (shift_left_negation_defined_of_exp _ _ _ hright)
  unfold shift_left_in_width
  have hbits : num_bits inter ≤ shift_right_width Rc (promoted inter) := by
    unfold shift_right_width
    have h1 := num_bits_le_promoted inter
    have h2 := num_bits_le_promoted (promoted inter)
    have h3 : inter.bytes = Rc.bytes * 2 := rfl
    unfold num_bits at h1 h2 ⊢
    split <;> omega
  have hnb : (num_bits inter : Int) = 16 * Rc.bytes := by
    unfold num_bits; rw [Nat.cast_mul, hib]; push_cast; ring
  have hbits' : (num_bits inter : Int) ≤ shift_right_width Rc (promoted inter) := by
    exact_mod_cast hbits
  split <;> omega

theorem floor_scale_product (L R Res : FixedPoint) (a b : Int) :
    floor_scale (a * b) (L.exponent + R.exponent - Res.exponent)
      = ⌊L.value a * R.value b / 2 ^ Res.exponent⌋ := by
  unfold floor_scale FixedPoint.value
  congr 1
  have h2 : (2 : ℚ) ≠ 0 := by norm_num
  rw [zpow_sub₀ h2, zpow_add₀ h2]
  push_cast
  ring

theorem value_product_bound (L R : FixedPoint) (a b : Int)
    (hL : 0 < L.repr_type.bytes) (hR : 0 < R.repr_type.bytes)
    (h : |L.value a * R.value b| < 2 ^ (L.integer_digits + R.integer_digits)) :
    |a * b| < 2 ^ (L.repr_type.value_bits + R.repr_type.value_bits) := by
  have h2 : (2 : ℚ) ≠ 0 := by norm_num
  have hpos : (0 : ℚ) < 2 ^ (L.exponent + R.exponent) := by positivity
  have e1 : L.value a * R.value b = ((a * b : Int) : ℚ) * 2 ^ (L.exponent + R.exponent) := by
    unfold FixedPoint.value
    rw [zpow_add₀ h2]; push_cast; ring
  have e2 : (2 : ℚ) ^ (L.integer_digits + R.integer_digits)
      = 2 ^ (L.repr_type.value_bits + R.repr_type.value_bits) * 2 ^ (L.exponent + R.exponent) := by
    unfold FixedPoint.integer_digits
    rw [digits_eq_value_bits hL, digits_eq_value_bits hR, ← zpow_natCast, ← zpow_add₀ h2]
    congr 1
    push_cast
    ring
  rw [e1, e2, abs_mul, abs_of_pos hpos] at h
  have := lt_of_mul_lt_mul_right h hpos.le
  have h3 : |((a * b : Int) : ℚ)| = ((|a * b| : Int) : ℚ) := by simp
  rw [h3] at this
  exact_mod_cast this

/-- C4: for every pair of `fixed_point` operands `a`, `b` whose mathematical
product satisfies `|value(a) * value(b)| < 2^(I_a + I_b)` (`I` the integer
digits), `trunc_multiply`, which multiplies through `_impl::multiply` into a
result type with `I_a + I_b` integer digits, never wraps: the result
representation is `floor(a.data() * b.data() * 2^(Ea + Eb - Er))` and lies
within the range of the result representation type. -/
theorem C4_multiply_overflow_safe (L R : FixedPoint) (a b : Int)
    (hL : L.repr_type.supported) (hR : R.repr_type.supported)
    (_hnext : (next_size (common_type L R).repr_type).supported)
    (ha : L.repr_type.holds a) (hb : R.repr_type.holds b)
    (hprod : |L.value a * R.value b| < 2 ^ (L.integer_digits + R.integer_digits)) :
    (trunc_multiply_result L R).integer_digits = L.integer_digits + R.integer_digits ∧
    trunc_multiply L R a b
        = some (floor_scale (a * b)
            (L.exponent + R.exponent - (trunc_multiply_result L R).exponent)) ∧
      (trunc_multiply_result L R).repr_type.holds
        (floor_scale (a * b)
          (L.exponent + R.exponent - (trunc_multiply_result L R).exponent)) := by
  have hLp := supported_pos hL
  have hRp := supported_pos hR
  refine ⟨?_, trunc_multiply_of_bound L R a b hLp hRp ha hb
    (value_product_bound L R a b hLp hRp hprod)⟩
  unfold trunc_multiply_result
  exact integer_digits_make_fixed_from_repr
    (by rw [common_repr_type_pair]; exact lt_of_lt_of_le hLp (le_max_left _ _)) _

/-- Witness for C4: `3.5 * -1.5` in `fixed_point<int8_t, -4>`. -/
theorem C4_multiply_overflow_safe_witness :
    (trunc_multiply_result ⟨int8, -4⟩ ⟨int8, -4⟩).integer_digits
        = FixedPoint.integer_digits ⟨int8, -4⟩ + FixedPoint.integer_digits ⟨int8, -4⟩ ∧
    trunc_multiply ⟨int8, -4⟩ ⟨int8, -4⟩ 56 (-24)
        = some (floor_scale (56 * -24)
            ((-4) + (-4) - (trunc_multiply_result ⟨int8, -4⟩ ⟨int8, -4⟩).exponent)) ∧
      (trunc_multiply_result ⟨int8, -4⟩ ⟨int8, -4⟩).repr_type.holds
        (floor_scale (56 * -24)
          ((-4) + (-4) - (trunc_multiply_result ⟨int8, -4⟩ ⟨int8, -4⟩).exponent)) :=
  C4_multiply_overflow_safe ⟨int8, -4⟩ ⟨int8, -4⟩ 56 (-24) (by decide) (by decide)
    (by decide) (by decide) (by decide)
    (by
      have hI : FixedPoint.integer_digits ⟨int8, -4⟩ = 3 := by decide
      rw [hI]
      norm_num [FixedPoint.value, abs_lt])

/-- C5 (as stated) fails: for two `fixed_point<int8_t, 0>` operands both holding
the most negative value `-128`, `trunc_multiply` returns the representation
`-128` of `fixed_point<int8_t, 7>`, i.e. the value `-16384`, although the
product is `16384`: 14 integer digits do not store `2^14`. -/
theorem C5_counterexample :
    int8.holds (-128) ∧
      trunc_multiply_result ⟨int8, 0⟩ ⟨int8, 0⟩ = ⟨int8, 7⟩ ∧
      trunc_multiply ⟨int8, 0⟩ ⟨int8, 0⟩ (-128) (-128) = some (-128) ∧
      FixedPoint.value ⟨int8, 7⟩ (-128) = -16384 ∧
      FixedPoint.value ⟨int8, 0⟩ (-128) * FixedPoint.value ⟨int8, 0⟩ (-128) = 16384 := by
  refine ⟨by decide, by decide, by decide, ?_, ?_⟩ <;> norm_num [FixedPoint.value]

theorem abs_le_two_pow_value_bits {T : IntType} (hT : 0 < T.bytes) {x : Int} (hx : T.holds x) :
    |x| ≤ 2 ^ T.value_bits ∧
      (|x| = 2 ^ T.value_bits → T.is_signed = true ∧ x = T.min_value) := by
  have hb := num_bits_pos hT
  have hq : (0 : Int) < 2 ^ T.value_bits := by positivity
  obtain ⟨hs, h1, h2⟩ := (holds_iff_value_bits hT x).mp hx
  constructor
  · rw [abs_le]; omega
  · intro heq
    have hneg : x < 0 := by
      by_contra hc
      rw [abs_of_nonneg (not_lt.mp hc)] at heq
      omega
    have hsT := hs hneg
    refine ⟨hsT, ?_⟩
    rw [abs_of_neg hneg] at heq
    unfold IntType.min_value
    unfold IntType.value_bits at heq
    simp only [hsT, if_true] at heq ⊢
    omega

/-- C5 (amended): for every pair of `fixed_point` operand types and every pair
of operand values `a`, `b` that are not both the most negative value of a
signed representation, `trunc_multiply(a, b)` does not wrap: its result type has
`lhs.integer_digits + rhs.integer_digits` integer digits, and its
representation, which lies within the range of the result representation type,
is `value(a) * value(b)` rounded down to the result's resolution. -/
theorem C5_trunc_multiply_sufficient (L R : FixedPoint) (a b : Int)
    (hL : L.repr_type.supported) (hR : R.repr_type.supported)
    (_hnext : (next_size (common_type L R).repr_type).supported)
    (ha : L.repr_type.holds a) (hb : R.repr_type.holds b)
    (hmin : ¬ (L.repr_type.is_signed = true ∧ R.repr_type.is_signed = true ∧
      a = L.repr_type.min_value ∧ b = R.repr_type.min_value)) :
    (trunc_multiply_result L R).integer_digits = L.integer_digits + R.integer_digits ∧
    trunc_multiply L R a b
        = some ⌊L.value a * R.value b / 2 ^ (trunc_multiply_result L R).exponent⌋ ∧
      (trunc_multiply_result L R).repr_type.holds
        ⌊L.value a * R.value b / 2 ^ (trunc_multiply_result L R).exponent⌋ := by
  have hLp := supported_pos hL
  have hRp := supported_pos hR
  obtain ⟨ha1, ha2⟩ := abs_le_two_pow_value_bits hLp ha
  obtain ⟨hb1, hb2⟩ := abs_le_two_pow_value_bits hRp hb
  have hbound : |a * b| < 2 ^ (L.repr_type.value_bits + R.repr_type.value_bits) := by
    rw [abs_mul, pow_add]
    have hpa : (0 : Int) < 2 ^ L.repr_type.value_bits := by positivity
    have hpb : (0 : Int) < 2 ^ R.repr_type.value_bits := by positivity
    by_cases hea : |a| = 2 ^ L.repr_type.value_bits
    · have hlb : |b| < 2 ^ R.repr_type.value_bits := by
        refine lt_of_le_of_ne hb1 (fun heb => hmin ?_)
        exact ⟨(ha2 hea).1, (hb2 heb).1, (ha2 hea).2, (hb2 heb).2⟩
      rw [hea]
      exact mul_lt_mul_of_pos_left hlb hpa
    · have hla : |a| < 2 ^ L.repr_type.value_bits := lt_of_le_of_ne ha1 hea
      calc |a| * |b| ≤ |a| * 2 ^ R.repr_type.value_bits :=
            mul_le_mul_of_nonneg_left hb1 (abs_nonneg a)
        _ < 2 ^ L.repr_type.value_bits * 2 ^ R.repr_type.value_bits :=
            mul_lt_mul_of_pos_right hla hpb
  rw [← floor_scale_product]
  refine ⟨?_, trunc_multiply_of_bound L R a b hLp hRp ha hb hbound⟩
  unfold trunc_multiply_result
  exact integer_digits_make_fixed_from_repr
    (by rw [common_repr_type_pair]; exact lt_of_lt_of_le hLp (le_max_left _ _)) _

/-- Witness for C5: the most negative `int8_t` times the largest. -/
theorem C5_trunc_multiply_sufficient_witness :
    (trunc_multiply_result ⟨int8, 0⟩ ⟨int8, 0⟩).integer_digits
        = FixedPoint.integer_digits ⟨int8, 0⟩ + FixedPoint.integer_digits ⟨int8, 0⟩ ∧
    trunc_multiply ⟨int8, 0⟩ ⟨int8, 0⟩ (-128) 127
        = some ⌊FixedPoint.value ⟨int8, 0⟩ (-128) * FixedPoint.value ⟨int8, 0⟩ 127
            / 2 ^ (trunc_multiply_result ⟨int8, 0⟩ ⟨int8, 0⟩).exponent⌋ ∧
      (trunc_multiply_result ⟨int8, 0⟩ ⟨int8, 0⟩).repr_type.holds
        ⌊FixedPoint.value ⟨int8, 0⟩ (-128) * FixedPoint.value ⟨int8, 0⟩ 127
            / 2 ^ (trunc_multiply_result ⟨int8, 0⟩ ⟨int8, 0⟩).exponent⌋ :=
  C5_trunc_multiply_sufficient ⟨int8, 0⟩ ⟨int8, 0⟩ (-128) 127 (by decide) (by decide)
    (by decide) (by decide) (by decide) (by decide)

/-! ## Division -/

theorem round_toward_zero_neg (q : ℚ) : round_toward_zero (-q) = -round_toward_zero q := by
  unfold round_toward_zero
  rcases lt_trichotomy q 0 with h | h | h
  · rw [if_pos (by linarith), if_neg (by linarith), Int.floor_neg]
  · subst h; simp
  · rw [if_neg (by linarith), if_pos (by linarith), Int.ceil_neg]

theorem tdiv_eq_round_of_nonneg {x v : Int} (hx : 0 ≤ x) (hv : 0 < v) :
    Int.tdiv x v = round_toward_zero ((x : ℚ) / v) := by
  unfold round_toward_zero
  have hq : (0 : ℚ) ≤ (x : ℚ) / v :=
    div_nonneg (by exact_mod_cast hx) (by exact_mod_cast hv.le)
  rw [if_pos hq, Int.tdiv_eq_ediv hx hv.le]
  obtain ⟨n, rfl⟩ := Int.eq_ofNat_of_zero_le hv.le
  have := Rat.floor_intCast_div_natCast x n
  simpa using this.symm

/-- The built-in integer division is the rational quotient rounded toward zero. -/
theorem tdiv_eq_round (x : Int) {v : Int} (hv : v ≠ 0) :
    Int.tdiv x v = round_toward_zero ((x : ℚ) / v) := by
  rcases lt_or_gt_of_ne hv with hneg | hpos
  · rcases le_or_lt 0 x with hx | hx
    · have h := tdiv_eq_round_of_nonneg hx (by omega : 0 < -v)
      rw [Int.tdiv_neg] at h
      have e : ((x : ℚ) / ((-v : Int) : ℚ)) = -((x : ℚ) / v) := by push_cast; rw [div_neg]
      rw [e, round_toward_zero_neg] at h
      omega
    · have h := tdiv_eq_round_of_nonneg (by omega : 0 ≤ -x) (by omega : 0 < -v)
      rw [Int.tdiv_neg, Int.neg_tdiv, neg_neg] at h
      have e : (((-x : Int) : ℚ) / ((-v : Int) : ℚ)) = (x : ℚ) / v := by
        push_cast; rw [neg_div_neg_eq]
      rw [e] at h
      exact h
  · rcases le_or_lt 0 x with hx | hx
    · exact tdiv_eq_round_of_nonneg hx hpos
    · have h := tdiv_eq_round_of_nonneg (by omega : 0 ≤ -x) hpos
      rw [Int.neg_tdiv] at h
      have e : (((-x : Int) : ℚ) / (v : ℚ)) = -((x : ℚ) / v) := by push_cast; rw [neg_div]
      rw [e, round_toward_zero_neg] at h
      omega

theorem fixed_point_to_repr_eq_floor (To From : FixedPoint) (v : Int)
    (hTo : 0 < To.repr_type.bytes) (hFrom : 0 < From.repr_type.bytes)
    (hv : From.repr_type.holds v)
    (hw : shift_right_in_width (To.exponent - From.exponent) To.repr_type From.repr_type)
    (hr : To.repr_type.holds (floor_scale v (From.exponent - To.exponent)))
    (hn : shift_right_negation_defined (To.exponent - From.exponent)
      To.repr_type From.repr_type v) :
    fixed_point_to_repr To From v = some (floor_scale v (From.exponent - To.exponent)) := by
  unfold fixed_point_to_repr
  have hneg : -(To.exponent - From.exponent) = From.exponent - To.exponent := by ring
  rw [← hneg] at hr ⊢
  exact shift_right_eq_floor _ _ _ v hTo hFrom hv hw hr hn

theorem builtin_div_eq (T U : IntType) (a b : Int)
    (hC : 0 < (arithmetic_conversion T U).bytes)
    (ha : (arithmetic_conversion T U).holds a) (hb : (arithmetic_conversion T U).holds b)
    (hb0 : b ≠ 0)
    (hov : ¬ ((arithmetic_conversion T U).is_signed = true ∧
      a = (arithmetic_conversion T U).min_value ∧ b = -1)) :
    builtin_div T U a b = some (Int.tdiv a b) := by
  unfold builtin_div
  simp only []
  rw [static_cast_of_holds hC ha, static_cast_of_holds hC hb, if_neg hb0, if_neg hov]

theorem arithmetic_conversion_bytes_pos {T U : IntType} (hT : 0 < T.bytes) (hU : 0 < U.bytes) :
    0 < (arithmetic_conversion T U).bytes := by
  have h1 := promoted_bytes_pos hT
  have h2 := promoted_bytes_pos hU
  unfold arithmetic_conversion
  simp only []
  split
  · split
    · exact h2
    · exact h1
  · split
    · split
      · exact h2
      · exact h1
    · split
      · exact h1
      · exact h2

theorem floor_scale_cast_of_nonneg (d : Int) {k : Int} (hk : 0 ≤ k) :
    ((floor_scale d k : Int) : ℚ) = (d : ℚ) * 2 ^ k := by
  unfold floor_scale
  rw [scale_exact_of_nonneg d hk, Int.floor_intCast]

/-- Witness for C2: `2.9` in `fixed_point<int8_t, -4>`. -/
theorem C2_floating_point_round_trip_witness :
    ∃ r : Int, floating_point_to_repr ⟨int8, -4⟩ (29 / 10) = some r ∧
      |repr_to_floating_point ⟨int8, -4⟩ r - 29 / 10| < 2 ^ (-4 : Int) ∧
      ((∃ m : Int, (29 / 10 : ℚ) = (m : ℚ) * 2 ^ (-4 : Int)) →
        repr_to_floating_point ⟨int8, -4⟩ r = 29 / 10) :=
  C2_floating_point_round_trip.1 ⟨int8, -4⟩ (29 / 10) (by
    unfold IntType.holds_rat
    norm_num [IntType.min_value, IntType.max_value, int8, make_int, num_bits])


/-! ## The product in the intermediate type -/

/-- The product of two representations, each cast to `next_size` of the
common representation type, is exact: the intermediate type holds it. -/
theorem product_exact (L R : IntType) (a b : Int)
    (hL : 0 < L.bytes) (hR : 0 < R.bytes) (ha : L.holds a) (hb : R.holds b) :
    (next_size (common_repr_type L [R])).holds (a * b) ∧
      builtin_mul (next_size (common_repr_type L [R]))
        (static_cast (next_size (common_repr_type L [R])) a)
        (static_cast (next_size (common_repr_type L [R])) b) = some (a * b) := by
  rw [common_repr_type_pair]
  generalize hRc : (⟨L.is_signed || R.is_signed, max L.bytes R.bytes⟩ : IntType) = Rc
  have hbytes : Rc.bytes = max L.bytes R.bytes := by rw [← hRc]
  have hsign : Rc.is_signed = (L.is_signed || R.is_signed) := by rw [← hRc]
  have hLle : L.bytes ≤ Rc.bytes := by rw [hbytes]; exact le_max_left _ _
  have hRle : R.bytes ≤ Rc.bytes := by rw [hbytes]; exact le_max_right _ _
  have hRcp : 0 < Rc.bytes := lt_of_lt_of_le hL hLle
  have hip : 0 < (next_size Rc).bytes := by
    show 0 < Rc.bytes * 2
    omega
  have hib : (next_size Rc).bytes = Rc.bytes * 2 := rfl
  have his : (next_size Rc).is_signed = Rc.is_signed := rfl
  have hsL : L.is_signed = true → Rc.is_signed = true := by
    intro h; rw [hsign, h]; rfl
  have hsR : R.is_signed = true → Rc.is_signed = true := by
    intro h; rw [hsign, h]; simp
  obtain ⟨ha1, ha2⟩ := abs_le_two_pow_value_bits hL ha
  obtain ⟨hb1, hb2⟩ := abs_le_two_pow_value_bits hR hb
  have hvL := value_bits_eq hL
  have hvR := value_bits_eq hR
  have hvi := value_bits_eq hip
  have hsneg : a * b < 0 → Rc.is_signed = true := by
    intro hneg
    rcases mul_neg_cases hneg with h | h
    · exact hsL (holds_neg_signed ha h)
    · exact hsR (holds_neg_signed hb h)
  have habs : |a * b| ≤ 2 ^ (L.value_bits + R.value_bits) := by
    rw [abs_mul, pow_add]
    exact mul_le_mul ha1 hb1 (abs_nonneg b) (by positivity)
  have hle : (L.value_bits + R.value_bits : Nat) ≤ (next_size Rc).value_bits := by
    have : ((L.value_bits + R.value_bits : Nat) : Int) ≤ (next_size Rc).value_bits := by
      push_cast
      rw [hvL, hvR, hvi, hib, his]
      have h1 : (L.bytes : Int) ≤ Rc.bytes := by exact_mod_cast hLle
      have h2 : (R.bytes : Int) ≤ Rc.bytes := by exact_mod_cast hRle
      have h3 : (if Rc.is_signed = true then (1 : Int) else 0)
          ≤ (if L.is_signed = true then 1 else 0) + (if R.is_signed = true then 1 else 0) := by
        rw [hsign]
        cases L.is_signed <;> cases R.is_signed <;> simp
      push_cast
      omega
    exact_mod_cast this
  have hpow : (2 : Int) ^ (L.value_bits + R.value_bits) ≤ 2 ^ (next_size Rc).value_bits :=
    pow_le_pow_right₀ (by norm_num) hle
  have hholds : (next_size Rc).holds (a * b) := by
    rw [holds_iff_value_bits hip]
    have hab := abs_le.mp habs
    refine ⟨fun h => by rw [his]; exact hsneg h, by omega, ?_⟩
    rcases lt_or_eq_of_le habs with hlt | heq
    · have := (abs_lt.mp hlt).2
      omega
    · -- both operands are the most negative value of a signed type
      have hea : |a| = 2 ^ L.value_bits := by
        by_contra hne
        have hla : |a| < 2 ^ L.value_bits := lt_of_le_of_ne ha1 hne
        have hpb : (0 : Int) < 2 ^ R.value_bits := by positivity
        have : |a| * |b| < 2 ^ L.value_bits * 2 ^ R.value_bits :=
          lt_of_le_of_lt (mul_le_mul_of_nonneg_left hb1 (abs_nonneg a))
            (mul_lt_mul_of_pos_right hla hpb)
        rw [abs_mul, pow_add] at heq
        omega
      have heb : |b| = 2 ^ R.value_bits := by
        by_contra hne
        have hlb : |b| < 2 ^ R.value_bits := lt_of_le_of_ne hb1 hne
        have hpa : (0 : Int) < 2 ^ L.value_bits := by positivity
        have : |a| * |b| < 2 ^ L.value_bits * 2 ^ R.value_bits := by
          rw [hea]; exact mul_lt_mul_of_pos_left hlb hpa
        rw [abs_mul, pow_add] at heq
        omega
      have hLs := (ha2 hea).1
      have hRs := (hb2 heb).1
      have hlt : (L.value_bits + R.value_bits : Nat) < (next_size Rc).value_bits := by
        have : ((L.value_bits + R.value_bits : Nat) : Int) < (next_size Rc).value_bits := by
          push_cast
          rw [hvL, hvR, hvi, hib, his]
          have h1 : (L.bytes : Int) ≤ Rc.bytes := by exact_mod_cast hLle
          have h2 : (R.bytes : Int) ≤ Rc.bytes := by exact_mod_cast hRle
          simp only [hLs, hRs, hsL hLs, if_true]
          push_cast
          omega
        exact_mod_cast this
      have hpow2 : (2 : Int) ^ (L.value_bits + R.value_bits) < 2 ^ (next_size Rc).value_bits :=
        pow_lt_pow_right₀ (by norm_num) hlt
      have := le_abs_self (a * b)
      omega
  refine ⟨hholds, ?_⟩
  have hinter_a : static_cast (next_size Rc) a = a := by
    apply static_cast_of_holds hip
    refine holds_of_wider hL ha ?_ (fun hneg => by rw [his]; exact hsL (holds_neg_signed ha hneg))
    rw [hib]; omega
  have hinter_b : static_cast (next_size Rc) b = b := by
    apply static_cast_of_holds hip
    refine holds_of_wider hR hb ?_ (fun hneg => by rw [his]; exact hsR (holds_neg_signed hb hneg))
    rw [hib]; omega
  rw [hinter_a, hinter_b]
  exact builtin_mul_eq hip (holds_promoted hip hholds)

/-- The value of `_impl::multiply`: the exact product of the representations,
rescaled by `shift_left`. -/
theorem multiply_eq (Res L R : FixedPoint) (a b : Int)
    (hL : 0 < L.repr_type.bytes) (hR : 0 < R.repr_type.bytes)
    (ha : L.repr_type.holds a) (hb : R.repr_type.holds b) :
    multiply Res L R a b
      = shift_left (L.exponent + R.exponent - Res.exponent) Res.repr_type
          (promoted (next_size (common_repr_type L.repr_type [R.repr_type]))) (a * b) := by
  unfold multiply
  have hct : (common_type L R).repr_type = common_repr_type L.repr_type [R.repr_type] := rfl
  simp only []
  rw [hct, (product_exact L.repr_type R.repr_type a b hL hR ha hb).2, Option.some_bind]

/-! ## Common type of two specializations -/

/-- C20: for every `fixed_point<R1,E1>` and `fixed_point<R2,E2>` the common
type's representation is `common_repr_type<R1,R2>`, its `integer_digits` is the
larger of the operands' `integer_digits`, and its exponent is that maximum plus
one if the common representation is signed, minus the bit width of the common
representation. -/
theorem C20_common_type_of_fixed_points (L R : FixedPoint)
    (hL : L.repr_type.supported) (_hR : R.repr_type.supported) :
    (common_type L R).repr_type = common_repr_type L.repr_type [R.repr_type] ∧
    (common_type L R).integer_digits = max L.integer_digits R.integer_digits ∧
    (common_type L R).exponent
      = max L.integer_digits R.integer_digits
        + (if (common_repr_type L.repr_type [R.repr_type]).is_signed then 1 else 0)
        - num_bits (common_repr_type L.repr_type [R.repr_type]) := by
  have hLp := supported_pos hL
  have hCp : 0 < (common_repr_type L.repr_type [R.repr_type]).bytes := by
    rw [common_repr_type_pair]; exact lt_of_lt_of_le hLp (le_max_left _ _)
  refine ⟨rfl, ?_, ?_⟩
  · unfold common_type
    rw [impl_max_eq_max]
    exact integer_digits_make_fixed_from_repr hCp _
  · unfold common_type make_fixed_from_repr num_bits
    rw [impl_max_eq_max]

/-- Witness for C20: `fixed_point<uint8_t, 0>` and `fixed_point<int16_t, -12>`. -/
theorem C20_common_type_of_fixed_points_witness :
    (common_type ⟨make_int false 1, 0⟩ ⟨make_int true 2, -12⟩).repr_type
      = common_repr_type (make_int false 1) [make_int true 2] ∧
    (common_type ⟨make_int false 1, 0⟩ ⟨make_int true 2, -12⟩).integer_digits
      = max (FixedPoint.integer_digits ⟨make_int false 1, 0⟩)
          (FixedPoint.integer_digits ⟨make_int true 2, -12⟩) ∧
    (common_type ⟨make_int false 1, 0⟩ ⟨make_int true 2, -12⟩).exponent
      = max (FixedPoint.integer_digits ⟨make_int false 1, 0⟩)
          (FixedPoint.integer_digits ⟨make_int true 2, -12⟩)
        + (if (common_repr_type (make_int false 1) [make_int true 2]).is_signed then 1 else 0)
        - num_bits (common_repr_type (make_int false 1) [make_int true 2]) :=
  C20_common_type_of_fixed_points ⟨make_int false 1, 0⟩ ⟨make_int true 2, -12⟩
    (by decide) (by decide)

/-! ## Multiplication of two `fixed_point<int8_t, 0>` values -/

/-- C18: `operator*` on two `fixed_point<int8_t, 0>` operands `a`, `b` computes
the product through a 16-bit intermediate and returns a result of type
`fixed_point<int8_t, 0>`, which has 7 integer digits, whose representation is
exactly `a.data() * b.data()` whenever that product lies in `[-128, 127]`; in
particular `10 * 10` produces `100`. -/
theorem C18_operator_mul_int8 :
    next_size (common_type ⟨int8, 0⟩ ⟨int8, 0⟩).repr_type = make_int true 2 ∧
    common_type ⟨int8, 0⟩ ⟨int8, 0⟩ = ⟨int8, 0⟩ ∧
    (common_type ⟨int8, 0⟩ ⟨int8, 0⟩).integer_digits = 7 ∧
    (∀ a b : Int, int8.holds a → int8.holds b → -128 ≤ a * b → a * b ≤ 127 →
      operator_mul ⟨int8, 0⟩ ⟨int8, 0⟩ a b = some (a * b)) ∧
    operator_mul ⟨int8, 0⟩ ⟨int8, 0⟩ 10 10 = some 100 := by
  refine ⟨by decide, by decide, by decide, ?_, by decide⟩
  intro a b ha hb h1 h2
  have hp : 0 < int8.bytes := by decide
  unfold operator_mul
  rw [multiply_eq _ ⟨int8, 0⟩ ⟨int8, 0⟩ a b hp hp ha hb]
  have hc : common_type ⟨int8, 0⟩ ⟨int8, 0⟩ = ⟨int8, 0⟩ := by decide
  rw [hc]
  have he : (FixedPoint.exponent ⟨int8, 0⟩ + FixedPoint.exponent ⟨int8, 0⟩
      - FixedPoint.exponent ⟨int8, 0⟩) = 0 := by decide
  rw [he]
  unfold shift_left
  rw [if_pos rfl]
  congr 1
  apply static_cast_of_holds hp
  unfold IntType.holds
  exact ⟨by simpa [IntType.min_value, int8, make_int, num_bits] using h1,
    by simpa [IntType.max_value, int8, make_int, num_bits] using h2⟩

/-- Witness for C18: `-9 * 14 = -126`. -/
theorem C18_operator_mul_int8_witness :
    operator_mul ⟨int8, 0⟩ ⟨int8, 0⟩ (-9) 14 = some (-9 * 14) :=
  C18_operator_mul_int8.2.2.2.1 (-9) 14 (by decide) (by decide) (by decide) (by decide)

/-! ## promote and demote -/

theorem demote_promote_result (F : FixedPoint) (hb : 0 < F.repr_type.bytes) :
    demote_result (promote_result F) = F := by
  obtain ⟨⟨s, b⟩, E⟩ := F
  unfold demote_result promote_result previous_size next_size make_int
  simp only []
  have h1 : b * 2 / 2 = b := by omega
  have h2 : Int.tdiv (E * 2) 2 = E := Int.mul_tdiv_cancel E (by norm_num)
  rw [h1, h2]

theorem value_bits_next_size {T : IntType} (hT : 0 < T.bytes) :
    ((next_size T).value_bits : Int) = T.value_bits + num_bits T := by
  have h1 := value_bits_eq hT
  have h2 := value_bits_eq (T := next_size T) (by show 0 < T.bytes * 2; omega)
  have h3 : (next_size T).bytes = T.bytes * 2 := rfl
  have h4 : (next_size T).is_signed = T.is_signed := rfl
  rw [h2, h3, h4, h1]
  unfold num_bits
  push_cast
  ring

theorem num_bits_le_shift_widths_next (T : IntType) :
    2 * num_bits T ≤ shift_left_width (next_size T) ∧
      2 * num_bits T ≤ shift_right_width T (next_size T) ∧
      2 * num_bits T ≤ shift_right_width (next_size T) T := by
  have h1 := num_bits_le_shift_left_width (next_size T)
  have h2 := shift_left_width_le_right' T (next_size T)
  have h3 := shift_left_width_le_right (next_size T) T
  have h4 : num_bits (next_size T) = 2 * num_bits T := by
    unfold num_bits next_size make_int; simp only []; ring
  omega

/-- The representation computed by `promote`, for an exponent between
`-num_bits` and zero: the value scaled by `2^(-E)`, without loss. -/
theorem promote_eq (F : FixedPoint) (x : Int) (hF : 0 < F.repr_type.bytes)
    (hx : F.repr_type.holds x) (hE : F.exponent ≤ 0)
    (hEw : -F.exponent ≤ num_bits F.repr_type)
    (hn : shift_right_negation_defined F.exponent (next_size F.repr_type) F.repr_type x) :
    promote F x = some (floor_scale x (-F.exponent)) ∧
      (next_size F.repr_type).holds (floor_scale x (-F.exponent)) := by
  have hNp : 0 < (next_size F.repr_type).bytes := by
    show 0 < F.repr_type.bytes * 2
    omega
  have hr : (next_size F.repr_type).holds (floor_scale x (-F.exponent)) := by
    refine holds_floor_scale hF hNp hx _ ?_
      (fun hneg => (holds_neg_signed hx hneg : F.repr_type.is_signed = true))
    rw [value_bits_next_size hF]
    omega
  refine ⟨?_, hr⟩
  unfold promote
  have he : F.exponent - (promote_result F).exponent = -F.exponent := by
    show F.exponent - F.exponent * 2 = -F.exponent
    ring
  have := fixed_point_to_repr_eq_floor (promote_result F) F x hNp hF hx (by
    show shift_right_in_width (F.exponent * 2 - F.exponent) (next_size F.repr_type) F.repr_type
    unfold shift_right_in_width
    have hw := (num_bits_le_shift_widths_next F.repr_type).1
    have hb := num_bits_pos hF
    rw [if_neg (by omega)]
    omega) (by rw [he]; exact hr) (by
    have e : (promote_result F).exponent - F.exponent = F.exponent := by
      show F.exponent * 2 - F.exponent = F.exponent
      ring
    rw [e]
    exact hn)
  rw [this, he]

/-- C13 (as stated) fails: the exponent `2` of `fixed_point<int8_t, 2>` is even,
yet `demote(promote(x))` for the representation `5` is `4`: promoting to the
doubled exponent `4` drops the two low bits. -/
theorem C13_counterexample :
    int8.holds 5 ∧ (make_int true 2).supported ∧
      demote_result (promote_result ⟨int8, 2⟩) = ⟨int8, 2⟩ ∧
      promote ⟨int8, 2⟩ 5 = some 1 ∧
      (promote ⟨int8, 2⟩ 5).bind (demote (promote_result ⟨int8, 2⟩)) = some 4 := by
  refine ⟨by decide, by decide, by decide, by decide, by decide⟩

/-- C13 (amended): for every `fixed_point<R,E>` whose exponent satisfies
`-num_bits<R>() ≤ E ≤ 0` and for which the promoted width is supported, and for
every value `x` of that type, `demote(promote(x))` has the same type as `x` and
the same representation, i.e. `demote(promote(x)) == x` exactly, provided that,
when a negative `x` is shifted left (`E < 0`), neither `x` nor the promoted
representation is the most negative value of a promoted integer type (the
signed overload of `shift_left` negates both; this always holds for `int8_t`). -/
theorem C13_promote_demote_round_trip (F : FixedPoint) (x : Int)
    (hF : F.repr_type.supported) (_hN : (next_size F.repr_type).supported)
    (hx : F.repr_type.holds x) (hE : F.exponent ≤ 0)
    (hEw : -F.exponent ≤ num_bits F.repr_type)
    (hn : shift_right_negation_defined F.exponent (next_size F.repr_type) F.repr_type x) :
    demote_result (promote_result F) = F ∧
      (promote F x).bind (demote (promote_result F)) = some x := by
  have hFp := supported_pos hF
  have hNp : 0 < (next_size F.repr_type).bytes := by
    show 0 < F.repr_type.bytes * 2
    omega
  have hdp := demote_promote_result F hFp
  refine ⟨hdp, ?_⟩
  obtain ⟨hprom, hr⟩ := promote_eq F x hFp hx hE hEw hn
  rw [hprom]
  simp only [Option.some_bind]
  unfold demote
  rw [hdp]
  have he : (promote_result F).exponent - F.exponent = F.exponent := by
    show F.exponent * 2 - F.exponent = F.exponent
    ring
  have hback : floor_scale (floor_scale x (-F.exponent)) (-(-F.exponent)) = x :=
    floor_scale_mul_cancel x (by omega)
  rw [neg_neg] at hback
  have := fixed_point_to_repr_eq_floor F (promote_result F) (floor_scale x (-F.exponent))
    hFp hNp hr (by
      show shift_right_in_width (F.exponent - F.exponent * 2) F.repr_type (next_size F.repr_type)
      unfold shift_right_in_width
      have hw := (num_bits_le_shift_widths_next F.repr_type).2.1
      have hw2 := shift_left_width_ge F.repr_type
      have hb := num_bits_pos hFp
      split <;> omega) (by rw [he, hback]; exact hx)
      (shift_right_negation_defined_of_exp _ _ _ (by
        show 0 ≤ F.exponent - F.exponent * 2
        omega))
  rw [this, he, hback]

/-- Witness for C13: `fixed_point<int8_t, -4>` holding `-56`. -/
theorem C13_promote_demote_round_trip_witness :
    demote_result (promote_result ⟨int8, -4⟩) = ⟨int8, -4⟩ ∧
      (promote ⟨int8, -4⟩ (-56)).bind (demote (promote_result ⟨int8, -4⟩)) = some (-56) :=
  C13_promote_demote_round_trip ⟨int8, -4⟩ (-56) (by decide) (by decide) (by decide)
    (by decide) (by decide) (by decide)

/-! ## promote_square -/

theorem sufficient_repr_double_signed (b : Nat) (hb : b = 1 ∨ b = 2 ∨ b = 4 ∨ b = 8) :
    sufficient_repr (2 * (b * 8 - 1)) false = make_int false (b * 2) := by
  rcases hb with rfl | rfl | rfl | rfl <;> decide

theorem sufficient_repr_double_unsigned (b : Nat) (hb : b = 1 ∨ b = 2 ∨ b = 4 ∨ b = 8) :
    sufficient_repr (2 * (b * 8)) false = make_int false (b * 2) := by
  rcases hb with rfl | rfl | rfl | rfl <;> decide

theorem bytes_of_next_supported {T : IntType} (_h : T.supported)
    (hN : (next_size T).supported) :
    T.bytes = 1 ∨ T.bytes = 2 ∨ T.bytes = 4 ∨ T.bytes = 8 := by
  unfold IntType.supported at hN
  have : (next_size T).bytes = T.bytes * 2 := rfl
  rw [this] at hN
  omega

/-- The type computed by `promote_square_result`: an unsigned representation of
twice the width; the exponent is doubled for an unsigned operand and is
`2 * E - 2` for a signed one. -/
theorem promote_square_result_eq (F : FixedPoint)
    (hb : F.repr_type.bytes = 1 ∨ F.repr_type.bytes = 2 ∨ F.repr_type.bytes = 4
      ∨ F.repr_type.bytes = 8)
    (hI : 0 ≤ F.integer_digits) (hFr : 0 ≤ F.fractional_digits) :
    promote_square_result F
      = ⟨make_int false (F.repr_type.bytes * 2),
          F.exponent * 2 - (if F.repr_type.is_signed then 2 else 0)⟩ := by
  obtain ⟨⟨s, b⟩, E⟩ := F
  simp only at hb
  unfold FixedPoint.fractional_digits at hFr
  unfold FixedPoint.integer_digits FixedPoint.digits num_bits at hI hFr
  simp only at hI hFr
  unfold promote_square_result make_ufixed make_fixed
  unfold FixedPoint.fractional_digits FixedPoint.integer_digits FixedPoint.digits num_bits
  simp only [Bool.false_eq_true, if_false, Nat.add_zero]
  cases s
  · simp only [Bool.false_eq_true, if_false, sub_zero] at hI hFr ⊢
    generalize hn : Int.toNat _ + Int.toNat _ = n
    have hn2 : n = 2 * (b * 8) := by omega
    rw [hn2, sufficient_repr_double_unsigned b hb]
    congr 1
    show ((((((b * 8 : Nat) : Int) + E) * 2).toNat : Nat) : Int) - ((b * 2 * 8 : Nat) : Int)
      = E * 2
    omega
  · simp only [if_true] at hI hFr ⊢
    generalize hn : Int.toNat _ + Int.toNat _ = n
    have hn2 : n = 2 * (b * 8 - 1) := by omega
    rw [hn2, sufficient_repr_double_signed b hb]
    congr 1
    show ((((((b * 8 : Nat) : Int) - 1 + E) * 2).toNat : Nat) : Int) - ((b * 2 * 8 : Nat) : Int)
      = E * 2 - 2
    omega

/-- C16 (as stated) fails: for the signed `fixed_point<int8_t, 0>`,
`promote_square_result` is `fixed_point<uint16_t, -2>`, whose exponent `-2` is
not twice the operand's exponent `0`. -/
theorem C16_counterexample :
    promote_square_result ⟨int8, 0⟩ = ⟨make_int false 2, -2⟩ ∧
      (promote_square_result ⟨int8, 0⟩).exponent ≠ 2 * FixedPoint.exponent ⟨int8, 0⟩ := by
  constructor <;> decide

/-- C16 (amended): `promote<F>`, `promote_multiply<L,R>` and `promote_divide<L,R>`
yield a representation of exactly twice the bit width of the operand's
representation (of the common type's representation for the binary forms) and
exactly twice the operand's (common type's) exponent. `promote_square<F>` yields
an unsigned representation of twice the bit width; its exponent is twice the
operand's exponent for an unsigned operand and `2 * E - 2` for a signed one. -/
theorem C16_promoting_family :
    (∀ F : FixedPoint,
      num_bits (promote_result F).repr_type = 2 * num_bits F.repr_type ∧
      (promote_result F).exponent = 2 * F.exponent) ∧
    (∀ L R : FixedPoint,
      num_bits (promote_multiply_result L R).repr_type
          = 2 * num_bits (common_type L R).repr_type ∧
      (promote_multiply_result L R).exponent = 2 * (common_type L R).exponent) ∧
    (∀ L R : FixedPoint,
      num_bits (promote_divide_result L R).repr_type
          = 2 * num_bits (common_type L R).repr_type ∧
      (promote_divide_result L R).exponent = 2 * (common_type L R).exponent) ∧
    (∀ F : FixedPoint, F.repr_type.supported → (next_size F.repr_type).supported →
      0 ≤ F.integer_digits → 0 ≤ F.fractional_digits →
      (promote_square_result F).repr_type.is_signed = false ∧
      num_bits (promote_square_result F).repr_type = 2 * num_bits F.repr_type ∧
      (promote_square_result F).exponent
        = 2 * F.exponent - (if F.repr_type.is_signed then 2 else 0)) := by
  have hp : ∀ F : FixedPoint,
      num_bits (promote_result F).repr_type = 2 * num_bits F.repr_type ∧
      (promote_result F).exponent = 2 * F.exponent := by
    intro F
    unfold promote_result next_size make_int num_bits
    simp only []
    constructor <;> ring
  refine ⟨hp, fun L R => hp _, fun L R => hp _, ?_⟩
  intro F hF hN hI hFr
  rw [promote_square_result_eq F (bytes_of_next_supported hF hN) hI hFr]
  unfold make_int num_bits
  simp only []
  refine ⟨trivial, by ring, by ring⟩

/-- Witness for C16: `promote_square_result` of `fixed_point<int8_t, -4>` is
`fixed_point<uint16_t, -10>`. -/
theorem C16_promoting_family_witness :
    (promote_square_result ⟨int8, -4⟩).repr_type.is_signed = false ∧
      num_bits (promote_square_result ⟨int8, -4⟩).repr_type = 2 * num_bits int8 ∧
      (promote_square_result ⟨int8, -4⟩).exponent
        = 2 * (-4) - (if int8.is_signed then 2 else 0) :=
  C16_promoting_family.2.2.2 ⟨int8, -4⟩ (by decide) (by decide) (by decide) (by decide)

/-- C15 (as stated) fails: for the most negative value `-32768` of
`fixed_point<int16_t, 0>`, `promote_square` returns the representation `0` of
`fixed_point<uint32_t, -2>`, i.e. the value `0`, although the square is `2^30`:
the result type has `2 * 15 + 2 * 0 = 30` value bits, one less than the square
of the most negative value needs. Moreover, for `fixed_point<int8_t, 0>` the
operands are converted to `uint16_t` and multiplied as `int`, where the square
of a converted negative value (`65535 * 65535` for `-1`) is not representable:
there is no defined result. -/
theorem C15_counterexample :
    ((make_int true 2).holds (-32768) ∧
      0 ≤ FixedPoint.integer_digits ⟨make_int true 2, 0⟩ ∧
      0 ≤ FixedPoint.fractional_digits ⟨make_int true 2, 0⟩ ∧
      promote_square_result ⟨make_int true 2, 0⟩ = ⟨make_int false 4, -2⟩ ∧
      promote_square ⟨make_int true 2, 0⟩ (-32768) = some 0 ∧
      FixedPoint.value ⟨make_int false 4, -2⟩ 0
        ≠ (FixedPoint.value ⟨make_int true 2, 0⟩ (-32768)) ^ 2) ∧
    (int8.holds (-1) ∧ promote_square_result ⟨int8, 0⟩ = ⟨make_int false 2, -2⟩ ∧
      promoted (make_int false 2) = int ∧
      static_cast (make_int false 2) (-1) = 65535 ∧ ¬ int.holds (65535 * 65535) ∧
      promote_square ⟨int8, 0⟩ (-1) = none) := by
  refine ⟨⟨by decide, by decide, by decide, by decide, by decide, ?_⟩,
    by decide, by decide, by decide, by decide, by decide, by decide⟩
  norm_num [FixedPoint.value]

/-- C15 (amended): for every signed or unsigned `fixed_point` type with
non-negative `integer_digits` and `fractional_digits` and for every value `x` of
that type other than the most negative value of a signed representation, and
not negative when the representation has 8 bits (its operands are converted to
`uint16_t` and multiplied as `int`, where the square of a converted negative
value is not representable), `promote_square(x)` has real value exactly
`value(x)²`, without wrapping. -/
theorem C15_promote_square_exact (F : FixedPoint) (x : Int)
    (hF : F.repr_type.supported) (hN : (next_size F.repr_type).supported)
    (hI : 0 ≤ F.integer_digits) (hFr : 0 ≤ F.fractional_digits)
    (hx : F.repr_type.holds x)
    (hmin : ¬ (F.repr_type.is_signed = true ∧ x = F.repr_type.min_value))
    (hmul : x < 0 → 2 ≤ F.repr_type.bytes) :
    promote_square F x
        = some (x ^ 2 * (if F.repr_type.is_signed then 4 else 1)) ∧
      (promote_square_result F).repr_type.holds
        (x ^ 2 * (if F.repr_type.is_signed then 4 else 1)) ∧
      (promote_square_result F).value (x ^ 2 * (if F.repr_type.is_signed then 4 else 1))
        = (F.value x) ^ 2 := by
  have hFp := supported_pos hF
  have hb8 := bytes_of_next_supported hF hN
  have hres := promote_square_result_eq F hb8 hI hFr
  generalize hOdef : (make_int false (F.repr_type.bytes * 2)) = O at hres
  have hOs : O.is_signed = false := by rw [← hOdef]; rfl
  have hOb : O.bytes = F.repr_type.bytes * 2 := by rw [← hOdef]; rfl
  have hOp : 0 < O.bytes := by omega
  have hOn : num_bits O = 2 * num_bits F.repr_type := by unfold num_bits; rw [hOb]; ring
  -- the square scaled to the output exponent is in range
  obtain ⟨hx1, hx2⟩ := abs_le_two_pow_value_bits hFp hx
  have hlt : |x| < 2 ^ F.repr_type.value_bits :=
    lt_of_le_of_ne hx1 (fun h => hmin (hx2 h))
  have hsq : x ^ 2 < 2 ^ (2 * F.repr_type.value_bits) := by
    have h0 := abs_nonneg x
    have : |x| ^ 2 < (2 ^ F.repr_type.value_bits) ^ 2 := by
      apply pow_lt_pow_left₀ hlt h0 (by norm_num)
    rw [sq_abs, ← pow_mul, mul_comm] at this
    exact this
  have hvb : F.repr_type.value_bits = num_bits F.repr_type
      - (if F.repr_type.is_signed then 1 else 0) := rfl
  have hnb := num_bits_pos hFp
  have hrange : O.holds (x ^ 2 * (if F.repr_type.is_signed then 4 else 1)) := by
    unfold IntType.holds IntType.min_value IntType.max_value
    simp only [hOs, Bool.false_eq_true, if_false]
    have h0 : 0 ≤ x ^ 2 := sq_nonneg x
    rw [hOn]
    rw [hvb] at hsq
    cases hs : F.repr_type.is_signed
    · simp only [hs, Bool.false_eq_true, if_false, Nat.sub_zero] at hsq ⊢
      constructor <;> omega
    · simp only [hs, if_true] at hsq ⊢
      have e : (2 : Int) ^ (2 * num_bits F.repr_type)
          = 4 * 2 ^ (2 * (num_bits F.repr_type - 1)) := by
        have : 2 * num_bits F.repr_type = 2 * (num_bits F.repr_type - 1) + 2 := by omega
        rw [this, pow_add]; ring
      constructor <;> omega
  have hpO := promoted_bytes_pos hOp
  -- the square of the converted operand is evaluated without overflow
  have hmulv : ∃ P, builtin_mul O (static_cast O x) (static_cast O x) = some P ∧ 0 ≤ P ∧
      (promoted O).holds P ∧ P ≡ x ^ 2 [ZMOD 2 ^ num_bits O] := by
    by_cases hps : (promoted O).is_signed = true
    · have h32 : num_bits int = 32 := rfl
      have hnarrow : num_bits O < 32 := by
        by_contra hc
        have hpe : promoted O = O := by
          unfold promoted
          rw [if_neg (by rw [h32]; exact hc)]
        rw [hpe, hOs] at hps
        exact absurd hps (by simp)
      have hb1 : F.repr_type.bytes = 1 := by
        unfold num_bits at hnarrow
        rw [hOb] at hnarrow
        omega
      have hx0 : 0 ≤ x := by
        by_contra hc
        have := hmul (by omega)
        omega
      have hn8 : num_bits F.repr_type = 8 := by unfold num_bits; rw [hb1]
      have hx256 : x ≤ 2 ^ 8 := by
        have h1 : (2 : Int) ^ F.repr_type.value_bits ≤ 2 ^ 8 :=
          pow_le_pow_right₀ (by norm_num) (by rw [hvb, hn8]; omega)
        have h2 := le_abs_self x
        omega
      have hn16 : num_bits O = 16 := by rw [hOn, hn8]
      have hxO : static_cast O x = x := by
        apply static_cast_of_holds hOp
        unfold IntType.holds IntType.min_value IntType.max_value
        simp only [hOs, Bool.false_eq_true, if_false]
        rw [hn16]
        constructor <;> omega
      have hpe : promoted O = int := by
        unfold promoted
        rw [if_pos (by rw [h32]; exact hnarrow)]
      have hxx : x * x ≤ 2 ^ 8 * 2 ^ 8 := mul_le_mul hx256 hx256 hx0 (by norm_num)
      have hxx0 : 0 ≤ x * x := mul_nonneg hx0 hx0
      have hhold : (promoted O).holds (x * x) := by
        rw [hpe]
        have hmn : int.min_value = -(2 ^ 31) := by decide
        have hmx : int.max_value = 2 ^ 31 - 1 := by decide
        unfold IntType.holds
        rw [hmn, hmx]
        constructor <;> omega
      refine ⟨x * x, ?_, hxx0, hhold, by rw [sq]⟩
      rw [hxO]
      exact builtin_mul_eq hOp hhold
    · refine ⟨static_cast (promoted O) (static_cast O x * static_cast O x), ?_, ?_,
        static_cast_holds hpO _, ?_⟩
      · unfold builtin_mul
        rw [if_neg (fun h => hps h.1)]
      · unfold static_cast
        rw [if_neg hps]
        exact Int.emod_nonneg _ (by positivity)
      · have h1 := modEq_of_num_bits_le (num_bits_le_promoted O)
          (static_cast_modEq (promoted O) (static_cast O x * static_cast O x))
        have h2 := (static_cast_modEq O x).mul (static_cast_modEq O x)
        rw [sq]
        exact h1.trans h2
  obtain ⟨P, hPmul, hP0, hPh, hPmod⟩ := hmulv
  refine ⟨?_, by rw [hres]; exact hrange, ?_⟩
  · unfold promote_square
    simp only []
    rw [hres]
    simp only []
    rw [hPmul]
    simp only [Option.some_bind]
    rw [shift_left_eq_shift_right_neg]
    have hw := shift_left_width_ge O
    have he : -(F.exponent * 2
          - (F.exponent * 2 - if F.repr_type.is_signed = true then 2 else 0))
        = -(if F.repr_type.is_signed = true then (2 : Int) else 0) := by ring
    rw [he]
    have hpow : (2 : Int) ^ (-(-(if F.repr_type.is_signed = true then (2 : Int) else 0))).toNat
        = (if F.repr_type.is_signed then 4 else 1) := by
      cases F.repr_type.is_signed <;> simp
    have hin : shift_right_in_width (-(if F.repr_type.is_signed = true then (2 : Int) else 0))
        O (promoted O) := by
      unfold shift_right_in_width
      cases F.repr_type.is_signed
      · simp; omega
      · simp; omega
    rw [shift_right_eq_cast _ O (promoted O) _ hOp hpO hPh hin
      (by intro h; exfalso; revert h; cases F.repr_type.is_signed <;> simp)
      (by intro _ h; omega)]
    congr 1
    rw [floor_scale_of_nonneg _ (by cases F.repr_type.is_signed <;> simp), hpow]
    symm
    apply static_cast_unique hOp hrange
    exact Int.ModEq.mul_right _ hPmod.symm
  · rw [hres]
    unfold FixedPoint.value
    simp only []
    have h2 : (2 : ℚ) ≠ 0 := by norm_num
    split
    · rw [zpow_sub₀ h2, mul_pow, ← zpow_natCast ((2 : ℚ) ^ F.exponent) 2, ← zpow_mul]
      push_cast
      norm_num
      ring
    · rw [mul_pow, ← zpow_natCast ((2 : ℚ) ^ F.exponent) 2, ← zpow_mul]
      push_cast
      simp

/-- Witness for C15: `-7.9375` in `fixed_point<int16_t, -4>`. -/
theorem C15_promote_square_exact_witness :
    promote_square ⟨make_int true 2, -4⟩ (-127)
        = some ((-127) ^ 2 * (if (make_int true 2).is_signed then 4 else 1)) ∧
      (promote_square_result ⟨make_int true 2, -4⟩).repr_type.holds
        ((-127) ^ 2 * (if (make_int true 2).is_signed then 4 else 1)) ∧
      (promote_square_result ⟨make_int true 2, -4⟩).value
          ((-127) ^ 2 * (if (make_int true 2).is_signed then 4 else 1))
        = (FixedPoint.value ⟨make_int true 2, -4⟩ (-127)) ^ 2 :=
  C15_promote_square_exact ⟨make_int true 2, -4⟩ (-127) (by decide) (by decide) (by decide)
    (by decide) (by decide) (by decide) (by decide)

/-! ## promote_multiply -/

theorem common_type_exponent (L R : FixedPoint) (hL : 0 < L.repr_type.bytes) :
    (common_type L R).exponent
      = max L.integer_digits R.integer_digits
        - (common_repr_type L.repr_type [R.repr_type]).value_bits := by
  unfold common_type
  rw [impl_max_eq_max]
  exact make_fixed_from_repr_exponent
    (by rw [common_repr_type_pair]; exact lt_of_lt_of_le hL (le_max_left _ _)) _

theorem common_type_self (L : FixedPoint) (hL : 0 < L.repr_type.bytes) :
    common_type L L = L := by
  obtain ⟨⟨s, b⟩, E⟩ := L
  have hb : 0 < b := hL
  unfold common_type make_fixed_from_repr
  rw [common_repr_type_pair, impl_max_eq_max]
  simp only [Bool.or_self, max_self]
  congr 1
  unfold FixedPoint.integer_digits FixedPoint.digits num_bits
  simp only []
  push_cast
  ring

theorem promoted_promoted (T : IntType) : promoted (promoted T) = promoted T := by
  unfold promoted
  split
  all_goals rfl

theorem promoted_min_value_le_neg_pow {T : IntType} (hs : T.is_signed = true) :
    (promoted T).min_value ≤ -(2 : Int) ^ T.value_bits := by
  have h1 := (promoted_min_value_le hs).1
  have h2 : T.min_value = -(2 : Int) ^ T.value_bits := by
    unfold IntType.min_value IntType.value_bits
    rw [if_pos hs]
    simp [hs]
  rw [h2] at h1
  exact h1

/-- The value of `promote_multiply` whenever the rescaling exponent is within
the shift width. -/
theorem promote_multiply_eq (L R : FixedPoint) (a b : Int)
    (hL : 0 < L.repr_type.bytes) (hR : 0 < R.repr_type.bytes)
    (ha : L.repr_type.holds a) (hb : R.repr_type.holds b)
    (hw : shift_left_in_width
      (L.exponent + R.exponent - (promote_multiply_result L R).exponent)
      (promote_multiply_result L R).repr_type
      (promoted (promote_multiply_result L R).repr_type)) :
    promote_multiply L R a b
        = some (floor_scale (a * b)
            (L.exponent + R.exponent - (promote_multiply_result L R).exponent)) ∧
      (promote_multiply_result L R).repr_type.holds
        (floor_scale (a * b)
          (L.exponent + R.exponent - (promote_multiply_result L R).exponent)) := by
  have hrepr : (promote_multiply_result L R).repr_type
      = next_size (common_repr_type L.repr_type [R.repr_type]) := rfl
  have hexp : (promote_multiply_result L R).exponent = (common_type L R).exponent * 2 := rfl
  rw [hrepr] at hw ⊢
  rw [hexp, common_type_exponent L R hL] at hw ⊢
  obtain ⟨hprod, -⟩ := product_exact L.repr_type R.repr_type a b hL hR ha hb
  generalize hRc : common_repr_type L.repr_type [R.repr_type] = Rc at *
  have hRcdef : Rc = ⟨L.repr_type.is_signed || R.repr_type.is_signed,
      max L.repr_type.bytes R.repr_type.bytes⟩ := by
    rw [← hRc, common_repr_type_pair]
  have hRcp : 0 < Rc.bytes := by
    rw [hRcdef]; exact lt_of_lt_of_le hL (le_max_left _ _)
  have hNp : 0 < (next_size Rc).bytes := by
    show 0 < Rc.bytes * 2
    omega
  have hsign : Rc.is_signed = (L.repr_type.is_signed || R.repr_type.is_signed) := by
    rw [hRcdef]
  -- range of the rescaled product
  obtain ⟨ha1, ha2⟩ := abs_le_two_pow_value_bits hL ha
  obtain ⟨hb1, hb2⟩ := abs_le_two_pow_value_bits hR hb
  have habs : |a * b| ≤ 2 ^ (L.repr_type.value_bits + R.repr_type.value_bits) := by
    rw [abs_mul, pow_add]
    exact mul_le_mul ha1 hb1 (abs_nonneg b) (by positivity)
  have hvn := value_bits_next_size hRcp
  have hvc := value_bits_eq hRcp
  have hnb : (num_bits Rc : Int) = 8 * Rc.bytes := by unfold num_bits; push_cast; ring
  have hIL : L.integer_digits = L.repr_type.value_bits + L.exponent := by
    unfold FixedPoint.integer_digits; rw [digits_eq_value_bits hL]
  have hIR : R.integer_digits = R.repr_type.value_bits + R.exponent := by
    unfold FixedPoint.integer_digits; rw [digits_eq_value_bits hR]
  have hm1 := le_max_left L.integer_digits R.integer_digits
  have hm2 := le_max_right L.integer_digits R.integer_digits
  have hsneg : a * b < 0 → (next_size Rc).is_signed = true := by
    intro hneg
    show Rc.is_signed = true
    rw [hsign]
    rcases mul_neg_cases hneg with h | h
    · rw [holds_neg_signed ha h]; rfl
    · rw [holds_neg_signed hb h]; simp
  have hrange : (next_size Rc).holds (floor_scale (a * b)
      (L.exponent + R.exponent
        - (max L.integer_digits R.integer_digits - (Rc.value_bits : Int)) * 2)) := by
    cases hs : Rc.is_signed
    · -- both operands are unsigned: the product is strictly below the bound
      rw [hsign] at hs
      have hLs : L.repr_type.is_signed = false := by
        cases h : L.repr_type.is_signed
        · rfl
        · rw [h] at hs; simp at hs
      have hRs : R.repr_type.is_signed = false := by
        cases h : R.repr_type.is_signed
        · rfl
        · rw [h] at hs; simp at hs
      have hla : |a| < 2 ^ L.repr_type.value_bits :=
        lt_of_le_of_ne ha1 (fun h => by have := (ha2 h).1; rw [hLs] at this; simp at this)
      have hlt : |a * b| < 2 ^ (L.repr_type.value_bits + R.repr_type.value_bits) := by
        rw [abs_mul, pow_add]
        exact lt_of_le_of_lt (mul_le_mul_of_nonneg_left hb1 (abs_nonneg a))
          (mul_lt_mul_of_pos_right hla (by positivity))
      have hab := abs_lt.mp hlt
      refine holds_floor_scale_of_bounds hNp
        ((L.repr_type.value_bits + R.repr_type.value_bits : Nat) : Int) ?_ ?_ _ ?_ hsneg
      · rw [zpow_natCast]; exact_mod_cast hab.1.le
      · rw [zpow_natCast]; exact_mod_cast hab.2
      · rw [hvn, hnb, hvc]
        rw [hsign, hLs, hRs] at hvc
        simp only [Bool.or_self, Bool.false_eq_true, if_false] at hvc
        rw [hsign, hLs, hRs]
        simp only [Bool.or_self, Bool.false_eq_true, if_false]
        push_cast
        omega
    · have hab := abs_le.mp habs
      have hp2 : (2 : Int) ^ (L.repr_type.value_bits + R.repr_type.value_bits)
          < 2 ^ (L.repr_type.value_bits + R.repr_type.value_bits + 1) := by
        rw [pow_succ]
        have : (0 : Int) < 2 ^ (L.repr_type.value_bits + R.repr_type.value_bits) := by positivity
        omega
      refine holds_floor_scale_of_bounds hNp
        ((L.repr_type.value_bits + R.repr_type.value_bits + 1 : Nat) : Int) ?_ ?_ _ ?_ hsneg
      · rw [zpow_natCast]
        have : -(2 : Int) ^ (L.repr_type.value_bits + R.repr_type.value_bits + 1) ≤ a * b := by
          omega
        exact_mod_cast this
      · rw [zpow_natCast]
        have : a * b < (2 : Int) ^ (L.repr_type.value_bits + R.repr_type.value_bits + 1) := by
          omega
        exact_mod_cast this
      · rw [hvn, hnb, hvc]
        simp only [hs, if_true]
        rw [hs] at hvc
        simp only [if_true] at hvc
        push_cast
        omega
  -- a negative product that is shifted left stays above the most negative value
  have hneg : shift_left_negation_defined
      (L.exponent + R.exponent
        - (max L.integer_digits R.integer_digits - (Rc.value_bits : Int)) * 2)
      (next_size Rc) (promoted (next_size Rc)) (a * b) := by
    intro hk hab0
    have hNs : (next_size Rc).is_signed = true := hsneg hab0
    have hs : Rc.is_signed = true := hNs
    have hkey : ((L.repr_type.value_bits + R.repr_type.value_bits + 1 : Nat) : Int)
        + (L.exponent + R.exponent
          - (max L.integer_digits R.integer_digits - (Rc.value_bits : Int)) * 2)
        ≤ (next_size Rc).value_bits := by
      rw [hvn, hnb, hvc]
      simp only [hs, if_true]
      rw [hs] at hvc
      simp only [if_true] at hvc
      push_cast
      omega
    generalize (L.exponent + R.exponent
      - (max L.integer_digits R.integer_digits - (Rc.value_bits : Int)) * 2) = K at hk hkey ⊢
    obtain ⟨n, hn⟩ : ∃ n : Nat, K = n := ⟨K.toNat, by omega⟩
    subst hn
    rw [Int.toNat_ofNat]
    have hm : L.repr_type.value_bits + R.repr_type.value_bits + n
        < (next_size Rc).value_bits := by
      push_cast at hkey
      omega
    have hpow : (2 : Int) ^ (L.repr_type.value_bits + R.repr_type.value_bits + n)
        < 2 ^ (next_size Rc).value_bits := pow_lt_pow_right₀ (by norm_num) hm
    have hab := abs_le.mp habs
    have h2n : (1 : Int) ≤ 2 ^ n := one_le_pow₀ (by norm_num)
    have hr1 : -(2 : Int) ^ (L.repr_type.value_bits + R.repr_type.value_bits + n)
        ≤ a * b * 2 ^ n := by
      have := mul_le_mul_of_nonneg_right hab.1 (by positivity : (0 : Int) ≤ 2 ^ n)
      rw [pow_add (2 : Int) (L.repr_type.value_bits + R.repr_type.value_bits) n]
      linarith
    have hr2 : a * b * 2 ^ n ≤ a * b := by
      have := mul_le_mul_of_nonpos_left h2n hab0.le
      linarith
    have hp1 : (promoted (promoted (next_size Rc))).min_value
        ≤ -(2 : Int) ^ (next_size Rc).value_bits := by
      rw [promoted_promoted]
      exact promoted_min_value_le_neg_pow hNs
    have hp2 : (promoted (make_signed (next_size Rc))).min_value
        ≤ -(2 : Int) ^ (next_size Rc).value_bits := by
      rw [make_signed_eq_self hNs]
      exact promoted_min_value_le_neg_pow hNs
    constructor <;> omega
  refine ⟨?_, hrange⟩
  unfold promote_multiply
  rw [multiply_eq _ L R a b hL hR ha hb, hrepr, hexp, common_type_exponent L R hL, hRc]
  exact shift_left_eq_floor _ _ _ (a * b) hNp (promoted_bytes_pos hNp)
    (holds_promoted hNp hprod) hw hrange hneg

/-- C14 (as stated) fails: for `fixed_point<int8_t, 0>` and
`fixed_point<int8_t, 32>` the result type of `promote_multiply` is
`fixed_point<int16_t, 64>`, and rescaling the product `12 * 12` executes
`int(144) >> 32`, a shift by the full width of `int`, which has no defined
result (the claimed representation `floor(144 * 2^(-32)) = 0` is in range). -/
theorem C14_counterexample :
    int8.holds 12 ∧
      promote_multiply_result ⟨int8, 0⟩ ⟨int8, 32⟩ = ⟨make_int true 2, 64⟩ ∧
      (make_int true 2).holds (floor_scale (12 * 12) (0 + 32 - 64)) ∧
      promote_multiply ⟨int8, 0⟩ ⟨int8, 32⟩ 12 12 = none := by
  refine ⟨by decide, by decide, ?_, by decide⟩
  rw [floor_scale_of_neg _ (by decide)]
  decide

/-- C14 (amended): for every pair of `fixed_point` operand types and every pair
of operand values `a`, `b`, the result type of `promote_multiply` has at least
`lhs.integer_digits + rhs.integer_digits` integer digits; whenever the rescaling
exponent `Ea + Eb - Er` is smaller in magnitude than the width at which the
shift is performed, `promote_multiply(a, b)` does not wrap and its
representation is `floor(a.data() * b.data() * 2^(Ea + Eb - Er))`; when both
operands have the same type no rescaling takes place and the result's real
value is exactly `value(a) * value(b)` (e.g. `12 * 12 = 144` for two
`fixed_point<int8_t, 0>` operands). -/
theorem C14_promote_multiply_headroom (L R : FixedPoint) (a b : Int)
    (hL : L.repr_type.supported) (hR : R.repr_type.supported)
    (_hN : (next_size (common_type L R).repr_type).supported)
    (ha : L.repr_type.holds a) (hb : R.repr_type.holds b) :
    L.integer_digits + R.integer_digits ≤ (promote_multiply_result L R).integer_digits ∧
    (shift_left_in_width
        (L.exponent + R.exponent - (promote_multiply_result L R).exponent)
        (promote_multiply_result L R).repr_type
        (promoted (promote_multiply_result L R).repr_type) →
      promote_multiply L R a b
          = some (floor_scale (a * b)
              (L.exponent + R.exponent - (promote_multiply_result L R).exponent)) ∧
        (promote_multiply_result L R).repr_type.holds
          (floor_scale (a * b)
            (L.exponent + R.exponent - (promote_multiply_result L R).exponent))) ∧
    (L = R →
      promote_multiply L R a b = some (a * b) ∧
        (promote_multiply_result L R).value (a * b) = L.value a * R.value b) := by
  have hLp := supported_pos hL
  have hRp := supported_pos hR
  refine ⟨?_, fun hw => promote_multiply_eq L R a b hLp hRp ha hb hw, ?_⟩
  · have hRcp : 0 < (common_repr_type L.repr_type [R.repr_type]).bytes := by
      rw [common_repr_type_pair]; exact lt_of_lt_of_le hLp (le_max_left _ _)
    have hNp : 0 < (promote_multiply_result L R).repr_type.bytes := by
      show 0 < (common_repr_type L.repr_type [R.repr_type]).bytes * 2
      omega
    have hd : (promote_multiply_result L R).integer_digits
        = ((promote_multiply_result L R).repr_type.value_bits : Int)
          + (promote_multiply_result L R).exponent := by
      unfold FixedPoint.integer_digits; rw [digits_eq_value_bits hNp]
    have hexp : (promote_multiply_result L R).exponent = (common_type L R).exponent * 2 := rfl
    have hrepr : (promote_multiply_result L R).repr_type
        = next_size (common_repr_type L.repr_type [R.repr_type]) := rfl
    rw [hd, hexp, common_type_exponent L R hLp, hrepr, value_bits_next_size hRcp]
    have h1 := le_max_left L.integer_digits R.integer_digits
    have h2 := le_max_right L.integer_digits R.integer_digits
    have h3 : ((common_repr_type L.repr_type [R.repr_type]).value_bits : Int)
        ≤ num_bits (common_repr_type L.repr_type [R.repr_type]) := by
      unfold IntType.value_bits; omega
    omega
  · intro hLR
    subst hLR
    have he : L.exponent + L.exponent - (promote_multiply_result L L).exponent = 0 := by
      show L.exponent + L.exponent - (common_type L L).exponent * 2 = 0
      rw [common_type_self L hLp]; ring
    obtain ⟨h1, -⟩ := promote_multiply_eq L L a b hLp hLp ha hb (by
      rw [he]; unfold shift_left_in_width
      have := shift_left_width_le_right (promote_multiply_result L L).repr_type
        (promoted (promote_multiply_result L L).repr_type)
      have := shift_left_width_ge (promote_multiply_result L L).repr_type
      rw [if_neg (by omega)]; omega)
    rw [he, floor_scale_zero] at h1
    refine ⟨h1, ?_⟩
    have hexp : (promote_multiply_result L L).exponent = L.exponent * 2 := by
      show (common_type L L).exponent * 2 = L.exponent * 2
      rw [common_type_self L hLp]
    unfold FixedPoint.value
    rw [hexp]
    have h2 : (2 : ℚ) ≠ 0 := by norm_num
    have : (2 : ℚ) ^ (L.exponent * 2) = 2 ^ L.exponent * 2 ^ L.exponent := by
      rw [← zpow_add₀ h2]; congr 1; ring
    rw [this]
    push_cast
    ring

/-- Witness for C14: `12 * 12 = 144` for two `fixed_point<int8_t, 0>` operands,
and `-128 * 255` for `fixed_point<int8_t, 0>` and `fixed_point<uint8_t, 0>`. -/
theorem C14_promote_multiply_headroom_witness :
    (promote_multiply ⟨int8, 0⟩ ⟨int8, 0⟩ 12 12 = some (12 * 12) ∧
      (promote_multiply_result ⟨int8, 0⟩ ⟨int8, 0⟩).value (12 * 12)
        = FixedPoint.value ⟨int8, 0⟩ 12 * FixedPoint.value ⟨int8, 0⟩ 12) ∧
    (promote_multiply ⟨int8, 0⟩ ⟨make_int false 1, 0⟩ (-128) 255
        = some (floor_scale (-128 * 255)
            (0 + 0 - (promote_multiply_result ⟨int8, 0⟩ ⟨make_int false 1, 0⟩).exponent)) ∧
      (promote_multiply_result ⟨int8, 0⟩ ⟨make_int false 1, 0⟩).repr_type.holds
        (floor_scale (-128 * 255)
          (0 + 0 - (promote_multiply_result ⟨int8, 0⟩ ⟨make_int false 1, 0⟩).exponent))) :=
  ⟨(C14_promote_multiply_headroom ⟨int8, 0⟩ ⟨int8, 0⟩ 12 12 (by decide) (by decide)
      (by decide) (by decide) (by decide)).2.2 rfl,
    (C14_promote_multiply_headroom ⟨int8, 0⟩ ⟨make_int false 1, 0⟩ (-128) 255 (by decide)
      (by decide) (by decide) (by decide) (by decide)).2.1 (by decide)⟩

/-! ## trunc_reciprocal on `fixed_point<int8_t, -4>` -/

theorem int8_holds_iff (x : Int) : int8.holds x ↔ -128 ≤ x ∧ x ≤ 127 := by
  unfold IntType.holds
  have h1 : int8.min_value = -128 := by decide
  have h2 : int8.max_value = 127 := by decide
  rw [h1, h2]

set_option maxRecDepth 100000 in
/-- Evaluation of `trunc_reciprocal` on every non-zero `fixed_point<int8_t, -4>`
value: the result is the integer quotient `1024 / x` (truncated toward zero)
shifted right by four bits, and it is within one unit of `64 / x`. -/
theorem trunc_reciprocal_int8_eval : ∀ x : Int, -128 ≤ x → x ≤ 127 → (x ≠ 0 →
    trunc_reciprocal ⟨int8, -4⟩ x = some (Int.tdiv 1024 x / 16) ∧
    int8.holds (Int.tdiv 1024 x / 16) ∧ |Int.tdiv 1024 x / 16 * x - 64| < |x|) := by
  decide

theorem reciprocal_error_bound (r x : Int) (hx : x ≠ 0) (h : |r * x - 64| < |x|) :
    |FixedPoint.value ⟨int8, -2⟩ r - 1 / FixedPoint.value ⟨int8, -4⟩ x| < 2 ^ (-2 : Int) := by
  have hxq : (x : ℚ) ≠ 0 := by exact_mod_cast hx
  have hpos : (0 : ℚ) < |(x : ℚ)| := abs_pos.mpr hxq
  have hq : |(r : ℚ) * x - 64| < |(x : ℚ)| := by
    have : ((|r * x - 64| : Int) : ℚ) < ((|x| : Int) : ℚ) := by exact_mod_cast h
    simpa using this
  have e : FixedPoint.value ⟨int8, -2⟩ r - 1 / FixedPoint.value ⟨int8, -4⟩ x
      = ((r : ℚ) * x - 64) / (4 * x) := by
    unfold FixedPoint.value
    have h2 : (2 : ℚ) ^ (-2 : Int) = 1 / 4 := by norm_num
    have h4 : (2 : ℚ) ^ (-4 : Int) = 1 / 16 := by norm_num
    simp only [h2, h4]
    field_simp
    ring
  have h2 : (2 : ℚ) ^ (-2 : Int) = 1 / 4 := by norm_num
  rw [e, h2, abs_div, abs_mul, div_lt_iff₀ (by positivity)]
  have : |(4 : ℚ)| = 4 := abs_of_pos (by norm_num)
  rw [this]
  linarith

/-- C17: for `fixed_point<int8_t, -4>` and every non-zero value `x` of that type,
`trunc_reciprocal(x)`, whose result type is `fixed_point<int8_t, -2>`, does not
wrap (its representation is the unreduced quotient) and its real value differs
from `1 / value(x)` by less than the result's resolution `2^(-2)`; in particular
for `x = 4.0` (raw `64`) the result has raw representation `1`, i.e. `0.25`. -/
theorem C17_trunc_reciprocal_accuracy :
    trunc_reciprocal_result ⟨int8, -4⟩ = ⟨int8, -2⟩ ∧
    (∀ x : Int, int8.holds x → x ≠ 0 →
      ∃ r : Int, trunc_reciprocal ⟨int8, -4⟩ x = some r ∧
        r = Int.tdiv 1024 x / 16 ∧ int8.holds r ∧
        |FixedPoint.value ⟨int8, -2⟩ r - 1 / FixedPoint.value ⟨int8, -4⟩ x|
          < 2 ^ (-2 : Int)) ∧
    FixedPoint.value ⟨int8, -4⟩ 64 = 4 ∧
    trunc_reciprocal ⟨int8, -4⟩ 64 = some 1 ∧
    FixedPoint.value ⟨int8, -2⟩ 1 = 1 / 4 := by
  refine ⟨by decide, ?_, by norm_num [FixedPoint.value], by decide,
    by norm_num [FixedPoint.value]⟩
  intro x hx hx0
  rw [int8_holds_iff] at hx
  obtain ⟨h1, h2, h3⟩ := trunc_reciprocal_int8_eval x hx.1 hx.2 hx0
  exact ⟨_, h1, rfl, h2, reciprocal_error_bound _ x hx0 h3⟩

/-- Witness for C17: the reciprocal of `-0.1875` (raw `-3`). -/
theorem C17_trunc_reciprocal_accuracy_witness :
    ∃ r : Int, trunc_reciprocal ⟨int8, -4⟩ (-3) = some r ∧
      r = Int.tdiv 1024 (-3) / 16 ∧ int8.holds r ∧
      |FixedPoint.value ⟨int8, -2⟩ r - 1 / FixedPoint.value ⟨int8, -4⟩ (-3)|
        < 2 ^ (-2 : Int) :=
  C17_trunc_reciprocal_accuracy.2.1 (-3) (by decide) (by decide)

/-! ## Symmetry of type resolution and of the heterogeneous comparisons -/

theorem common_type_comm (L R : FixedPoint) : common_type L R = common_type R L := by
  unfold common_type
  rw [common_repr_type_pair, common_repr_type_pair, impl_max_eq_max, impl_max_eq_max,
    Bool.or_comm, max_comm L.repr_type.bytes, max_comm L.integer_digits]

theorem operand_common_type_comm (A B : Operand) :
    operand_common_type A B = operand_common_type B A := by
  cases A <;> cases B <;> simp only [operand_common_type]
  rw [common_type_comm]

theorem homogeneous_eq_comm (x y : Value) : homogeneous_eq x y = homogeneous_eq y x := by
  unfold homogeneous_eq
  by_cases h : x = y
  · subst h; rfl
  · have h2 : ¬ y = x := fun e => h e.symm
    simp [h, h2]

theorem homogeneous_lt_gt (x y : Value) : homogeneous_lt x y = homogeneous_gt y x := by
  cases x <;> cases y <;> simp [homogeneous_lt, homogeneous_gt]

theorem option_bind_map_comm {α β : Type} (u v : Option α) (f g : α → α → β)
    (h : ∀ x y, f x y = g y x) :
    (u.bind fun x => v.map fun y => f x y) = (v.bind fun y => u.map fun x => g y x) := by
  cases u <;> cases v <;> simp [h]

/-- C19: for every pair of operand types `(A, B)` with at least one
`fixed_point` (fixed with fixed, fixed with integer, fixed with floating-point),
`common_type<A,B>` and `common_type<B,A>` are the same type, which exists, and
therefore for every pair of values the heterogeneous comparison is symmetric:
`a == b` iff `b == a`, and `a < b` iff `b > a`. -/
theorem C19_operand_order_irrelevant (A B : Operand) (a b : Value)
    (h : Operand.one_is_fixed A B) :
    (∃ C, operand_common_type A B = some C) ∧
    operand_common_type A B = operand_common_type B A ∧
    operator_eq A B a b = operator_eq B A b a ∧
    operator_lt A B a b = operator_gt B A b a := by
  refine ⟨?_, operand_common_type_comm A B, ?_, ?_⟩
  · cases A <;> cases B <;> simp [operand_common_type, Operand.one_is_fixed] at h ⊢
  · unfold operator_eq
    rw [operand_common_type_comm A B]
    cases operand_common_type B A with
    | none => rfl
    | some C =>
      simp only [Option.some_bind]
      exact option_bind_map_comm _ _ _ _ homogeneous_eq_comm
  · unfold operator_lt operator_gt
    rw [operand_common_type_comm A B]
    cases operand_common_type B A with
    | none => rfl
    | some C =>
      simp only [Option.some_bind]
      exact option_bind_map_comm _ _ _ _ homogeneous_lt_gt

/-- Witness for C19: `fixed_point<int8_t, -4>` holding `3.5` against the `int` `3`. -/
theorem C19_operand_order_irrelevant_witness :
    (∃ C, operand_common_type (.fixed ⟨int8, -4⟩) (.integer int) = some C) ∧
    operand_common_type (.fixed ⟨int8, -4⟩) (.integer int)
      = operand_common_type (.integer int) (.fixed ⟨int8, -4⟩) ∧
    operator_eq (.fixed ⟨int8, -4⟩) (.integer int) (.int 56) (.int 3)
      = operator_eq (.integer int) (.fixed ⟨int8, -4⟩) (.int 3) (.int 56) ∧
    operator_lt (.fixed ⟨int8, -4⟩) (.integer int) (.int 56) (.int 3)
      = operator_gt (.integer int) (.fixed ⟨int8, -4⟩) (.int 3) (.int 56) :=
  C19_operand_order_irrelevant (.fixed ⟨int8, -4⟩) (.integer int) (.int 56) (.int 3) trivial

/-! ## Square root -/

theorem builtin_shr_small (T : IntType) (a : Int) {n : Nat} (hn : n < 32) :
    builtin_shr T a n = some (a / 2 ^ n) := by
  unfold builtin_shr
  have h := shift_left_width_ge T
  unfold shift_left_width at h
  rw [if_pos (by omega)]

theorem holds_of_nonneg_lt {T : IntType} {y : Int} (h0 : 0 ≤ y)
    (h1 : y < T.max_value + 1) : T.holds y := by
  have hq : (0 : Int) < 2 ^ (num_bits T - 1) := by positivity
  unfold IntType.holds IntType.min_value
  constructor
  · split <;> omega
  · omega

theorem two_pow_le_max_value_succ {T : IntType} (hT : 0 < T.bytes) :
    (2 : Int) ^ (num_bits T - 1) ≤ T.max_value + 1 ∧ T.max_value + 1 ≤ 2 ^ num_bits T := by
  have h2 := two_pow_num_bits hT
  have hq : (0 : Int) < 2 ^ (num_bits T - 1) := by positivity
  unfold IntType.max_value
  split <;> constructor <;> omega

theorem static_cast_small {T : IntType} (hT : 0 < T.bytes) {y : Int} (h0 : 0 ≤ y)
    (h1 : y < T.max_value + 1) : static_cast T y = y :=
  static_cast_of_holds hT (holds_of_nonneg_lt h0 h1)

theorem static_cast_promoted_small {T : IntType} (hT : 0 < T.bytes) {y : Int} (h0 : 0 ≤ y)
    (h1 : y < T.max_value + 1) : static_cast (promoted T) y = y :=
  static_cast_of_holds (promoted_bytes_pos hT) (holds_promoted hT (holds_of_nonneg_lt h0 h1))

/-- The digit-by-digit recursion, from the stage at which the candidate bit is
`4^j / 4` and the accumulated result is `q * 4^j`: it returns the integer square
root of `m + q^2 * 4^j`, where `m` is the remainder. -/
theorem sqrt_solve3_aux_spec (T : IntType) (hT : 0 < T.bytes) :
    ∀ (j fuel : Nat) (m q : Int), j < fuel → 0 ≤ m → m < T.max_value + 1 → 0 ≤ q →
      m < 4 ^ j * (2 * q + 1) → 2 * ((4 : Int) ^ j / 4) ≤ T.max_value + 1 →
      (4 : Int) ^ j / 4 * (4 * q + 1) < T.max_value + 1 →
      ∃ R, sqrt_solve3_aux T fuel m (4 ^ j / 4) (q * 4 ^ j) = some R ∧ 0 ≤ R ∧
        R ^ 2 ≤ m + q ^ 2 * 4 ^ j ∧ m + q ^ 2 * 4 ^ j < (R + 1) ^ 2 := by
  intro j
  induction j with
  | zero =>
    intro fuel m q hf hm0 _ hq hm _ _
    obtain ⟨f, rfl⟩ : ∃ f, fuel = f + 1 := ⟨fuel - 1, by omega⟩
    refine ⟨q, ?_, hq, ?_, ?_⟩
    · rw [sqrt_solve3_aux]
      simp
    · simp only [pow_zero, mul_one]; omega
    · simp only [pow_zero, mul_one, one_mul] at hm ⊢
      nlinarith
  | succ j ih =>
    intro fuel m q hf hm0 hmB hq hm hbit ht
    obtain ⟨f, rfl⟩ : ∃ f, fuel = f + 1 := ⟨fuel - 1, by omega⟩
    have hA : (0 : Int) < 4 ^ j := by positivity
    have hbiteq : (4 : Int) ^ (j + 1) / 4 = 4 ^ j := by
      rw [pow_succ]; exact Int.mul_ediv_cancel _ (by norm_num)
    rw [hbiteq] at hbit ht ⊢
    have hpow : (4 : Int) ^ (j + 1) = 4 * 4 ^ j := by rw [pow_succ]; ring
    rw [hpow] at hm ⊢
    generalize (4 : Int) ^ j = A at *
    have hqA : 0 ≤ q * A := mul_nonneg hq hA.le
    have hA4 : A / 4 * 4 ≤ A := Int.ediv_mul_le A (by norm_num)
    have hA40 : 0 ≤ A / 4 := Int.ediv_nonneg hA.le (by norm_num)
    have hqA4 : q * (A / 4) * 4 ≤ q * A := by
      have := mul_le_mul_of_nonneg_left hA4 hq
      linarith
    have hqA40 : 0 ≤ q * (A / 4) := mul_nonneg hq hA40
    have ht1 : q * (4 * A) + A < T.max_value + 1 := by linarith
    have ht0 : 0 ≤ q * (4 * A) + A := by linarith
    have hadd : builtin_add T (q * (4 * A)) A = q * (4 * A) + A :=
      static_cast_promoted_small hT ht0 ht1
    have hres : q * (4 * A) / 2 ^ 1 = 2 * q * A := by
      have e : q * (4 * A) = 2 * (2 * q * A) := by ring
      rw [e, pow_one]; exact Int.mul_ediv_cancel_left _ (by norm_num)
    have hb4 : A / 2 ^ 2 = A / 4 := by norm_num
    have hcb : static_cast T (A / 4) = A / 4 := static_cast_small hT hA40 (by linarith)
    rw [sqrt_solve3_aux, if_pos hA.ne', builtin_shr_small T _ (by norm_num : 2 < 32),
      builtin_shr_small T _ (by norm_num : 1 < 32), hadd, hres, hb4]
    simp only [Option.some_bind, hcb]
    by_cases hge : m ≥ q * (4 * A) + A
    · rw [if_pos hge]
      have hsub : builtin_sub T m (q * (4 * A) + A) = m - (q * (4 * A) + A) :=
        static_cast_promoted_small hT (by linarith) (by linarith)
      have hm' : static_cast T (m - (q * (4 * A) + A)) = m - (q * (4 * A) + A) :=
        static_cast_small hT (by linarith) (by linarith)
      have hr1 : builtin_add T (2 * q * A) A = (2 * q + 1) * A := by
        have e : 2 * q * A + A = (2 * q + 1) * A := by ring
        unfold builtin_add
        rw [e]
        exact static_cast_promoted_small hT (by linarith) (by linarith)
      have hr2 : static_cast T ((2 * q + 1) * A) = (2 * q + 1) * A :=
        static_cast_small hT (by linarith) (by linarith)
      rw [hsub, hm', hr1, hr2]
      obtain ⟨R, hR, hR0, hlo, hhi⟩ := ih f (m - (q * (4 * A) + A)) (2 * q + 1) (by omega)
        (by linarith) (by linarith) (by linarith) (by linarith) (by linarith) (by linarith)
      refine ⟨R, hR, hR0, ?_, ?_⟩
      · have e : m - (q * (4 * A) + A) + (2 * q + 1) ^ 2 * A = m + q ^ 2 * (4 * A) := by ring
        rw [← e]; exact hlo
      · have e : m - (q * (4 * A) + A) + (2 * q + 1) ^ 2 * A = m + q ^ 2 * (4 * A) := by ring
        rw [← e]; exact hhi
    · rw [if_neg hge]
      have hr2 : static_cast T (2 * q * A) = 2 * q * A :=
        static_cast_small hT (by linarith) (by linarith)
      rw [hr2]
      obtain ⟨R, hR, hR0, hlo, hhi⟩ := ih f m (2 * q) (by omega)
        hm0 hmB (by linarith) (by linarith) (by linarith) (by linarith)
      refine ⟨R, hR, hR0, ?_, ?_⟩
      · have e : m + (2 * q) ^ 2 * A = m + q ^ 2 * (4 * A) := by ring
        rw [← e]; exact hlo
      · have e : m + (2 * q) ^ 2 * A = m + q ^ 2 * (4 * A) := by ring
        rw [← e]; exact hhi

/-- The search for the first candidate bit, from the candidate `4^k`: for a
non-negative `n` below `4^(k+1)` it returns `4^j / 4` for the stage `j` with
`4^j / 4 ≤ n < 4^j` (zero for `n = 0`, else the largest power of four not above
`n`). -/
theorem sqrt_bit_aux_spec (T : IntType) (hT : 0 < T.bytes) :
    ∀ (k fuel : Nat) (n : Int), k + 1 < fuel → 0 ≤ n → n < 4 ^ (k + 1) →
      2 * (4 : Int) ^ k ≤ T.max_value + 1 →
      ∃ j, j ≤ k + 1 ∧ sqrt_bit_aux T fuel n (4 ^ k) = some (4 ^ j / 4) ∧
        (4 : Int) ^ j / 4 ≤ n ∧ n < 4 ^ j := by
  intro k
  induction k with
  | zero =>
    intro fuel n hf hn0 hn _
    obtain ⟨f, rfl⟩ : ∃ f, fuel = f + 1 + 1 := ⟨fuel - 2, by omega⟩
    by_cases hgt : (4 : Int) ^ 0 > n
    · refine ⟨0, by omega, ?_, ?_, hgt⟩
      · have hc : static_cast T 0 = 0 := static_cast_of_holds hT (holds_of_nonneg_lt le_rfl
          (by have := (two_pow_le_max_value_succ hT).1
              have hq : (0 : Int) < 2 ^ (num_bits T - 1) := by positivity
              omega))
        have hn' : n = 0 := by simp only [pow_zero] at hgt; omega
        subst hn'
        rw [sqrt_bit_aux, if_pos hgt, builtin_shr_small T _ (by norm_num : 2 < 32)]
        simp only [Option.some_bind]
        norm_num
        rw [hc, sqrt_bit_aux]
        simp
      · simp only [pow_zero] at hgt ⊢
        omega
    · refine ⟨1, by omega, ?_, ?_, ?_⟩
      · rw [sqrt_bit_aux, if_neg hgt]
        norm_num
      · simp only [pow_zero] at hgt
        norm_num
        omega
      · simpa using hn
  | succ k ih =>
    intro fuel n hf hn0 hn hB
    obtain ⟨f, rfl⟩ : ∃ f, fuel = f + 1 := ⟨fuel - 1, by omega⟩
    have hA : (0 : Int) < 4 ^ k := by positivity
    have hpow : (4 : Int) ^ (k + 1) = 4 ^ k * 4 := pow_succ _ _
    by_cases hgt : (4 : Int) ^ (k + 1) > n
    · have hdiv : (4 : Int) ^ (k + 1) / 2 ^ 2 = 4 ^ k := by
        rw [hpow]; exact Int.mul_ediv_cancel _ (by norm_num)
      have hc : static_cast T (4 ^ k) = 4 ^ k :=
        static_cast_of_holds hT (holds_of_nonneg_lt hA.le (by omega))
      obtain ⟨j, hj, hres, hlo, hhi⟩ := ih f n (by omega) hn0 hgt (by omega)
      refine ⟨j, by omega, ?_, hlo, hhi⟩
      rw [sqrt_bit_aux, if_pos hgt, builtin_shr_small T _ (by norm_num : 2 < 32), hdiv]
      simp only [Option.some_bind, hc]
      exact hres
    · refine ⟨k + 2, by omega, ?_, ?_, hn⟩
      · rw [sqrt_bit_aux, if_neg hgt]
        have : (4 : Int) ^ (k + 2) / 4 = 4 ^ (k + 1) := by
          rw [pow_succ 4 (k + 1)]; exact Int.mul_ediv_cancel _ (by norm_num)
        rw [this]
      · have : (4 : Int) ^ (k + 2) / 4 = 4 ^ (k + 1) := by
          rw [pow_succ 4 (k + 1)]; exact Int.mul_ediv_cancel _ (by norm_num)
        rw [this]
        omega

/-- The function `sqrt_solve1` returns the truncated integer square root of
every non-negative value of every integer type. -/
theorem sqrt_solve1_spec (T : IntType) (hT : 0 < T.bytes) (n : Int) (hn : T.holds n)
    (hn0 : 0 ≤ n) :
    ∃ R, sqrt_solve1 T n = some R ∧ 0 ≤ R ∧ R ^ 2 ≤ n ∧ n < (R + 1) ^ 2 := by
  obtain ⟨K, hK⟩ : ∃ K, num_bits T = 2 * K + 2 := ⟨4 * T.bytes - 1, by unfold num_bits; omega⟩
  have hmax := two_pow_le_max_value_succ hT
  have hK1 : (2 : Int) ^ (num_bits T - 1) = 2 * 4 ^ K := by
    have : num_bits T - 1 = 2 * K + 1 := by omega
    rw [this, pow_succ, pow_mul]; norm_num; ring
  have hK2 : (2 : Int) ^ num_bits T = 4 ^ (K + 1) := by
    have : num_bits T = 2 * (K + 1) := by omega
    rw [this, pow_mul]; norm_num
  have hK3 : (2 : Int) ^ (num_bits T - 2) = 4 ^ K := by
    have : num_bits T - 2 = 2 * K := by omega
    rw [this, pow_mul]; norm_num
  have hA : (0 : Int) < 4 ^ K := by positivity
  have h1 : static_cast T 1 = 1 := static_cast_of_holds hT (holds_of_nonneg_lt (by norm_num)
    (by omega))
  have h0 : static_cast T 0 = 0 := static_cast_of_holds hT (holds_of_nonneg_lt le_rfl
    (by omega))
  have hbitc : static_cast T (4 ^ K) = 4 ^ K :=
    static_cast_of_holds hT (holds_of_nonneg_lt hA.le (by omega))
  have hshl : builtin_shl T 1 (num_bits T - 2) = some (4 ^ K) := by
    unfold builtin_shl
    have hw := num_bits_le_promoted T
    rw [if_pos (by omega), one_mul, hK3]
    congr 1
    exact static_cast_of_holds (promoted_bytes_pos hT)
      (holds_promoted hT (holds_of_nonneg_lt hA.le (by omega)))
  obtain ⟨j, hj, hbit, hlo, hhi⟩ := sqrt_bit_aux_spec T hT K (num_bits T) n (by omega) hn0
    (by have := hn.2; omega) (by omega)
  have hj4 : (4 : Int) ^ j / 4 ≤ 4 ^ K := by
    rcases Nat.eq_zero_or_pos j with hj0 | hj0
    · subst hj0; norm_num
    · obtain ⟨i, rfl⟩ : ∃ i, j = i + 1 := ⟨j - 1, by omega⟩
      rw [pow_succ, Int.mul_ediv_cancel _ (by norm_num)]
      exact pow_le_pow_right₀ (by norm_num) (by omega)
  obtain ⟨R, hR, hR0, hRlo, hRhi⟩ := sqrt_solve3_aux_spec T hT j (num_bits T) n 0 (by omega)
    hn0 (by have := hn.2; omega) le_rfl (by simpa using hhi) (by omega) (by omega)
  refine ⟨R, ?_, hR0, by simpa using hRlo, by simpa using hRhi⟩
  unfold sqrt_solve1 sqrt_bit sqrt_solve3
  rw [h1, hshl]
  simp only [Option.some_bind, hbitc, hbit, h0]
  simpa using hR


/-- The representation computed by `promote` for an exponent of either sign:
the value scaled by `2^(-E)` and rounded down. -/
theorem promote_eq_floor (F : FixedPoint) (x : Int) (hF : 0 < F.repr_type.bytes)
    (hx : F.repr_type.holds x) (hEw : -F.exponent ≤ num_bits F.repr_type)
    (hEr : F.exponent < shift_right_width (next_size F.repr_type) F.repr_type)
    (hn : shift_right_negation_defined F.exponent (next_size F.repr_type) F.repr_type x) :
    promote F x = some (floor_scale x (-F.exponent)) ∧
      (next_size F.repr_type).holds (floor_scale x (-F.exponent)) := by
  have hNp : 0 < (next_size F.repr_type).bytes := by
    show 0 < F.repr_type.bytes * 2
    omega
  have hr : (next_size F.repr_type).holds (floor_scale x (-F.exponent)) := by
    refine holds_floor_scale hF hNp hx _ ?_
      (fun hneg => (holds_neg_signed hx hneg : F.repr_type.is_signed = true))
    rw [value_bits_next_size hF]
    omega
  refine ⟨?_, hr⟩
  unfold promote
  have he : F.exponent - (promote_result F).exponent = -F.exponent := by
    show F.exponent - F.exponent * 2 = -F.exponent
    ring
  have := fixed_point_to_repr_eq_floor (promote_result F) F x hNp hF hx (by
    show shift_right_in_width (F.exponent * 2 - F.exponent) (next_size F.repr_type) F.repr_type
    unfold shift_right_in_width
    have hw := (num_bits_le_shift_widths_next F.repr_type).1
    have hb := num_bits_pos hF
    split <;> omega) (by rw [he]; exact hr) (by
    have e : (promote_result F).exponent - F.exponent = F.exponent := by
      show F.exponent * 2 - F.exponent = F.exponent
      ring
    rw [e]
    exact hn)
  rw [this, he]

/-- The representation computed by `sqrt`, for a type with a non-negative
number of integer digits: the truncated integer square root of the operand
scaled by `2^(-E)`. -/
theorem sqrt_spec (F : FixedPoint) (x : Int) (hF : 0 < F.repr_type.bytes)
    (hx : F.repr_type.holds x) (hx0 : 0 ≤ x) (hI : 0 ≤ F.integer_digits)
    (hEr : F.exponent < shift_right_width (next_size F.repr_type) F.repr_type) :
    ∃ r, sqrt F x = some r ∧ 0 ≤ r ∧ F.repr_type.holds r ∧
      r ^ 2 ≤ floor_scale x (-F.exponent) ∧ floor_scale x (-F.exponent) < (r + 1) ^ 2 := by
  have hNp : 0 < (next_size F.repr_type).bytes := by
    show 0 < F.repr_type.bytes * 2
    omega
  have hd := digits_eq_value_bits (F := F) hF
  have hvb := value_bits_le F.repr_type
  have hnb : (num_bits F.repr_type : Int) = 8 * F.repr_type.bytes := by
    unfold num_bits; push_cast; ring
  have hId : F.integer_digits = F.digits + F.exponent := rfl
  obtain ⟨hprom, hm⟩ := promote_eq_floor F x hF hx (by omega) hEr
    (shift_right_negation_defined_of_nonneg _ _ _ hx0)
  have hm0 : 0 ≤ floor_scale x (-F.exponent) :=
    Int.floor_nonneg.mpr (mul_nonneg (by exact_mod_cast hx0) (by positivity))
  obtain ⟨r, hr, hr0, hlo, hhi⟩ := sqrt_solve1_spec (next_size F.repr_type) hNp _ hm hm0
  have hxv := (holds_iff_value_bits hF x).mp hx
  have hmlt : floor_scale x (-F.exponent) < (2 ^ F.repr_type.value_bits) ^ 2 := by
    have hb := (scale_bounds x F.repr_type.value_bits (2 * F.repr_type.value_bits)
      (-F.exponent) (by omega) (by rw [zpow_natCast]; exact_mod_cast hxv.2.1)
      (by rw [zpow_natCast]; exact_mod_cast hxv.2.2)).2
    have hfl : ((floor_scale x (-F.exponent) : Int) : ℚ) ≤ (x : ℚ) * 2 ^ (-F.exponent) :=
      Int.floor_le _
    have e : (2 : ℚ) ^ (2 * (F.repr_type.value_bits : Int))
        = (((2 : Int) ^ F.repr_type.value_bits) ^ 2 : Int) := by
      push_cast
      rw [← zpow_natCast, ← zpow_natCast, ← zpow_mul]
      congr 1
      push_cast
      ring
    rw [e] at hb
    exact_mod_cast lt_of_le_of_lt hfl hb
  have hrlt : r < 2 ^ F.repr_type.value_bits := by
    by_contra hc
    have h2 : (0 : Int) < 2 ^ F.repr_type.value_bits := by positivity
    have : (2 ^ F.repr_type.value_bits) ^ 2 ≤ r ^ 2 :=
      pow_le_pow_left₀ (by positivity) (not_lt.mp hc) 2
    omega
  have hrh : F.repr_type.holds r := by
    rw [holds_iff_value_bits hF]
    have h2 : (0 : Int) < 2 ^ F.repr_type.value_bits := by positivity
    exact ⟨fun h => by omega, by omega, hrlt⟩
  refine ⟨r, ?_, hr0, hrh, hlo, hhi⟩
  unfold sqrt
  rw [hprom]
  simp only [Option.some_bind, hr, Option.map_some']
  rw [static_cast_of_holds hF hrh]

/-- The real values of an operand and of an integer square root of its scaled
representation: `value(r)^2 ≤ value(x) < (value(r) + 2^E)^2`. -/
theorem sqrt_value_bounds (F : FixedPoint) (x r : Int)
    (hlo : r ^ 2 ≤ floor_scale x (-F.exponent)) (hhi : floor_scale x (-F.exponent) < (r + 1) ^ 2) :
    F.value r ^ 2 ≤ F.value x ∧ F.value x < (F.value r + 2 ^ F.exponent) ^ 2 := by
  have hp : (0 : ℚ) < 2 ^ F.exponent := by positivity
  have hinv : (2 : ℚ) ^ (-F.exponent) * 2 ^ F.exponent = 1 := by
    rw [← zpow_add₀ (by norm_num : (2 : ℚ) ≠ 0)]; simp
  have hfl : ((floor_scale x (-F.exponent) : Int) : ℚ) ≤ (x : ℚ) * 2 ^ (-F.exponent) :=
    Int.floor_le _
  have hfl2 : (x : ℚ) * 2 ^ (-F.exponent) < (floor_scale x (-F.exponent) : Int) + 1 :=
    Int.lt_floor_add_one _
  have hlo' : ((r : ℚ)) ^ 2 ≤ (floor_scale x (-F.exponent) : Int) := by exact_mod_cast hlo
  have hhi' : ((floor_scale x (-F.exponent) : Int) : ℚ) + 1 ≤ ((r : ℚ) + 1) ^ 2 := by
    have : floor_scale x (-F.exponent) + 1 ≤ (r + 1) ^ 2 := by omega
    exact_mod_cast this
  have hxe : (x : ℚ) * 2 ^ F.exponent
      = (x : ℚ) * 2 ^ (-F.exponent) * (2 ^ F.exponent * 2 ^ F.exponent) := by
    rw [mul_assoc, ← mul_assoc (2 ^ (-F.exponent)), hinv, one_mul]
  have hpp : (0 : ℚ) < 2 ^ F.exponent * 2 ^ F.exponent := by positivity
  unfold FixedPoint.value
  constructor
  · have e : ((r : ℚ) * 2 ^ F.exponent) ^ 2 = (r : ℚ) ^ 2 * (2 ^ F.exponent * 2 ^ F.exponent) := by
      ring
    rw [e, hxe]
    exact mul_le_mul_of_nonneg_right (le_trans hlo' hfl) hpp.le
  · have e : ((r : ℚ) * 2 ^ F.exponent + 2 ^ F.exponent) ^ 2
        = ((r : ℚ) + 1) ^ 2 * (2 ^ F.exponent * 2 ^ F.exponent) := by ring
    rw [e, hxe]
    exact mul_lt_mul_of_pos_right (lt_of_lt_of_le hfl2 hhi') hpp

/-- C11 (as stated) fails in its second part: `fixed_point<int8_t, -8>` has the
exponent `-8 ≤ 0`, and for the non-negative representation `127` the promoted
value is `127 * 2^8 = 32512`, whose truncated integer square root `180` is
computed by `sqrt_solve1`; the cast back to `int8_t` wraps it to `-76`, which is
not the square root: `value(x) < (value(sqrt(x)) + 2^E)^2` is false. -/
theorem C11_counterexample :
    int8.supported ∧ (next_size int8).supported ∧ int8.holds 127 ∧
      (⟨int8, -8⟩ : FixedPoint).exponent ≤ 0 ∧
      promote ⟨int8, -8⟩ 127 = some 32512 ∧
      sqrt_solve1 (next_size int8) 32512 = some 180 ∧
      sqrt ⟨int8, -8⟩ 127 = some (-76) ∧
      ¬ ((127 : Int) * 2 ^ 8 < (-76 + 1) ^ 2) ∧
      ¬ (FixedPoint.value ⟨int8, -8⟩ 127
          < (FixedPoint.value ⟨int8, -8⟩ (-76) + 2 ^ (-8 : Int)) ^ 2) := by
  refine ⟨by decide, by decide, by decide, by decide, by decide, by decide, by decide,
    by decide, ?_⟩
  unfold FixedPoint.value
  norm_num

/-- C11 (amended): for every supported integer type and every non-negative `n`
of that type, `sqrt_solve1(n)` returns the truncated integer square root `r`,
with `0 ≤ r` and `r² ≤ n < (r+1)²`; and for every `fixed_point<R,E>` with
`-digits ≤ E ≤ 0` (a non-negative number of integer digits) and every
non-negative `x`, `sqrt(x).data()` is the truncated integer square root of
`x.data() * 2^(-E)`, so that `value(sqrt(x))² ≤ value(x) < (value(sqrt(x)) + 2^E)²`. -/
theorem C11_integer_square_root (T : IntType) (n : Int) (F : FixedPoint) (x : Int)
    (hT : T.supported) (hn : T.holds n) (hn0 : 0 ≤ n)
    (hF : F.repr_type.supported) (_hN : (next_size F.repr_type).supported)
    (hx : F.repr_type.holds x) (hx0 : 0 ≤ x) (hE : F.exponent ≤ 0)
    (hI : 0 ≤ F.integer_digits) :
    (∃ r, sqrt_solve1 T n = some r ∧ 0 ≤ r ∧ r ^ 2 ≤ n ∧ n < (r + 1) ^ 2) ∧
      (∃ r, sqrt F x = some r ∧ 0 ≤ r ∧
        r ^ 2 ≤ x * 2 ^ (-F.exponent).toNat ∧ x * 2 ^ (-F.exponent).toNat < (r + 1) ^ 2 ∧
        F.value r ^ 2 ≤ F.value x ∧ F.value x < (F.value r + 2 ^ F.exponent) ^ 2) := by
  refine ⟨sqrt_solve1_spec T (supported_pos hT) n hn hn0, ?_⟩
  have hFp := supported_pos hF
  have hw := (num_bits_le_shift_widths_next F.repr_type).2.2
  have hb := num_bits_pos hFp
  obtain ⟨r, hr, hr0, _, hlo, hhi⟩ := sqrt_spec F x hFp hx hx0 hI (by omega)
  have hv := sqrt_value_bounds F x r hlo hhi
  rw [floor_scale_of_nonneg x (by omega : 0 ≤ -F.exponent)] at hlo hhi
  exact ⟨r, hr, hr0, hlo, hhi, hv.1, hv.2⟩

/-- Witness for C11: `sqrt_solve1` on the `int8_t` value `17`, and `sqrt` of
`fixed_point<int8_t, -4>` holding `32` (the value `2`). -/
theorem C11_integer_square_root_witness :
    (∃ r, sqrt_solve1 int8 17 = some r ∧ 0 ≤ r ∧ r ^ 2 ≤ 17 ∧ 17 < (r + 1) ^ 2) ∧
      (∃ r, sqrt ⟨int8, -4⟩ 32 = some r ∧ 0 ≤ r ∧
        r ^ 2 ≤ 32 * 2 ^ (-(⟨int8, -4⟩ : FixedPoint).exponent).toNat ∧
        32 * 2 ^ (-(⟨int8, -4⟩ : FixedPoint).exponent).toNat < (r + 1) ^ 2 ∧
        FixedPoint.value ⟨int8, -4⟩ r ^ 2 ≤ FixedPoint.value ⟨int8, -4⟩ 32 ∧
        FixedPoint.value ⟨int8, -4⟩ 32
          < (FixedPoint.value ⟨int8, -4⟩ r + 2 ^ (⟨int8, -4⟩ : FixedPoint).exponent) ^ 2) :=
  C11_integer_square_root int8 17 ⟨int8, -4⟩ 32 (by decide) (by decide) (by decide)
    (by decide) (by decide) (by decide) (by decide) (by decide) (by decide)

/-- C12 (as stated) fails: in `fixed_point<int8_t, 0>` the square root of `8` is
`2`, and `|8 - 2 * 2| = 4` exceeds `2^(2*0) = 1`; in `fixed_point<int8_t, -4>`
the square root of `2` (raw `32`) is `1.375` (raw `22`), and
`|2 - 1.375 * 1.375| = 0.109375` exceeds `2^(-8)`. -/
theorem C12_counterexample :
    int8.holds 8 ∧ sqrt ⟨int8, 0⟩ 8 = some 2 ∧
      ¬ (|FixedPoint.value ⟨int8, 0⟩ 8
          - FixedPoint.value ⟨int8, 0⟩ 2 * FixedPoint.value ⟨int8, 0⟩ 2|
        ≤ 2 ^ (2 * (0 : Int))) ∧
      int8.holds 32 ∧ sqrt ⟨int8, -4⟩ 32 = some 22 ∧
      ¬ (|FixedPoint.value ⟨int8, -4⟩ 32
          - FixedPoint.value ⟨int8, -4⟩ 22 * FixedPoint.value ⟨int8, -4⟩ 22|
        ≤ 2 ^ (2 * (-4 : Int))) := by
  refine ⟨by decide, by decide, ?_, by decide, by decide, ?_⟩
  · unfold FixedPoint.value
    norm_num [abs_of_nonneg]
  · unfold FixedPoint.value
    norm_num [abs_of_nonneg]

/-- C12 (amended): for every `fixed_point<R,E>` with a non-negative number of
integer digits (`-digits ≤ E`) and an exponent below the width of the promoting
shift, and every non-negative `x`, the square of the result of `sqrt` does not
exceed `value(x)` and falls short of it by less than
`2 * value(sqrt(x)) * 2^E + 2^(2E)`. -/
theorem C12_sqrt_square_approximates (F : FixedPoint) (x : Int)
    (hF : F.repr_type.supported) (_hN : (next_size F.repr_type).supported)
    (hx : F.repr_type.holds x) (hx0 : 0 ≤ x) (hI : 0 ≤ F.integer_digits)
    (hEr : F.exponent < shift_right_width (next_size F.repr_type) F.repr_type) :
    ∃ r, sqrt F x = some r ∧ 0 ≤ r ∧ F.value r * F.value r ≤ F.value x ∧
      |F.value x - F.value r * F.value r|
        < 2 * F.value r * 2 ^ F.exponent + 2 ^ (2 * F.exponent) := by
  obtain ⟨r, hr, hr0, _, hlo, hhi⟩ := sqrt_spec F x (supported_pos hF) hx hx0 hI hEr
  obtain ⟨h1, h2⟩ := sqrt_value_bounds F x r hlo hhi
  have e : (2 : ℚ) ^ (2 * F.exponent) = 2 ^ F.exponent * 2 ^ F.exponent := by
    rw [two_mul, zpow_add₀ (by norm_num : (2 : ℚ) ≠ 0)]
  refine ⟨r, hr, hr0, by linarith, ?_⟩
  rw [abs_of_nonneg (by linarith), e]
  linarith

/-- Witness for C12: `fixed_point<int8_t, -4>` holding `32` (the value `2`). -/
theorem C12_sqrt_square_approximates_witness :
    ∃ r, sqrt ⟨int8, -4⟩ 32 = some r ∧ 0 ≤ r ∧
      FixedPoint.value ⟨int8, -4⟩ r * FixedPoint.value ⟨int8, -4⟩ r
        ≤ FixedPoint.value ⟨int8, -4⟩ 32 ∧
      |FixedPoint.value ⟨int8, -4⟩ 32
          - FixedPoint.value ⟨int8, -4⟩ r * FixedPoint.value ⟨int8, -4⟩ r|
        < 2 * FixedPoint.value ⟨int8, -4⟩ r * 2 ^ (⟨int8, -4⟩ : FixedPoint).exponent
          + 2 ^ (2 * (⟨int8, -4⟩ : FixedPoint).exponent) :=
  C12_sqrt_square_approximates ⟨int8, -4⟩ 32 (by decide) (by decide) (by decide)
    (by decide) (by decide) (by decide)


/-! ## Constants of a specialization -/

/-- C21: for every `fixed_point<R,E>`, `digits` is the bit width of `R` minus 1 if
`R` is signed, else the bit width of `R`; `integer_digits = digits + E`;
`fractional_digits = digits - integer_digits`; hence `fractional_digits = -E` and
`integer_digits + fractional_digits = digits`. Either count can be negative:
`fixed_point<int8_t, 1>` has `-1` fractional digits and `fixed_point<int8_t, -8>`
has `-1` integer digits. -/
theorem C21_scale_derived_constants (F : FixedPoint) :
    F.digits = (8 * F.repr_type.bytes : Nat) - (if F.repr_type.is_signed then 1 else 0) ∧
      F.integer_digits = F.digits + F.exponent ∧
      F.fractional_digits = F.digits - F.integer_digits ∧
      F.fractional_digits = -F.exponent ∧
      F.integer_digits + F.fractional_digits = F.digits ∧
      (⟨int8, 1⟩ : FixedPoint).fractional_digits = -1 ∧
      (⟨int8, -8⟩ : FixedPoint).integer_digits = -1 := by
  refine ⟨?_, rfl, rfl, ?_, ?_, by decide, by decide⟩
  · unfold FixedPoint.digits num_bits
    rw [Nat.mul_comm]
  · unfold FixedPoint.fractional_digits FixedPoint.integer_digits
    ring
  · unfold FixedPoint.fractional_digits
    ring

/-- C22 (as stated) fails: `fixed_point<int8_t, -4>` does not have 4 integer
digits and 3 fractional digits. -/
theorem C22_counterexample :
    ¬ ((⟨int8, -4⟩ : FixedPoint).integer_digits = 4 ∧
        (⟨int8, -4⟩ : FixedPoint).fractional_digits = 3) := by
  decide

/-- C22 (amended): for the type with an 8-bit signed representation and
exponent `-4`, `digits = 7`, `integer_digits = 3` and `fractional_digits = 4`. -/
theorem C22_int8_exponent_minus_4 :
    (⟨int8, -4⟩ : FixedPoint).digits = 7 ∧
      (⟨int8, -4⟩ : FixedPoint).integer_digits = 3 ∧
      (⟨int8, -4⟩ : FixedPoint).fractional_digits = 4 := by
  decide

/-! ## Raw access and exponent-only rescaling -/

/-- C28: for every supported (representation, exponent) pair and every
representation value `x`, `from_data(x).data() == x`; and for every scaled value
`v`, `from_data(v.data()) == v`. -/
theorem C28_raw_round_trip (F : FixedPoint) (x v : Int) (hF : F.repr_type.supported)
    (hx : F.repr_type.holds x) (hv : F.repr_type.holds v) :
    data F (from_data F x) = x ∧ from_data F (data F v) = v := by
  have hFp := supported_pos hF
  unfold data from_data
  exact ⟨static_cast_of_holds hFp hx, static_cast_of_holds hFp hv⟩

/-- Witness for C28: `fixed_point<int8_t, -4>` with the representations `56`
and `-128`. -/
theorem C28_raw_round_trip_witness :
    data ⟨int8, -4⟩ (from_data ⟨int8, -4⟩ 56) = 56 ∧
      from_data ⟨int8, -4⟩ (data ⟨int8, -4⟩ (-128)) = -128 :=
  C28_raw_round_trip ⟨int8, -4⟩ 56 (-128) (by decide) (by decide) (by decide)

/-- C29: for every `fixed_point<R,E>`, every constant `N` and every value `x`,
`trunc_shift_left<N>(x)` has type `fixed_point<R,E+N>` and
`trunc_shift_right<N>(x)` has type `fixed_point<R,E-N>`, both with the
representation `x.data()`; the real value is multiplied, respectively divided,
by exactly `2^N`, and `trunc_shift_right<N>(trunc_shift_left<N>(x)) == x`. -/
theorem C29_trunc_shift_reinterprets (F : FixedPoint) (N : Int) (x : Int)
    (hF : F.repr_type.supported) (hx : F.repr_type.holds x) :
    trunc_shift_left_result N F = ⟨F.repr_type, F.exponent + N⟩ ∧
      trunc_shift_right_result N F = ⟨F.repr_type, F.exponent - N⟩ ∧
      data (trunc_shift_left_result N F) (trunc_shift_left N F x) = data F x ∧
      data (trunc_shift_right_result N F) (trunc_shift_right N F x) = data F x ∧
      (trunc_shift_left_result N F).value (trunc_shift_left N F x) = F.value x * 2 ^ N ∧
      (trunc_shift_right_result N F).value (trunc_shift_right N F x) = F.value x / 2 ^ N ∧
      trunc_shift_right_result N (trunc_shift_left_result N F) = F ∧
      trunc_shift_right N (trunc_shift_left_result N F) (trunc_shift_left N F x) = x := by
  have hFp := supported_pos hF
  have h2 : (2 : ℚ) ≠ 0 := by norm_num
  have hl : trunc_shift_left N F x = x := static_cast_of_holds hFp hx
  have hr : trunc_shift_right N F x = x := static_cast_of_holds hFp hx
  have hrl : trunc_shift_right N (trunc_shift_left_result N F) x = x :=
    static_cast_of_holds hFp hx
  refine ⟨rfl, rfl, hl, hr, ?_, ?_, ?_, ?_⟩
  · rw [hl]
    show (x : ℚ) * 2 ^ (F.exponent + N) = (x : ℚ) * 2 ^ F.exponent * 2 ^ N
    rw [zpow_add₀ h2, mul_assoc]
  · rw [hr]
    show (x : ℚ) * 2 ^ (F.exponent - N) = (x : ℚ) * 2 ^ F.exponent / 2 ^ N
    rw [zpow_sub₀ h2, mul_div_assoc]
  · obtain ⟨R, E⟩ := F
    show (⟨R, E + N - N⟩ : FixedPoint) = ⟨R, E⟩
    rw [add_sub_cancel_right]
  · rw [hl, hrl]

/-- Witness for C29: `fixed_point<int8_t, -4>` holding `56` (the value `3.5`),
shifted by `N = 3`. -/
theorem C29_trunc_shift_reinterprets_witness :
    trunc_shift_left_result 3 ⟨int8, -4⟩ = ⟨int8, -4 + 3⟩ ∧
      trunc_shift_right_result 3 ⟨int8, -4⟩ = ⟨int8, -4 - 3⟩ ∧
      data (trunc_shift_left_result 3 ⟨int8, -4⟩) (trunc_shift_left 3 ⟨int8, -4⟩ 56)
        = data ⟨int8, -4⟩ 56 ∧
      data (trunc_shift_right_result 3 ⟨int8, -4⟩) (trunc_shift_right 3 ⟨int8, -4⟩ 56)
        = data ⟨int8, -4⟩ 56 ∧
      (trunc_shift_left_result 3 ⟨int8, -4⟩).value (trunc_shift_left 3 ⟨int8, -4⟩ 56)
        = FixedPoint.value ⟨int8, -4⟩ 56 * 2 ^ (3 : Int) ∧
      (trunc_shift_right_result 3 ⟨int8, -4⟩).value (trunc_shift_right 3 ⟨int8, -4⟩ 56)
        = FixedPoint.value ⟨int8, -4⟩ 56 / 2 ^ (3 : Int) ∧
      trunc_shift_right_result 3 (trunc_shift_left_result 3 ⟨int8, -4⟩) = ⟨int8, -4⟩ ∧
      trunc_shift_right 3 (trunc_shift_left_result 3 ⟨int8, -4⟩)
        (trunc_shift_left 3 ⟨int8, -4⟩ 56) = 56 :=
  C29_trunc_shift_reinterprets ⟨int8, -4⟩ 3 56 (by decide) (by decide)

/-! ## The common representation type -/

theorem common_repr_type_bytes_ge (head : IntType) (tail : List IntType) :
    ∀ T ∈ head :: tail, T.bytes ≤ (common_repr_type head tail).bytes := by
  induction tail generalizing head with
  | nil =>
    intro T hT
    simp only [List.mem_singleton] at hT
    subst hT
    exact le_rfl
  | cons t ts ih =>
    intro T hT
    simp only [common_repr_type, make_int, impl_max_nat_eq_max]
    rcases List.mem_cons.mp hT with h | h
    · subst h
      exact le_max_left _ _
    · exact le_trans (ih t T h) (le_max_right _ _)

theorem common_repr_type_bytes_mem (head : IntType) (tail : List IntType) :
    ∃ T ∈ head :: tail, T.bytes = (common_repr_type head tail).bytes := by
  induction tail generalizing head with
  | nil => exact ⟨head, List.mem_singleton.mpr rfl, rfl⟩
  | cons t ts ih =>
    simp only [common_repr_type, make_int, impl_max_nat_eq_max]
    rcases le_total head.bytes (common_repr_type t ts).bytes with h | h
    · obtain ⟨T, hT, hTb⟩ := ih t
      exact ⟨T, List.mem_cons_of_mem _ hT, by rw [max_eq_right h]; exact hTb⟩
    · exact ⟨head, List.mem_cons_self _ _, by rw [max_eq_left h]⟩

theorem common_repr_type_signed_iff (head : IntType) (tail : List IntType) :
    (common_repr_type head tail).is_signed = true ↔
      ∃ T ∈ head :: tail, T.is_signed = true := by
  induction tail generalizing head with
  | nil => simp [common_repr_type]
  | cons t ts ih =>
    simp only [common_repr_type, make_int, Bool.or_eq_true, ih t]
    constructor
    · rintro (h | ⟨T, hT, hs⟩)
      · exact ⟨head, List.mem_cons_self _ _, h⟩
      · exact ⟨T, List.mem_cons_of_mem _ hT, hs⟩
    · rintro ⟨T, hT, hs⟩
      rcases List.mem_cons.mp hT with h | h
      · subst h
        exact Or.inl hs
      · exact Or.inr ⟨T, h, hs⟩

/-- C26: for every non-empty list of integer types,
`common_repr_type<T1,…,Tk>` has the byte size of the largest input (no input is
larger and some input has that size, so that the result is a supported type
when the inputs are) and is signed if and only if at least one input is signed;
as a binary operation it is commutative, associative and idempotent. -/
theorem C26_common_repr_type_rule :
    (∀ (head : IntType) (tail : List IntType),
      (∀ T ∈ head :: tail, T.bytes ≤ (common_repr_type head tail).bytes) ∧
      (∃ T ∈ head :: tail, T.bytes = (common_repr_type head tail).bytes) ∧
      ((common_repr_type head tail).is_signed = true ↔
        ∃ T ∈ head :: tail, T.is_signed = true) ∧
      ((∀ T ∈ head :: tail, T.supported) → (common_repr_type head tail).supported)) ∧
    (∀ a b : IntType, common_repr_type a [b] = common_repr_type b [a]) ∧
    (∀ a b c : IntType, common_repr_type (common_repr_type a [b]) [c]
      = common_repr_type a [common_repr_type b [c]]) ∧
    (∀ a b c : IntType, common_repr_type a [b, c]
      = common_repr_type a [common_repr_type b [c]]) ∧
    (∀ a : IntType, common_repr_type a [a] = a) := by
  refine ⟨fun head tail => ⟨common_repr_type_bytes_ge head tail,
    common_repr_type_bytes_mem head tail, common_repr_type_signed_iff head tail, ?_⟩,
    ?_, ?_, ?_, ?_⟩
  · intro hs
    obtain ⟨T, hT, hTb⟩ := common_repr_type_bytes_mem head tail
    have := hs T hT
    unfold IntType.supported at this ⊢
    rw [← hTb]
    exact this
  · intro a b
    rw [common_repr_type_pair, common_repr_type_pair, Bool.or_comm, max_comm]
  · intro a b c
    simp only [common_repr_type_pair, Bool.or_assoc, max_assoc]
  · intro a b c
    rfl
  · intro a
    rw [common_repr_type_pair, Bool.or_self, max_self]

/-- Witness for C26: the list `int8_t, uint16_t, uint8_t`, whose common type is
the supported type `int16_t`. -/
theorem C26_common_repr_type_rule_witness :
    (common_repr_type int8 [make_int false 2, make_int false 1]).supported :=
  (C26_common_repr_type_rule.1 int8 [make_int false 2, make_int false 1]).2.2.2
    (by decide)

theorem holds_of_le_bytes {T U : IntType} (hT : 0 < T.bytes) {x : Int} (hx : T.holds x)
    (hb : T.bytes ≤ U.bytes) (hs : T.is_signed = U.is_signed) : U.holds x := by
  rcases Nat.eq_or_lt_of_le hb with h | h
  · have hTU : U = T := by
      obtain ⟨s, b⟩ := T
      obtain ⟨s', b'⟩ := U
      simp only at h hs
      subst h
      subst hs
      rfl
    rw [hTU]
    exact hx
  · exact holds_of_wider hT hx h (fun hneg => by rw [← hs]; exact holds_neg_signed hx hneg)

theorem unsigned_max_holds (b : Nat) :
    (⟨false, b⟩ : IntType).holds (⟨false, b⟩ : IntType).max_value := by
  have hq : (0 : Int) < 2 ^ num_bits ⟨false, b⟩ := by positivity
  unfold IntType.holds IntType.min_value IntType.max_value
  simp only [Bool.false_eq_true, if_false]
  constructor <;> omega

theorem unsigned_max_not_signed {b : Nat} (hb : 0 < b) :
    ¬ (⟨true, b⟩ : IntType).holds (⟨false, b⟩ : IntType).max_value := by
  have h2 := two_pow_num_bits (T := ⟨true, b⟩) hb
  have hq : (0 : Int) < 2 ^ (num_bits ⟨true, b⟩ - 1) := by positivity
  have hn : num_bits ⟨false, b⟩ = num_bits ⟨true, b⟩ := rfl
  unfold IntType.holds IntType.min_value IntType.max_value
  simp only [Bool.false_eq_true, if_false, if_true]
  rw [hn]
  rintro ⟨-, h⟩
  omega

/-- C27 (as stated) fails: `int8_t` and `uint16_t` are supported types of
different sizes, their `common_repr_type` is `int16_t`, and the `uint16_t` value
`65535` is not representable in it. -/
theorem C27_counterexample :
    int8.supported ∧ (make_int false 2).supported ∧
      int8.bytes ≠ (make_int false 2).bytes ∧
      common_repr_type int8 [make_int false 2] = make_int true 2 ∧
      (make_int false 2).holds 65535 ∧
      ¬ (common_repr_type int8 [make_int false 2]).holds 65535 := by
  decide

/-- C27 (amended): for every two supported integer types `T1` and `T2`, every
value of `T1` and every value of `T2` is representable in
`common_repr_type<T1,T2>` if and only if the two types have the same signedness
or the signed one is strictly larger than the unsigned one; that is, except
when one of the two types is signed and the other is unsigned and at least as
large (not only when both have the same size). -/
theorem C27_common_repr_type_capacity (T1 T2 : IntType)
    (h1 : T1.supported) (h2 : T2.supported) :
    (∀ x : Int, T1.holds x ∨ T2.holds x → (common_repr_type T1 [T2]).holds x) ↔
      (T1.is_signed = T2.is_signed ∨ (T1.is_signed = true ∧ T2.bytes < T1.bytes) ∨
        (T2.is_signed = true ∧ T1.bytes < T2.bytes)) := by
  have hp1 := supported_pos h1
  have hp2 := supported_pos h2
  rw [common_repr_type_pair]
  obtain ⟨s1, b1⟩ := T1
  obtain ⟨s2, b2⟩ := T2
  simp only at hp1 hp2 ⊢
  constructor
  · intro h
    by_contra hc
    push_neg at hc
    obtain ⟨hne, hc1, hc2⟩ := hc
    cases s1 <;> cases s2
    · exact hne rfl
    · have hb : b2 ≤ b1 := hc2 rfl
      have hx := h _ (Or.inl (unsigned_max_holds b1))
      simp only [Bool.false_or, max_eq_left hb] at hx
      exact unsigned_max_not_signed hp1 hx
    · have hb : b1 ≤ b2 := hc1 rfl
      have hx := h _ (Or.inr (unsigned_max_holds b2))
      simp only [Bool.true_or, max_eq_right hb] at hx
      exact unsigned_max_not_signed hp2 hx
    · exact hne rfl
  · rintro (hs | ⟨hs, hb⟩ | ⟨hs, hb⟩)
    · subst hs
      rintro x (hx | hx)
      · exact holds_of_le_bytes hp1 hx (le_max_left _ _) (by simp)
      · exact holds_of_le_bytes hp2 hx (le_max_right _ _) (by simp)
    · subst hs
      rintro x (hx | hx)
      · exact holds_of_le_bytes hp1 hx (le_max_left _ _) (by simp)
      · rw [max_eq_left hb.le]
        exact holds_of_wider hp2 hx hb (fun _ => by simp)
    · subst hs
      rintro x (hx | hx)
      · rw [max_eq_right hb.le]
        exact holds_of_wider hp1 hx hb (fun _ => by simp)
      · exact holds_of_le_bytes hp2 hx (le_max_right _ _) (by simp)

/-- Witness for C27: `int32_t` and `uint16_t` have the common type `int32_t`,
which holds every value of both, e.g. the largest `uint16_t`. -/
theorem C27_common_repr_type_capacity_witness :
    common_repr_type int [make_int false 2] = int ∧
      (∀ x : Int, int.holds x ∨ (make_int false 2).holds x →
        (common_repr_type int [make_int false 2]).holds x) ∧
      (common_repr_type int [make_int false 2]).holds 65535 :=
  have h := (C27_common_repr_type_capacity int (make_int false 2) (by decide) (by decide)).mpr
    (Or.inr (Or.inl ⟨rfl, by decide⟩))
  ⟨by decide, h, h 65535 (Or.inr (by decide))⟩


/-! ## capacity, sufficient_repr and make_fixed -/

theorem capacity_aux_zero (fuel : Nat) : capacity_aux fuel 0 = 0 := by
  cases fuel <;> simp [capacity_aux]

theorem capacity_aux_lt : ∀ (fuel N : Nat), N ≤ fuel → N < 2 ^ capacity_aux fuel N := by
  intro fuel
  induction fuel with
  | zero =>
    intro N h
    have h0 : N = 0 := by omega
    subst h0
    simp [capacity_aux]
  | succ f ih =>
    intro N h
    rw [capacity_aux]
    split
    · rename_i h0
      subst h0
      simp
    · have := ih (N / 2) (by omega)
      rw [pow_succ]
      omega

theorem capacity_aux_ge : ∀ (fuel N : Nat), N ≤ fuel → N ≠ 0 →
    ∃ k, capacity_aux fuel N = k + 1 ∧ 2 ^ k ≤ N := by
  intro fuel
  induction fuel with
  | zero =>
    intro N h h0
    omega
  | succ f ih =>
    intro N h h0
    rw [capacity_aux, if_neg h0]
    refine ⟨capacity_aux f (N / 2), rfl, ?_⟩
    by_cases h2 : N / 2 = 0
    · rw [h2, capacity_aux_zero]
      simp
      omega
    · obtain ⟨k, hk, hle⟩ := ih (N / 2) (by omega) h2
      rw [hk, pow_succ]
      omega

/-- The value `capacity<N>` is the number of binary digits of `N`. -/
theorem capacity_spec (N : Nat) :
    N < 2 ^ capacity N ∧ (0 < N → 2 ^ (capacity N - 1) ≤ N) := by
  refine ⟨capacity_aux_lt N N le_rfl, fun h => ?_⟩
  obtain ⟨k, hk, hle⟩ := capacity_aux_ge N N le_rfl (by omega)
  unfold capacity
  rw [hk]
  exact hle

theorem capacity_eq_size (N : Nat) : capacity N = Nat.size N := by
  obtain ⟨h1, h2⟩ := capacity_spec N
  apply le_antisymm
  · rcases Nat.eq_zero_or_pos N with h0 | h0
    · subst h0
      have : capacity 0 = 0 := capacity_aux_zero 0
      omega
    · have := Nat.lt_size.mpr (h2 h0)
      omega
  · exact Nat.size_le.mpr h1

theorem capacity_small :
    ∀ j ≤ 15, capacity j
      = if j = 0 then 0 else if j < 2 then 1 else if j < 4 then 2 else if j < 8 then 3 else 4 := by
  decide

/-- The representation type chosen by `sufficient_repr` for a bit count between
1 and 128. -/
theorem sufficient_repr_eq (b : Nat) (s : Bool) (h1 : 1 ≤ b) (h2 : b ≤ 128) :
    sufficient_repr b s
      = make_int s (if b ≤ 8 then 1 else if b ≤ 16 then 2 else if b ≤ 32 then 4
          else if b ≤ 64 then 8 else 16) := by
  have hmod : ((b + 7) / 8 + (2 ^ 32 - 1)) % 2 ^ 32 = (b + 7) / 8 - 1 := by omega
  have hstep : sufficient_repr b s = make_int s (1 <<< capacity ((b + 7) / 8 - 1)) :=
    congrArg (fun m => make_int s (1 <<< capacity m)) hmod
  have hbytes : (2 : Nat) ^ (if (b + 7) / 8 - 1 = 0 then 0 else if (b + 7) / 8 - 1 < 2 then 1
        else if (b + 7) / 8 - 1 < 4 then 2 else if (b + 7) / 8 - 1 < 8 then 3 else 4)
      = if b ≤ 8 then 1 else if b ≤ 16 then 2 else if b ≤ 32 then 4
          else if b ≤ 64 then 8 else 16 := by
    split_ifs <;> omega
  rw [hstep, capacity_small _ (by omega), Nat.one_shiftLeft, hbytes]

/-- The type chosen by `sufficient_repr` for a bit count between 1 and 128 has
the requested signedness and the smallest supported size with enough bits. -/
theorem sufficient_repr_spec (b : Nat) (s : Bool) (h1 : 1 ≤ b) (h2 : b ≤ 128) :
    (sufficient_repr b s).is_signed = s ∧ (sufficient_repr b s).supported ∧
      b ≤ 8 * (sufficient_repr b s).bytes ∧
      (∀ n, n = 1 ∨ n = 2 ∨ n = 4 ∨ n = 8 ∨ n = 16 → b ≤ 8 * n →
        (sufficient_repr b s).bytes ≤ n) := by
  rw [sufficient_repr_eq b s h1 h2]
  refine ⟨rfl, ?_, ?_, ?_⟩
  · unfold IntType.supported make_int
    simp only []
    split_ifs <;> simp
  · unfold make_int
    simp only []
    split_ifs <;> omega
  · intro n hn hb
    unfold make_int
    simp only []
    split_ifs <;> omega

/-- C25: for every bit count `b` with `1 ≤ b ≤ 128` and either signedness,
`sufficient_repr<b, signed>` is the integer type of the requested signedness
whose byte size `n` is the smallest of 1, 2, 4, 8, 16 with `8·n ≥ b`;
`capacity<N>` is the number of binary digits of `N`, with `capacity<0> = 0`. -/
theorem C25_sufficient_repr_smallest (b : Nat) (s : Bool) (h1 : 1 ≤ b) (h2 : b ≤ 128) :
    (sufficient_repr b s).is_signed = s ∧ (sufficient_repr b s).supported ∧
      b ≤ 8 * (sufficient_repr b s).bytes ∧
      (∀ n, n = 1 ∨ n = 2 ∨ n = 4 ∨ n = 8 ∨ n = 16 → b ≤ 8 * n →
        (sufficient_repr b s).bytes ≤ n) ∧
      capacity 0 = 0 ∧
      (∀ N, capacity N = Nat.size N) ∧
      (∀ N, 0 < N → 2 ^ (capacity N - 1) ≤ N ∧ N < 2 ^ capacity N) := by
  obtain ⟨hs, hsup, hb, hmin⟩ := sufficient_repr_spec b s h1 h2
  exact ⟨hs, hsup, hb, hmin, capacity_aux_zero 0, capacity_eq_size,
    fun N hN => ⟨(capacity_spec N).2 hN, (capacity_spec N).1⟩⟩

/-- Witness for C25: 15 bits, signed, give the 2-byte type. -/
theorem C25_sufficient_repr_smallest_witness :
    (sufficient_repr 15 true).is_signed = true ∧ (sufficient_repr 15 true).supported ∧
      15 ≤ 8 * (sufficient_repr 15 true).bytes ∧
      (∀ n, n = 1 ∨ n = 2 ∨ n = 4 ∨ n = 8 ∨ n = 16 → 15 ≤ 8 * n →
        (sufficient_repr 15 true).bytes ≤ n) ∧
      capacity 0 = 0 ∧
      (∀ N, capacity N = Nat.size N) ∧
      (∀ N, 0 < N → 2 ^ (capacity N - 1) ≤ N ∧ N < 2 ^ capacity N) :=
  C25_sufficient_repr_smallest 15 true (by decide) (by decide)

/-- The digit counts of a specialization whose representation type `T` has the
signedness `S` and at least `I + Fr + S` bits, and whose exponent is
`(I + S) - num_bits<T>()`. -/
theorem make_fixed_digits (T : IntType) (I Fr : Nat) (S : Bool) (hs : T.is_signed = S)
    (hb : I + Fr + (if S then 1 else 0) ≤ num_bits T) :
    (⟨T, ((I + (if S then 1 else 0) : Nat) : Int) - num_bits T⟩ : FixedPoint).integer_digits = I ∧
      (Fr : Int) ≤
        (⟨T, ((I + (if S then 1 else 0) : Nat) : Int) - num_bits T⟩ : FixedPoint).fractional_digits := by
  unfold FixedPoint.fractional_digits FixedPoint.integer_digits FixedPoint.digits
  subst hs
  cases hT : T.is_signed <;> simp [hT] at hb ⊢ <;> omega

/-- C24: for every `IntegerDigits`, `FractionalDigits` and `IsSigned` with
`1 ≤ IntegerDigits + FractionalDigits + IsSigned ≤ 128`,
`make_fixed<IntegerDigits, FractionalDigits, IsSigned>` is a `fixed_point` over a
supported representation type whose `integer_digits` equals `IntegerDigits`
exactly and whose `fractional_digits` is at least `FractionalDigits`, with
signedness `IsSigned`; and `make_fixed_from_repr<R, I>::integer_digits == I` for
every supported `R`. -/
theorem C24_make_fixed_digit_counts (IntegerDigits FractionalDigits : Nat) (IsSigned : Bool)
    (R : IntType) (I : Int)
    (h1 : 1 ≤ IntegerDigits + FractionalDigits + (if IsSigned then 1 else 0))
    (h2 : IntegerDigits + FractionalDigits + (if IsSigned then 1 else 0) ≤ 128)
    (hR : R.supported) :
    (make_fixed IntegerDigits FractionalDigits IsSigned).integer_digits = IntegerDigits ∧
      (FractionalDigits : Int)
        ≤ (make_fixed IntegerDigits FractionalDigits IsSigned).fractional_digits ∧
      (make_fixed IntegerDigits FractionalDigits IsSigned).repr_type.is_signed = IsSigned ∧
      (make_fixed IntegerDigits FractionalDigits IsSigned).repr_type.supported ∧
      (make_fixed_from_repr R I).integer_digits = I := by
  have hspec := sufficient_repr_spec
    (IntegerDigits + FractionalDigits + (if IsSigned then 1 else 0)) IsSigned h1 h2
  have hd := make_fixed_digits
    (sufficient_repr (IntegerDigits + FractionalDigits + (if IsSigned then 1 else 0)) IsSigned)
    IntegerDigits FractionalDigits IsSigned hspec.1 (by unfold num_bits; omega)
  exact ⟨hd.1, hd.2, hspec.1, hspec.2.1,
    integer_digits_make_fixed_from_repr (supported_pos hR) I⟩

/-- Witness for C24: `make_fixed<3, 4, true>` is `fixed_point<int8_t, -4>`, and
`make_fixed_from_repr<int8_t, 5>`. -/
theorem C24_make_fixed_digit_counts_witness :
    (make_fixed 3 4 true).integer_digits = (3 : Nat) ∧
      ((4 : Nat) : Int) ≤ (make_fixed 3 4 true).fractional_digits ∧
      (make_fixed 3 4 true).repr_type.is_signed = true ∧
      (make_fixed 3 4 true).repr_type.supported ∧
      (make_fixed_from_repr int8 5).integer_digits = 5 :=
  C24_make_fixed_digit_counts 3 4 true int8 5 (by decide) (by decide) (by decide)


/-! ## trunc_add -/

theorem floor_scale_neg_nat (a : Int) (c : Nat) : floor_scale a (-(c : Int)) = a / 2 ^ c := by
  rcases Nat.eq_zero_or_pos c with h | h
  · subst h
    simp [floor_scale_zero]
  · rw [floor_scale_of_neg a (by omega : -(c : Int) < 0)]
    simp

theorem min_value_nonpos (R : IntType) : R.min_value ≤ 0 := by
  have hq : (0 : Int) < 2 ^ (num_bits R - 1) := by positivity
  unfold IntType.min_value
  split <;> omega

theorem max_value_nonneg (R : IntType) : 0 ≤ R.max_value := by
  have hq : (0 : Int) < 2 ^ (num_bits R - 1) := by positivity
  have hq' : (0 : Int) < 2 ^ num_bits R := by positivity
  unfold IntType.max_value
  split <;> omega

theorem holds_ediv_two_pow {R : IntType} {a : Int} (ha : R.holds a) (c : Nat) :
    R.holds (a / 2 ^ c) := by
  have hmin := min_value_nonpos R
  have hmax := max_value_nonneg R
  have hc : (0 : Int) < 2 ^ c := by positivity
  obtain ⟨h1, h2⟩ := ha
  rcases le_or_lt 0 a with h0 | h0
  · have := Int.ediv_nonneg h0 hc.le
    have := Int.ediv_le_self (2 ^ c) h0
    exact ⟨by omega, by omega⟩
  · have hlo : a ≤ a / 2 ^ c := Int.le_ediv_of_mul_le hc (by nlinarith)
    have hhi : a / 2 ^ c < 0 := Int.ediv_lt_of_lt_mul hc (by omega)
    exact ⟨by omega, by omega⟩

/-- Conversion of an addend to the result type of `trunc_add`, whose exponent
is larger by `c`: a right shift by `c`. -/
theorem fixed_point_to_repr_shift (F : FixedPoint) (c : Nat) (hF : 0 < F.repr_type.bytes)
    (hw : c < num_bits (promoted F.repr_type)) {a : Int} (ha : F.repr_type.holds a) :
    fixed_point_to_repr ⟨F.repr_type, F.exponent + c⟩ F a = some (a / 2 ^ c) := by
  have he : F.exponent - (F.exponent + c) = -(c : Int) := by ring
  have hr : F.repr_type.holds (floor_scale a (F.exponent - (F.exponent + c))) := by
    rw [he, floor_scale_neg_nat]
    exact holds_ediv_two_pow ha c
  have h := fixed_point_to_repr_eq_floor ⟨F.repr_type, F.exponent + c⟩ F a hF hF ha (by
    show shift_right_in_width (F.exponent + c - F.exponent) F.repr_type F.repr_type
    unfold shift_right_in_width shift_right_width shift_left_width
    simp only [le_refl, if_true]
    split <;> omega) hr
    (shift_right_negation_defined_of_exp _ _ _ (by
      show 0 ≤ F.exponent + c - F.exponent
      omega))
  rw [h]
  show some (floor_scale a (F.exponent - (F.exponent + c))) = some (a / 2 ^ c)
  rw [he, floor_scale_neg_nat]

theorem holds_of_sum_bounds {R : IntType} (c : Nat) (M n S : Int) (hn : n ≤ 2 ^ c)
    (hM : n * M ≤ -R.min_value) (hlo : -(n * M) ≤ S) (hhi : S * 2 ^ c ≤ n * R.max_value) :
    R.holds S := by
  have hmax := max_value_nonneg R
  have hc : (0 : Int) < 2 ^ c := by positivity
  refine ⟨by omega, ?_⟩
  have h1 : n * R.max_value ≤ 2 ^ c * R.max_value := mul_le_mul_of_nonneg_right hn hmax
  have h2 : S * 2 ^ c ≤ R.max_value * 2 ^ c := by linarith
  exact le_of_mul_le_mul_right h2 hc

theorem operator_add_of_holds (F : FixedPoint) (hF : 0 < F.repr_type.bytes) {s h : Int}
    (hsum : F.repr_type.holds (s + h)) : operator_add F s h = s + h := by
  unfold operator_add from_data data builtin_add
  rw [static_cast_of_holds (promoted_bytes_pos hF) (holds_promoted hF hsum),
    static_cast_of_holds hF hsum]

/-- The fold of `_impl::add` over addends converted by a right shift by `c`:
it returns the sum of the shifted addends as long as every shifted addend is at
least `-M` and the number of addends, times `M`, stays within the negative
range of the representation type, and does not exceed `2^c`. -/
theorem add_eq_sum (F : FixedPoint) (c : Nat) (M : Int) (hF : 0 < F.repr_type.bytes)
    (hw : c < num_bits (promoted F.repr_type)) (hM0 : 0 ≤ M)
    (hM : ∀ x, F.repr_type.holds x → -M ≤ x / 2 ^ c) :
    ∀ (l : List Int) (a : Int), (∀ x ∈ a :: l, F.repr_type.holds x) →
      ((l.length : Int) + 1) * M ≤ -F.repr_type.min_value →
      ((l.length : Int) + 1) ≤ 2 ^ c →
      add ⟨F.repr_type, F.exponent + c⟩ F a l
          = some (((a :: l).map fun x => x / 2 ^ c).sum) ∧
        -(((l.length : Int) + 1) * M) ≤ ((a :: l).map fun x => x / 2 ^ c).sum ∧
        ((a :: l).map fun x => x / 2 ^ c).sum * 2 ^ c
          ≤ ((l.length : Int) + 1) * F.repr_type.max_value := by
  have hc : (0 : Int) < 2 ^ c := by positivity
  intro l
  induction l with
  | nil =>
    intro a ha _ _
    have haa := ha a (List.mem_cons_self _ _)
    have h1 := hM a haa
    have h2 := Int.ediv_mul_le a hc.ne'
    have h3 := haa.2
    refine ⟨?_, ?_, ?_⟩
    · rw [add, fixed_point_to_repr_shift F c hF hw haa]
      simp
    · simp only [List.length_nil, List.map_cons, List.map_nil, List.sum_cons, List.sum_nil]
      norm_num
      linarith
    · simp only [List.length_nil, List.map_cons, List.map_nil, List.sum_cons, List.sum_nil]
      norm_num
      linarith
  | cons t ts ih =>
    intro a ha hlen hpow
    have haa := ha a (List.mem_cons_self _ _)
    have hlen' : ((ts.length : Int) + 1 + 1) * M ≤ -F.repr_type.min_value := by
      simpa using hlen
    have hpow' : ((ts.length : Int) + 1 + 1) ≤ 2 ^ c := by simpa using hpow
    obtain ⟨hadd, hlo, hhi⟩ := ih t (fun x hx => ha x (List.mem_cons_of_mem _ hx))
      (by nlinarith) (by omega)
    have h1 := hM a haa
    have h2 := Int.ediv_mul_le a hc.ne'
    have h3 := haa.2
    have hsum : ((a :: t :: ts).map fun x => x / 2 ^ c).sum
        = a / 2 ^ c + ((t :: ts).map fun x => x / 2 ^ c).sum := by
      simp only [List.map_cons, List.sum_cons]
    rw [hsum]
    simp only [List.length_cons]
    push_cast
    generalize ((t :: ts).map fun x => x / 2 ^ c).sum = s at hadd hlo hhi ⊢
    have hholds : F.repr_type.holds (s + a / 2 ^ c) :=
      holds_of_sum_bounds c M ((ts.length : Int) + 1 + 1) (s + a / 2 ^ c) hpow' hlen'
        (by linarith) (by linarith)
    refine ⟨?_, by linarith, by linarith⟩
    rw [add, hadd, fixed_point_to_repr_shift F c hF hw haa]
    simp only [Option.some_bind, Option.map_some']
    rw [operator_add_of_holds ⟨F.repr_type, F.exponent + c⟩ hF hholds, add_comm]

/-- The result type of `trunc_add` for `n + 1` addends:
`fixed_point<R, E + capacity<n>>`. -/
theorem trunc_add_result_eq (F : FixedPoint) (n : Nat) (hn : n + 1 < 2 ^ 32) :
    trunc_add_result F (n + 1) = ⟨F.repr_type, F.exponent + capacity n⟩ := by
  have hmod : (n + 1 + (2 ^ 32 - 1)) % 2 ^ 32 = n := by omega
  have h1 : trunc_add_result F (n + 1)
      = make_fixed_from_repr F.repr_type (F.integer_digits + capacity n) :=
    congrArg (fun m : Nat => make_fixed_from_repr F.repr_type (F.integer_digits + capacity m))
      hmod
  have he : F.integer_digits + capacity n + (if F.repr_type.is_signed then 1 else 0)
      - ((F.repr_type.bytes * 8 : Nat) : Int) = F.exponent + capacity n := by
    unfold FixedPoint.integer_digits FixedPoint.digits num_bits
    split <;> ring
  rw [h1]
  unfold make_fixed_from_repr
  rw [he]

/-- A bound `M` on the magnitude of a negative shifted addend such that `n`
addends cannot leave the range of the representation type. -/
theorem shifted_addend_bound (R : IntType) (c : Nat) (n : Int)
    (hn : n ≤ 2 ^ c) (hs : R.is_signed = true → c ≤ R.value_bits) :
    ∃ M : Int, 0 ≤ M ∧ (∀ x, R.holds x → -M ≤ x / 2 ^ c) ∧ n * M ≤ -R.min_value := by
  have hc : (0 : Int) < 2 ^ c := by positivity
  cases hsg : R.is_signed
  · refine ⟨0, le_rfl, ?_, ?_⟩
    · intro x hx
      have hx0 : 0 ≤ x := by
        have := hx.1
        unfold IntType.min_value at this
        rw [hsg] at this
        simpa using this
      have := Int.ediv_nonneg hx0 hc.le
      omega
    · have := min_value_nonpos R
      omega
  · have hcv := hs hsg
    have hmin : R.min_value = -(2 ^ R.value_bits) := by
      unfold IntType.min_value IntType.value_bits
      rw [hsg]
      simp
    have hsplit : (2 : Int) ^ (R.value_bits - c) * 2 ^ c = 2 ^ R.value_bits := by
      rw [← pow_add, Nat.sub_add_cancel hcv]
    have hp : (0 : Int) < 2 ^ (R.value_bits - c) := by positivity
    refine ⟨2 ^ (R.value_bits - c), hp.le, ?_, ?_⟩
    · intro x hx
      have hx1 := hx.1
      rw [hmin] at hx1
      exact Int.le_ediv_of_mul_le hc (by rw [neg_mul, hsplit]; exact hx1)
    · rw [hmin, neg_neg, ← hsplit, mul_comm n]
      exact mul_le_mul_of_nonneg_left hn hp.le

/-- C23 (as stated) fails: `trunc_add` of 129 values of `fixed_point<int8_t, 0>`,
each with the representation `-1`, has the result type `fixed_point<int8_t, 8>`
(`capacity<128> = 8`); every addend converts to `floor(-1 / 2^8) = -1`, the sum
of the converted addends is `-129`, outside the range of `int8_t`, and the
result wraps to `127`. -/
theorem C23_counterexample :
    (∀ a ∈ (-1 : Int) :: List.replicate 128 (-1), int8.holds a) ∧
      capacity 128 = 8 ∧
      trunc_add_result ⟨int8, 0⟩ ((List.replicate 128 (-1 : Int)).length + 1) = ⟨int8, 8⟩ ∧
      (((-1 : Int) :: List.replicate 128 (-1)).map fun a => a / 2 ^ capacity 128).sum = -129 ∧
      ¬ int8.holds (-129) ∧
      trunc_add ⟨int8, 0⟩ (-1) (List.replicate 128 (-1)) = some 127 := by
  have h8 : capacity 128 = 8 := by decide
  have hres : trunc_add_result ⟨int8, 0⟩ ((List.replicate 128 (-1 : Int)).length + 1)
      = ⟨int8, 8⟩ := by
    rw [List.length_replicate]
    decide
  have hdiv : (-1 : Int) / 2 ^ 8 = -1 := by decide
  have hall : ∀ a ∈ (-1 : Int) :: List.replicate 127 (-1), int8.holds a := by
    intro a ha
    have : a = -1 := by
      rcases List.mem_cons.mp ha with h | h
      · exact h
      · exact (List.mem_replicate.mp h).2
    subst this
    decide
  refine ⟨?_, h8, hres, ?_, by decide, ?_⟩
  · intro a ha
    have : a = -1 := by
      rcases List.mem_cons.mp ha with h | h
      · exact h
      · exact (List.mem_replicate.mp h).2
    subst this
    decide
  · rw [h8]
    simp only [List.map_cons, List.map_replicate, List.sum_cons, List.sum_replicate, hdiv]
    norm_num
  · obtain ⟨hadd, -, -⟩ := add_eq_sum ⟨int8, 0⟩ 8 1 (by decide) (by decide) (by decide)
      (fun x hx => by
        have h := ((int8_holds_iff x).mp hx).1
        have : (-1 : Int) * 2 ^ 8 ≤ x := by norm_num; omega
        exact Int.le_ediv_of_mul_le (by norm_num) this)
      (List.replicate 127 (-1)) (-1) hall
      (by rw [List.length_replicate]; decide) (by rw [List.length_replicate]; decide)
    have hsum : (((-1 : Int) :: List.replicate 127 (-1)).map fun x => x / 2 ^ 8).sum = -128 := by
      simp only [List.map_cons, List.map_replicate, List.sum_cons, List.sum_replicate, hdiv]
      norm_num
    rw [hsum] at hadd
    have hadd' : add ⟨int8, 8⟩ ⟨int8, 0⟩ (-1) (List.replicate 127 (-1)) = some (-128) := hadd
    unfold trunc_add
    rw [hres, show List.replicate 128 (-1 : Int) = -1 :: List.replicate 127 (-1) from rfl,
      add, hadd']
    decide

/-- C23 (amended): for every `fixed_point<R,E>`, every `N ≥ 1` and every `N`
values `a_1..a_N` of that type, with `c = capacity<N-1>` smaller than the width
of the promoted `R` and, when `R` is signed, `c ≤ digits` (that is,
`N ≤ 2^digits`), `trunc_add(a_1,…,a_N)` has the result type `fixed_point<R, E + c>`,
its representation equals `Σ floor(a_i.data() / 2^c)`, and this sum lies within
the range of `R`. -/
theorem C23_trunc_add_in_range (F : FixedPoint) (addend1 : Int) (addend_tail : List Int)
    (hF : F.repr_type.supported)
    (ha : ∀ a ∈ addend1 :: addend_tail, F.repr_type.holds a)
    (hN : addend_tail.length + 1 < 2 ^ 32)
    (hw : capacity addend_tail.length < num_bits (promoted F.repr_type))
    (hs : F.repr_type.is_signed = true → (capacity addend_tail.length : Int) ≤ F.digits) :
    trunc_add_result F (addend_tail.length + 1)
        = ⟨F.repr_type, F.exponent + capacity addend_tail.length⟩ ∧
      trunc_add F addend1 addend_tail
        = some (((addend1 :: addend_tail).map
            fun a => a / 2 ^ capacity addend_tail.length).sum) ∧
      F.repr_type.holds (((addend1 :: addend_tail).map
        fun a => a / 2 ^ capacity addend_tail.length).sum) := by
  have hFp := supported_pos hF
  have hres := trunc_add_result_eq F addend_tail.length hN
  have hcap : ((addend_tail.length : Int) + 1) ≤ 2 ^ capacity addend_tail.length := by
    have := (capacity_spec addend_tail.length).1
    exact_mod_cast this
  obtain ⟨M, hM0, hM, hMn⟩ := shifted_addend_bound F.repr_type
    (capacity addend_tail.length) ((addend_tail.length : Int) + 1) hcap
    (fun h => by
      have := hs h
      rw [digits_eq_value_bits hFp] at this
      exact_mod_cast this)
  obtain ⟨hadd, hlo, hhi⟩ := add_eq_sum F (capacity addend_tail.length) M hFp hw hM0 hM
    addend_tail addend1 ha hMn hcap
  refine ⟨hres, ?_, holds_of_sum_bounds _ M _ _ hcap hMn hlo hhi⟩
  unfold trunc_add
  rw [hres]
  exact hadd

/-- Witness for C23: three values of `fixed_point<int8_t, -4>` with the
representations `100`, `100` and `27`; the result has exponent `-2` and the
representation `25 + 25 + 6 = 56`. -/
theorem C23_trunc_add_in_range_witness :
    trunc_add_result ⟨int8, -4⟩ (([100, 27] : List Int).length + 1)
        = ⟨int8, -4 + capacity ([100, 27] : List Int).length⟩ ∧
      trunc_add ⟨int8, -4⟩ 100 [100, 27]
        = some (((100 :: [100, 27]).map
            fun a => a / 2 ^ capacity ([100, 27] : List Int).length).sum) ∧
      int8.holds (((100 :: [100, 27]).map
        fun a => a / 2 ^ capacity ([100, 27] : List Int).length).sum) :=
  C23_trunc_add_in_range ⟨int8, -4⟩ 100 [100, 27] (by decide) (by decide) (by decide)
    (by decide) (by decide)


/-! ## Precision of the division operator -/

/-- The built-in division of two values of a type, other than the overflowing
one, yields a value of that type. -/
theorem holds_tdiv {C : IntType} {x v : Int} (hx : C.holds x) (hv : C.holds v)
    (hov : ¬ (C.is_signed = true ∧ x = C.min_value ∧ v = -1)) :
    C.holds (Int.tdiv x v) := by
  have hmin := min_value_nonpos C
  have hmax := max_value_nonneg C
  have hrel : C.is_signed = true → C.min_value = -C.max_value - 1 := by
    intro h
    unfold IntType.min_value IntType.max_value
    rw [h]
    simp
  obtain ⟨hx1, hx2⟩ := hx
  rcases le_or_lt 0 x with hx0 | hx0
  · rcases le_or_lt 0 v with hv0 | hv0
    · rw [Int.tdiv_eq_ediv hx0 hv0]
      have h1 := Int.ediv_nonneg hx0 hv0
      have h2 := Int.ediv_le_self v hx0
      exact ⟨by omega, by omega⟩
    · have hs := hrel (holds_neg_signed hv hv0)
      have e : Int.tdiv x v = -(x / (-v)) := by
        rw [← Int.tdiv_eq_ediv hx0 (by omega : 0 ≤ -v), Int.tdiv_neg, neg_neg]
      have h1 := Int.ediv_nonneg hx0 (by omega : 0 ≤ -v)
      have h2 := Int.ediv_le_self (-v) hx0
      rw [e]
      exact ⟨by omega, by omega⟩
  · have hsg := holds_neg_signed (T := C) (x := x) ⟨hx1, hx2⟩ hx0
    have hs := hrel hsg
    rcases le_or_lt 0 v with hv0 | hv0
    · have e : Int.tdiv x v = -((-x) / v) := by
        rw [← Int.tdiv_eq_ediv (by omega : 0 ≤ -x) hv0, Int.neg_tdiv, neg_neg]
      have h1 := Int.ediv_nonneg (by omega : 0 ≤ -x) hv0
      have h2 := Int.ediv_le_self v (by omega : 0 ≤ -x)
      rw [e]
      exact ⟨by omega, by omega⟩
    · have e : Int.tdiv x v = (-x) / (-v) := by
        rw [← Int.tdiv_eq_ediv (by omega : 0 ≤ -x) (by omega : 0 ≤ -v), Int.neg_tdiv_neg]
      have h1 := Int.ediv_nonneg (by omega : 0 ≤ -x) (by omega : 0 ≤ -v)
      rw [e]
      refine ⟨by omega, ?_⟩
      by_cases hv1 : v = -1
      · have hne : x ≠ C.min_value := fun h => hov ⟨hsg, h, hv1⟩
        subst hv1
        simp only [neg_neg, Int.ediv_one]
        omega
      · have h2 := Int.ediv_mul_le (-x) (by omega : -v ≠ 0)
        have h4 : -x / -v * 2 ≤ -x / -v * -v := mul_le_mul_of_nonneg_left (by omega) h1
        omega

/-- A quotient known to within one unit, shifted right by `n` bits, is within
one unit of the exact quotient divided by `2^n`. -/
theorem shifted_quotient_near (q : Int) (y : ℚ) (n : Nat) (h : |(q : ℚ) - y| < 1) :
    |((q / 2 ^ n : Int) : ℚ) - y / 2 ^ n| < 1 := by
  have hP : (1 : ℚ) ≤ 2 ^ n := one_le_pow₀ (by norm_num)
  have hP0 : (0 : ℚ) < 2 ^ n := by positivity
  have hc : (0 : Int) < 2 ^ n := by positivity
  have h1 := Int.emod_add_ediv q (2 ^ n)
  have h2 := Int.emod_nonneg q hc.ne'
  have h3 := Int.emod_lt_of_pos q hc
  have e : ((q / 2 ^ n : Int) : ℚ) * 2 ^ n = (q : ℚ) - ((q % 2 ^ n : Int) : ℚ) := by
    have : ((q % 2 ^ n + 2 ^ n * (q / 2 ^ n) : Int) : ℚ) = (q : ℚ) := by rw [h1]
    push_cast at this ⊢
    linarith
  have h2' : (0 : ℚ) ≤ ((q % 2 ^ n : Int) : ℚ) := by exact_mod_cast h2
  have h3' : ((q % 2 ^ n : Int) : ℚ) ≤ 2 ^ n - 1 := by
    have : q % 2 ^ n ≤ 2 ^ n - 1 := by omega
    exact_mod_cast this
  obtain ⟨hl, hu⟩ := abs_lt.mp h
  have key : ((q / 2 ^ n : Int) : ℚ) - y / 2 ^ n
      = (((q / 2 ^ n : Int) : ℚ) * 2 ^ n - y) / 2 ^ n := by
    field_simp
  rw [key, abs_lt]
  constructor
  · rw [lt_div_iff₀ hP0]
    linarith
  · rw [div_lt_iff₀ hP0]
    linarith

/-- An integer within one unit of a rational that lies in the range of an
integer type is a value of that type. -/
theorem holds_of_near {R : IntType} {t : ℚ} {r : Int} (ht : R.holds_rat t)
    (h : |(r : ℚ) - t| < 1) : R.holds r := by
  obtain ⟨hl, hu⟩ := abs_lt.mp h
  obtain ⟨h1, h2⟩ := ht
  constructor
  · have : ((R.min_value - 1 : Int) : ℚ) < r := by push_cast; linarith
    have := Int.cast_lt.mp this
    omega
  · have : (r : ℚ) < ((R.max_value + 1 : Int) : ℚ) := by push_cast; linarith
    have := Int.cast_lt.mp this
    omega

theorem arithmetic_conversion_next_size (R : IntType)
    (hb : R.bytes = 1 ∨ R.bytes = 2 ∨ R.bytes = 4 ∨ R.bytes = 8) :
    arithmetic_conversion (next_size R) R = promoted (next_size R) := by
  obtain ⟨s, b⟩ := R
  simp only at hb
  rcases hb with rfl | rfl | rfl | rfl <;> cases s <;> decide

theorem digits_mk (s : Bool) (b : Nat) (E : Int) :
    (⟨⟨s, b⟩, E⟩ : FixedPoint).digits = ((b * 8 : Nat) : Int) - (if s then 1 else 0) := rfl

/-- The intermediate type of `_impl::divide` when quotient, dividend and divisor
have the same type with non-negative digit counts: twice the width, with as
many fractional bits as the operand type has bits. -/
theorem divide_intermediate_type_self (F : FixedPoint)
    (hb : F.repr_type.bytes = 1 ∨ F.repr_type.bytes = 2 ∨ F.repr_type.bytes = 4 ∨
      F.repr_type.bytes = 8)
    (hI : 0 ≤ F.integer_digits) (hFr : 0 ≤ F.fractional_digits) :
    divide_intermediate_type F F F
      = ⟨next_size F.repr_type, -(num_bits F.repr_type : Int)⟩ := by
  have h1 : impl_max F.integer_digits (F.integer_digits + F.fractional_digits) = F.digits := by
    rw [impl_max_eq_max, max_eq_right (by omega)]
    unfold FixedPoint.fractional_digits
    ring
  have h2 : impl_max F.fractional_digits (F.fractional_digits + F.integer_digits) = F.digits := by
    rw [impl_max_eq_max, max_eq_right (by omega)]
    unfold FixedPoint.fractional_digits
    ring
  unfold divide_intermediate_type
  rw [h1, h2]
  obtain ⟨⟨s, b⟩, E⟩ := F
  simp only [Bool.or_self, digits_mk] at hb ⊢
  rcases hb with rfl | rfl | rfl | rfl <;> cases s <;> decide


/-- The steps of `_impl::divide` when the dividend converts to `x`, the division
is evaluated without conversion loss, and the final rescaling stays within the
shift width and the range of the quotient type. -/
theorem divide_eq_floor (Q D V X : FixedPoint) (d v x : Int)
    (hXeq : divide_intermediate_type Q D V = X)
    (hconv : fixed_point_to_repr X D d = some x)
    (hQp : 0 < Q.repr_type.bytes)
    (hCp : 0 < (arithmetic_conversion X.repr_type V.repr_type).bytes)
    (hCx : (arithmetic_conversion X.repr_type V.repr_type).holds x)
    (hCv : (arithmetic_conversion X.repr_type V.repr_type).holds v)
    (hv0 : v ≠ 0)
    (hov : ¬ ((arithmetic_conversion X.repr_type V.repr_type).is_signed = true ∧
      x = (arithmetic_conversion X.repr_type V.repr_type).min_value ∧ v = -1))
    (hw : shift_left_in_width (X.exponent - V.exponent - Q.exponent) Q.repr_type
      (arithmetic_conversion X.repr_type V.repr_type))
    (hr : Q.repr_type.holds
      (floor_scale (Int.tdiv x v) (X.exponent - V.exponent - Q.exponent)))
    (hn : shift_left_negation_defined (X.exponent - V.exponent - Q.exponent) Q.repr_type
      (arithmetic_conversion X.repr_type V.repr_type) (Int.tdiv x v)) :
    divide Q D V d v
      = some (floor_scale (Int.tdiv x v) (X.exponent - V.exponent - Q.exponent)) := by
  unfold divide
  simp only []
  rw [hXeq, hconv]
  simp only [Option.some_bind]
  rw [builtin_div_eq _ _ x v hCp hCx hCv hv0 hov]
  simp only [Option.some_bind]
  exact shift_left_eq_floor _ _ _ _ hQp hCp (holds_tdiv hCx hCv hov) hw hr hn

/-- The true quotient of two values of one type, in units of the resolution, is
the quotient of the dividend scaled by `2^(E + w)` and the divisor, divided by
`2^(w + 2E)`. -/
theorem quotient_units_self (F : FixedPoint) (a b : Int) (w : Int) (x : ℚ)
    (hx : x = (a : ℚ) * 2 ^ (F.exponent + w)) :
    F.value a / F.value b / 2 ^ F.exponent = x / b / 2 ^ (w + 2 * F.exponent) := by
  have h2 : (2 : ℚ) ≠ 0 := by norm_num
  have e1 : (2 : ℚ) ^ (F.exponent + w) = 2 ^ F.exponent * 2 ^ w := zpow_add₀ h2 _ _
  have e2 : (2 : ℚ) ^ (w + 2 * F.exponent) = 2 ^ w * (2 ^ F.exponent * 2 ^ F.exponent) := by
    rw [two_mul, zpow_add₀ h2, zpow_add₀ h2]
  have hu : (2 : ℚ) ^ F.exponent ≠ 0 := zpow_ne_zero _ h2
  have hW : (2 : ℚ) ^ w ≠ 0 := zpow_ne_zero _ h2
  unfold FixedPoint.value
  rw [hx, e1, e2]
  rcases eq_or_ne (b : ℚ) 0 with hb | hb
  · rw [hb]
    simp
  · field_simp
    ring


/-- The result of `operator/` on two values of one type whose fractional digits
do not exceed half the width: the truncated quotient of the dividend scaled by
`2^(E + w)` and the divisor, shifted right by `w + 2E` bits. -/
theorem operator_div_self (F : FixedPoint) (a b : Int)
    (hF : F.repr_type.supported) (hN : (next_size F.repr_type).supported)
    (hE0 : F.exponent ≤ 0) (hEw : -(num_bits F.repr_type : Int) ≤ 2 * F.exponent)
    (ha : F.repr_type.holds a) (hb : F.repr_type.holds b) (hb0 : b ≠ 0)
    (hq : F.repr_type.holds_rat (F.value a / F.value b / 2 ^ F.exponent))
    (hn : shift_right_negation_defined (-(num_bits F.repr_type : Int) - F.exponent)
      (next_size F.repr_type) F.repr_type a) :
    ∃ r, operator_div F F a b = some r ∧ F.repr_type.holds r ∧
      |(r : ℚ) - F.value a / F.value b / 2 ^ F.exponent| < 1 := by
  have hFp := supported_pos hF
  have hb8 := bytes_of_next_supported hF hN
  have hNp : 0 < (next_size F.repr_type).bytes := by
    show 0 < F.repr_type.bytes * 2
    omega
  have hwpos := num_bits_pos hFp
  have hnb : num_bits (next_size F.repr_type) = 2 * num_bits F.repr_type := by
    unfold num_bits next_size make_int; simp only []; ring
  have hdig := digits_eq_value_bits (F := F) hFp
  have hvb := value_bits_eq hFp
  have hnum : (num_bits F.repr_type : Int) = 8 * F.repr_type.bytes := by
    unfold num_bits; push_cast; ring
  have hI : 0 ≤ F.integer_digits := by
    unfold FixedPoint.integer_digits
    rw [hdig, hvb]
    split <;> omega
  have hFr : 0 ≤ F.fractional_digits := by
    unfold FixedPoint.fractional_digits FixedPoint.integer_digits
    omega
  have hXeq := divide_intermediate_type_self F hb8 hI hFr
  have hC := arithmetic_conversion_next_size F.repr_type hb8
  have hCp : 0 < (arithmetic_conversion (next_size F.repr_type) F.repr_type).bytes :=
    arithmetic_conversion_bytes_pos hNp hFp
  have hk1 : 0 ≤ F.exponent + num_bits F.repr_type := by omega
  -- the dividend in the intermediate type
  have hxh : (next_size F.repr_type).holds (floor_scale a (F.exponent + num_bits F.repr_type)) :=
    holds_floor_scale hFp hNp ha _ (by rw [value_bits_next_size hFp]; omega)
      (fun hneg => (holds_neg_signed ha hneg : F.repr_type.is_signed = true))
  have he1 : F.exponent - -(num_bits F.repr_type : Int) = F.exponent + num_bits F.repr_type := by
    ring
  have hconv : fixed_point_to_repr ⟨next_size F.repr_type, -(num_bits F.repr_type : Int)⟩ F a
      = some (floor_scale a (F.exponent + num_bits F.repr_type)) := by
    have h := fixed_point_to_repr_eq_floor
      ⟨next_size F.repr_type, -(num_bits F.repr_type : Int)⟩ F a hNp hFp ha (by
        show shift_right_in_width (-(num_bits F.repr_type : Int) - F.exponent)
          (next_size F.repr_type) F.repr_type
        unfold shift_right_in_width
        have hw := (num_bits_le_shift_widths_next F.repr_type).1
        split <;> omega) (by
        show (next_size F.repr_type).holds
          (floor_scale a (F.exponent - -(num_bits F.repr_type : Int)))
        rw [he1]
        exact hxh) hn
    rw [h]
    show some (floor_scale a (F.exponent - -(num_bits F.repr_type : Int))) = _
    rw [he1]
  have hxq := floor_scale_cast_of_nonneg a hk1
  generalize floor_scale a (F.exponent + num_bits F.repr_type) = x at hxh hconv hxq
  have hCx : (arithmetic_conversion (next_size F.repr_type) F.repr_type).holds x := by
    rw [hC]
    exact holds_promoted hNp hxh
  have hCb : (arithmetic_conversion (next_size F.repr_type) F.repr_type).holds b := by
    rw [hC]
    exact holds_promoted hNp (holds_of_wider hFp hb (by show F.repr_type.bytes < F.repr_type.bytes * 2; omega)
      (fun h => (holds_neg_signed hb h : F.repr_type.is_signed = true)))
  -- the true quotient in units of the resolution
  have hunits := quotient_units_self F a b (num_bits F.repr_type) x hxq
  obtain ⟨n, hn⟩ : ∃ n : Nat, (n : Int) = num_bits F.repr_type + 2 * F.exponent :=
    ⟨(num_bits F.repr_type + 2 * F.exponent).toNat, by omega⟩
  have hpow : (2 : ℚ) ^ ((num_bits F.repr_type : Int) + 2 * F.exponent) = 2 ^ n := by
    rw [← hn, zpow_natCast]
  rw [hpow] at hunits
  -- the division does not overflow
  have hov : ¬ ((arithmetic_conversion (next_size F.repr_type) F.repr_type).is_signed = true ∧
      x = (arithmetic_conversion (next_size F.repr_type) F.repr_type).min_value ∧ b = -1) := by
    rintro ⟨hsg, hxmin, hb1⟩
    rw [hC] at hsg hxmin
    have hp : (0 : Int) < 2 ^ (2 * num_bits F.repr_type - 1) := by positivity
    have hCmin : (promoted (next_size F.repr_type)).min_value
        ≤ -(2 ^ (2 * num_bits F.repr_type - 1)) := by
      unfold IntType.min_value
      rw [if_pos hsg]
      have h1 := num_bits_le_promoted (next_size F.repr_type)
      have h2 : (2 : Int) ^ (2 * num_bits F.repr_type - 1)
          ≤ 2 ^ (num_bits (promoted (next_size F.repr_type)) - 1) :=
        pow_le_pow_right₀ (by norm_num) (by omega)
      omega
    rcases le_or_lt 0 a with ha0 | ha0
    · have hx0 : (0 : ℚ) ≤ x := by
        rw [hxq]
        exact mul_nonneg (by exact_mod_cast ha0) (by positivity)
      have hx0' : 0 ≤ x := by exact_mod_cast hx0
      omega
    · have hsR : F.repr_type.is_signed = true := holds_neg_signed ha ha0
      have hmaxR : F.repr_type.max_value = 2 ^ (num_bits F.repr_type - 1) - 1 := by
        unfold IntType.max_value
        rw [if_pos hsR]
      have ht := hq.2
      rw [hunits, hb1] at ht
      have hP0 : (0 : ℚ) < 2 ^ n := by positivity
      have h1 : -(x : ℚ) ≤ (F.repr_type.max_value : ℚ) * 2 ^ n := by
        have h := (div_le_iff₀ hP0).mp ht
        have e : (x : ℚ) / ((-1 : Int) : ℚ) = -(x : ℚ) := by push_cast; rw [div_neg, div_one]
        rw [e] at h
        exact h
      have h1' : -x ≤ F.repr_type.max_value * 2 ^ n := by exact_mod_cast h1
      have hnw : n ≤ num_bits F.repr_type := by omega
      have h2 : (2 : Int) ^ n ≤ 2 ^ num_bits F.repr_type := pow_le_pow_right₀ (by norm_num) hnw
      have h3 : F.repr_type.max_value * 2 ^ n
          ≤ F.repr_type.max_value * 2 ^ num_bits F.repr_type :=
        mul_le_mul_of_nonneg_left h2 (max_value_nonneg _)
      have hsplit : (2 : Int) ^ (num_bits F.repr_type - 1) * 2 ^ num_bits F.repr_type
          = 2 ^ (2 * num_bits F.repr_type - 1) := by
        rw [← pow_add]
        congr 1
        omega
      have hW : (0 : Int) < 2 ^ num_bits F.repr_type := by positivity
      have h4 : F.repr_type.max_value * 2 ^ num_bits F.repr_type
          = 2 ^ (2 * num_bits F.repr_type - 1) - 2 ^ num_bits F.repr_type := by
        rw [hmaxR, ← hsplit]
        ring
      omega
  -- the truncated quotient and the final right shift
  have hqy : |((Int.tdiv x b : Int) : ℚ) - (x : ℚ) / b| < 1 := by
    rw [tdiv_eq_round x hb0]
    exact float_trunc_abs_sub_lt _
  have hnear := shifted_quotient_near (Int.tdiv x b) ((x : ℚ) / b) n hqy
  rw [← hunits] at hnear
  have hrh : F.repr_type.holds (Int.tdiv x b / 2 ^ n) := holds_of_near hq hnear
  have he2 : -(num_bits F.repr_type : Int) - F.exponent - F.exponent = -(n : Int) := by omega
  have hdiv := divide_eq_floor F F F ⟨next_size F.repr_type, -(num_bits F.repr_type : Int)⟩
    a b x hXeq hconv hFp hCp hCx hCb hb0 hov (by
      show shift_left_in_width (-(num_bits F.repr_type : Int) - F.exponent - F.exponent)
        F.repr_type (arithmetic_conversion (next_size F.repr_type) F.repr_type)
      rw [hC]
      unfold shift_left_in_width shift_right_width
      have h1 := num_bits_le_promoted (next_size F.repr_type)
      have h2 := num_bits_le_promoted (promoted (next_size F.repr_type))
      have hbytes : F.repr_type.bytes ≤ (promoted (next_size F.repr_type)).bytes := by
        have h3 : num_bits F.repr_type ≤ num_bits (promoted (next_size F.repr_type)) := by
          omega
        unfold num_bits at h3
        omega
      rw [if_neg (by omega), if_pos hbytes]
      omega) (by
      show F.repr_type.holds (floor_scale (Int.tdiv x b)
        (-(num_bits F.repr_type : Int) - F.exponent - F.exponent))
      rw [he2, floor_scale_neg_nat]
      exact hrh)
    (shift_left_negation_defined_of_exp _ _ _ (by
      show -(num_bits F.repr_type : Int) - F.exponent - F.exponent ≤ 0
      omega))
  refine ⟨Int.tdiv x b / 2 ^ n, ?_, hrh, hnear⟩
  unfold operator_div
  rw [common_type_self F hFp, hdiv]
  show some (floor_scale (Int.tdiv x b)
    (-(num_bits F.repr_type : Int) - F.exponent - F.exponent)) = _
  rw [he2, floor_scale_neg_nat]


/-! ## Rounding of the quotient computed by `_impl::divide` -/

theorem floor_le_round_toward_zero (y : ℚ) : ⌊y⌋ ≤ round_toward_zero y := by
  unfold round_toward_zero
  split
  · exact le_refl _
  · exact Int.floor_le_ceil y

/-- A quotient truncated toward zero and then shifted right by `n` bits lies
between the exact quotient divided by `2^n` rounded down and the same rounded
toward zero. -/
theorem shifted_trunc_bounds (y : ℚ) (n : Nat) :
    ⌊y / 2 ^ n⌋ ≤ round_toward_zero y / 2 ^ n ∧
      round_toward_zero y / 2 ^ n ≤ round_toward_zero (y / 2 ^ n) := by
  have hP : (0 : ℚ) < 2 ^ n := by positivity
  have hc : (0 : Int) < 2 ^ n := by positivity
  have hcast : (((2 : Int) ^ n : Int) : ℚ) = 2 ^ n := by push_cast; rfl
  constructor
  · apply Int.le_ediv_of_mul_le hc
    refine le_trans ?_ (floor_le_round_toward_zero y)
    rw [Int.le_floor]
    push_cast
    have h1 := Int.floor_le (y / 2 ^ n)
    have h2 := mul_le_mul_of_nonneg_right h1 hP.le
    rwa [div_mul_cancel₀ _ hP.ne'] at h2
  · rcases le_or_lt 0 y with h0 | h0
    · have hq : (0 : ℚ) ≤ y / 2 ^ n := div_nonneg h0 hP.le
      unfold round_toward_zero
      rw [if_pos h0, if_pos hq, Int.le_floor, le_div_iff₀ hP]
      have h1 := Int.ediv_mul_le ⌊y⌋ hc.ne'
      have h2 : ((⌊y⌋ / 2 ^ n * 2 ^ n : Int) : ℚ) ≤ (⌊y⌋ : ℚ) := by exact_mod_cast h1
      push_cast at h2
      exact le_trans h2 (Int.floor_le y)
    · have hq : ¬ (0 : ℚ) ≤ y / 2 ^ n := not_le.mpr (div_neg_of_neg_of_pos h0 hP)
      unfold round_toward_zero
      rw [if_neg (not_le.mpr h0), if_neg hq]
      apply Int.ediv_le_of_le_mul hc
      rw [Int.ceil_le]
      push_cast
      have h1 := Int.le_ceil (y / 2 ^ n)
      have h2 := mul_le_mul_of_nonneg_right h1 hP.le
      rwa [div_mul_cancel₀ _ hP.ne'] at h2

theorem round_toward_zero_holds {T : IntType} {t : ℚ} (ht : T.holds_rat t) :
    T.holds ⌊t⌋ ∧ T.holds (round_toward_zero t) ∧ T.min_value ≤ ⌊t⌋ ∧
      round_toward_zero t ≤ T.max_value := by
  obtain ⟨h1, h2⟩ := ht
  have hlo : T.min_value ≤ ⌊t⌋ := Int.le_floor.mpr h1
  have hfl : ⌊t⌋ ≤ T.max_value := by
    have := le_trans (Int.floor_le t) h2
    exact_mod_cast this
  have hhi : round_toward_zero t ≤ T.max_value := by
    unfold round_toward_zero
    split
    · exact hfl
    · exact Int.ceil_le.mpr h2
  exact ⟨⟨hlo, hfl⟩, ⟨le_trans hlo (floor_le_round_toward_zero t), hhi⟩, hlo, hhi⟩

/-- The true quotient in units of the quotient type's resolution is the
quotient of the exactly converted dividend and the divisor, divided by `2^n`
when the final rescaling is a right shift by `n` bits. -/
theorem quotient_units_shift (Q D V X : FixedPoint) (d v : Int) (x : ℚ) (n : Nat)
    (hx : x = (d : ℚ) * 2 ^ (D.exponent - X.exponent))
    (hn : (n : Int) = -(X.exponent - V.exponent - Q.exponent)) :
    D.value d / V.value v / 2 ^ Q.exponent = x / v / 2 ^ n := by
  have h2 : (2 : ℚ) ≠ 0 := by norm_num
  have e : (2 : ℚ) ^ n = 2 ^ V.exponent * 2 ^ Q.exponent / 2 ^ X.exponent := by
    rw [← zpow_natCast, hn, ← zpow_add₀ h2, ← zpow_sub₀ h2]
    congr 1
    ring
  have hV : (2 : ℚ) ^ V.exponent ≠ 0 := zpow_ne_zero _ h2
  have hQ : (2 : ℚ) ^ Q.exponent ≠ 0 := zpow_ne_zero _ h2
  have hX : (2 : ℚ) ^ X.exponent ≠ 0 := zpow_ne_zero _ h2
  unfold FixedPoint.value
  rw [hx, e, zpow_sub₀ h2]
  rcases eq_or_ne (v : ℚ) 0 with hv | hv
  · rw [hv]
    simp
  · field_simp
    ring

/-- C6 (as stated) fails: in `fixed_point<int8_t, 0>` the quotient of `-7` by `2`
computed by `operator/` is `-4`, although `-7 / 2 = -3.5` rounded toward zero is
`-3`: the final rescaling of the integer quotient is a right shift by 8, which
rounds toward negative infinity. In `fixed_point<int8_t, -7>` the quotient of
`1/128` by `3/128` is `0`, although `1/3` in units of `2^(-7)` rounded toward
zero is `42`: the integer quotient `2 / 3 = 0` is computed at a coarser
resolution and then shifted left. -/
theorem C6_counterexample :
    (common_type ⟨int8, 0⟩ ⟨int8, 0⟩ = ⟨int8, 0⟩ ∧
      int8.holds (-7) ∧ int8.holds 2 ∧
      operator_div ⟨int8, 0⟩ ⟨int8, 0⟩ (-7) 2 = some (-4) ∧
      divide ⟨int8, 0⟩ ⟨int8, 0⟩ ⟨int8, 0⟩ (-7) 2 = some (-4) ∧
      round_toward_zero
        (FixedPoint.value ⟨int8, 0⟩ (-7) / FixedPoint.value ⟨int8, 0⟩ 2 / 2 ^ (0 : Int)) = -3 ∧
      int8.holds (-3)) ∧
    (common_type ⟨int8, -7⟩ ⟨int8, -7⟩ = ⟨int8, -7⟩ ∧
      int8.holds 1 ∧ int8.holds 3 ∧
      operator_div ⟨int8, -7⟩ ⟨int8, -7⟩ 1 3 = some 0 ∧
      round_toward_zero
        (FixedPoint.value ⟨int8, -7⟩ 1 / FixedPoint.value ⟨int8, -7⟩ 3 / 2 ^ (-7 : Int)) = 42 ∧
      int8.holds 42) := by
  refine ⟨⟨by decide, by decide, by decide, by decide, by decide, ?_, by decide⟩,
    by decide, by decide, by decide, by decide, ?_, by decide⟩
  · have e : FixedPoint.value ⟨int8, 0⟩ (-7) / FixedPoint.value ⟨int8, 0⟩ 2 / 2 ^ (0 : Int)
        = (((-7 : Int) : ℚ) / ((2 : Int) : ℚ)) := by
      norm_num [FixedPoint.value]
    rw [e, ← tdiv_eq_round (-7) (by decide : (2 : Int) ≠ 0)]
    decide
  · have e : FixedPoint.value ⟨int8, -7⟩ 1 / FixedPoint.value ⟨int8, -7⟩ 3 / 2 ^ (-7 : Int)
        = (((128 : Int) : ℚ) / ((3 : Int) : ℚ)) := by
      norm_num [FixedPoint.value]
    rw [e, ← tdiv_eq_round 128 (by decide : (3 : Int) ≠ 0)]
    decide

/-- C6 (amended): `_impl::divide<Quotient>(a, b)` with `b ≠ 0` converts the
dividend to the intermediate type `X` (`x = floor(a.data() * 2^(Ea - Ex))`),
applies the native integer division, which truncates toward zero, to `x` and
`b.data()`, and rescales the integer quotient by `k = Ex - Eb - Eq` bits with
`shift_left`: the result is `floor(trunc(x / b.data()) * 2^k)`, provided the
operations executed are defined (shift counts within the shift widths, no
negation of a most negative value, the dividend and the divisor representable
in the type of the division, no overflow of the quotient) and the result lies
within `Quotient`'s range, for which it suffices that the true quotient does
when the dividend converts exactly (`Ex ≤ Ea`) and `k ≤ 0`. In that case, with
`t = value(a) / value(b)` in units of `2^Eq`, the result lies between `floor(t)`
and `t` rounded toward zero, and it equals `t` rounded toward zero whenever
`t ≥ 0` or `k = 0`; for a negative quotient the final right shift may round
toward negative infinity instead. -/
theorem C6_divide_truncates (Q D V X : FixedPoint) (d v : Int)
    (hXeq : divide_intermediate_type Q D V = X)
    (hQ : Q.repr_type.supported) (hD : D.repr_type.supported)
    (hV : V.repr_type.supported) (hX : X.repr_type.supported)
    (hd : D.repr_type.holds d) (hv0 : v ≠ 0)
    (hw : shift_right_in_width (X.exponent - D.exponent) X.repr_type D.repr_type)
    (hn : shift_right_negation_defined (X.exponent - D.exponent) X.repr_type D.repr_type d)
    (hx : X.repr_type.holds (floor_scale d (D.exponent - X.exponent)))
    (hCx : (arithmetic_conversion X.repr_type V.repr_type).holds
      (floor_scale d (D.exponent - X.exponent)))
    (hCv : (arithmetic_conversion X.repr_type V.repr_type).holds v)
    (hov : ¬ ((arithmetic_conversion X.repr_type V.repr_type).is_signed = true ∧
      floor_scale d (D.exponent - X.exponent)
        = (arithmetic_conversion X.repr_type V.repr_type).min_value ∧ v = -1))
    (hw2 : shift_left_in_width (X.exponent - V.exponent - Q.exponent) Q.repr_type
      (arithmetic_conversion X.repr_type V.repr_type))
    (hn2 : shift_left_negation_defined (X.exponent - V.exponent - Q.exponent) Q.repr_type
      (arithmetic_conversion X.repr_type V.repr_type)
      (Int.tdiv (floor_scale d (D.exponent - X.exponent)) v))
    (hr : (X.exponent ≤ D.exponent ∧ X.exponent - V.exponent - Q.exponent ≤ 0 ∧
        Q.repr_type.holds_rat (D.value d / V.value v / 2 ^ Q.exponent)) ∨
      Q.repr_type.holds
        (floor_scale (Int.tdiv (floor_scale d (D.exponent - X.exponent)) v)
          (X.exponent - V.exponent - Q.exponent))) :
    divide Q D V d v
        = some (floor_scale (Int.tdiv (floor_scale d (D.exponent - X.exponent)) v)
            (X.exponent - V.exponent - Q.exponent)) ∧
      Int.tdiv (floor_scale d (D.exponent - X.exponent)) v
        = round_toward_zero (((floor_scale d (D.exponent - X.exponent) : Int) : ℚ) / v) ∧
      Q.repr_type.holds
        (floor_scale (Int.tdiv (floor_scale d (D.exponent - X.exponent)) v)
          (X.exponent - V.exponent - Q.exponent)) ∧
      (X.exponent ≤ D.exponent → X.exponent - V.exponent - Q.exponent ≤ 0 →
        ⌊D.value d / V.value v / 2 ^ Q.exponent⌋
            ≤ floor_scale (Int.tdiv (floor_scale d (D.exponent - X.exponent)) v)
                (X.exponent - V.exponent - Q.exponent) ∧
          floor_scale (Int.tdiv (floor_scale d (D.exponent - X.exponent)) v)
              (X.exponent - V.exponent - Q.exponent)
            ≤ round_toward_zero (D.value d / V.value v / 2 ^ Q.exponent) ∧
          (0 ≤ D.value d / V.value v / 2 ^ Q.exponent ∨
              X.exponent - V.exponent - Q.exponent = 0 →
            floor_scale (Int.tdiv (floor_scale d (D.exponent - X.exponent)) v)
                (X.exponent - V.exponent - Q.exponent)
              = round_toward_zero (D.value d / V.value v / 2 ^ Q.exponent))) := by
  have hQp := supported_pos hQ
  have hDp := supported_pos hD
  have hXp := supported_pos hX
  have hCp := arithmetic_conversion_bytes_pos hXp (supported_pos hV)
  have hconv := fixed_point_to_repr_eq_floor X D d hXp hDp hd hw hx hn
  have htr := tdiv_eq_round (floor_scale d (D.exponent - X.exponent)) hv0
  -- the result between the floor and the truncation of the true quotient
  have hbounds : X.exponent ≤ D.exponent → X.exponent - V.exponent - Q.exponent ≤ 0 →
      ⌊D.value d / V.value v / 2 ^ Q.exponent⌋
          ≤ floor_scale (Int.tdiv (floor_scale d (D.exponent - X.exponent)) v)
              (X.exponent - V.exponent - Q.exponent) ∧
        floor_scale (Int.tdiv (floor_scale d (D.exponent - X.exponent)) v)
            (X.exponent - V.exponent - Q.exponent)
          ≤ round_toward_zero (D.value d / V.value v / 2 ^ Q.exponent) := by
    intro hle hk
    obtain ⟨n, hn'⟩ : ∃ n : Nat, (n : Int) = -(X.exponent - V.exponent - Q.exponent) :=
      ⟨(-(X.exponent - V.exponent - Q.exponent)).toNat, by omega⟩
    have hxq := floor_scale_cast_of_nonneg d (by omega : 0 ≤ D.exponent - X.exponent)
    have hunits := quotient_units_shift Q D V X d v _ n hxq hn'
    have hke : X.exponent - V.exponent - Q.exponent = -(n : Int) := by omega
    rw [hunits, hke, floor_scale_neg_nat, htr]
    exact shifted_trunc_bounds _ n
  have hrange : Q.repr_type.holds
      (floor_scale (Int.tdiv (floor_scale d (D.exponent - X.exponent)) v)
        (X.exponent - V.exponent - Q.exponent)) := by
    rcases hr with ⟨hle, hk, hq⟩ | hr
    · obtain ⟨h1, h2⟩ := hbounds hle hk
      obtain ⟨-, -, h3, h4⟩ := round_toward_zero_holds hq
      exact ⟨le_trans h3 h1, le_trans h2 h4⟩
    · exact hr
  refine ⟨?_, htr, hrange, ?_⟩
  · exact divide_eq_floor Q D V X d v _ hXeq hconv hQp hCp hCx hCv hv0 hov hw2 hrange hn2
  · intro hle hk
    obtain ⟨h1, h2⟩ := hbounds hle hk
    refine ⟨h1, h2, ?_⟩
    rintro (h0 | h0)
    · have e : round_toward_zero (D.value d / V.value v / 2 ^ Q.exponent)
          = ⌊D.value d / V.value v / 2 ^ Q.exponent⌋ := by
        unfold round_toward_zero
        rw [if_pos h0]
      rw [e] at h2 ⊢
      exact le_antisymm h2 h1
    · have hxq := floor_scale_cast_of_nonneg d (by omega : 0 ≤ D.exponent - X.exponent)
      have hunits := quotient_units_shift Q D V X d v _ 0 hxq (by rw [h0]; simp)
      rw [hunits, h0, floor_scale_zero, htr]
      simp

/-- Witness for C6: `-7 / 2` in `fixed_point<int8_t, 0>`, whose intermediate
type is `fixed_point<int16_t, -8>`: the dividend is converted to `-1792`, the
integer quotient is `-896`, and the right shift by 8 bits returns `-4`, the
floor of `-3.5`. -/
theorem C6_divide_truncates_witness :
    divide ⟨int8, 0⟩ ⟨int8, 0⟩ ⟨int8, 0⟩ (-7) 2
        = some (floor_scale (Int.tdiv (floor_scale (-7) (0 - (-8))) 2) ((-8) - 0 - 0)) ∧
      floor_scale (Int.tdiv (floor_scale (-7) (0 - (-8))) 2) ((-8) - 0 - 0) = -4 :=
  have hx : floor_scale (-7) ((0 : Int) - (-8)) = -1792 := by
    rw [floor_scale_of_nonneg (-7) (by decide)]; decide
  have hq : Int.tdiv (-1792) 2 = -896 := by decide
  have hres : floor_scale (-896) ((-8 : Int) - 0 - 0) = -4 := by
    rw [floor_scale_of_neg (-896) (by decide)]; decide
  have h := C6_divide_truncates ⟨int8, 0⟩ ⟨int8, 0⟩ ⟨int8, 0⟩ ⟨make_int true 2, -8⟩ (-7) 2
    (by decide) (by decide) (by decide) (by decide) (by decide) (by decide) (by decide)
    (by decide) (by decide)
    (by rw [hx]; decide) (by rw [hx]; decide) (by decide)
    (by rw [hx]; decide) (by decide)
    (by intro h; exact absurd h (by decide))
    (Or.inl ⟨by decide, by decide, by
      unfold IntType.holds_rat
      norm_num [FixedPoint.value, IntType.min_value, IntType.max_value, int8, make_int,
        num_bits]⟩)
  ⟨h.1, by rw [hx, hq, hres]⟩

/-- C30 (as stated) fails: `fixed_point<int8_t, -7>` has 0 integer digits and 7
fractional digits; the quotient of `1/128` (raw `1`) by `3/128` (raw `3`) is
`1/3`, within the range of the type, but `operator/` returns `0`: the dividend
is scaled by `2^1` only, the integer quotient `2 / 3 = 0` is then shifted left by
6 bits, and the error `1/3` is not below the resolution `2^(-7)`. Moreover, in
`fixed_point<int32_t, -16>` the quotient of the most negative value (`-32768`)
by `2` is `-16384`, within the range of the type, but `operator/` has no defined
result: converting the dividend to the intermediate type negates the most
negative `int`. -/
theorem C30_counterexample :
    (0 ≤ (⟨int8, -7⟩ : FixedPoint).integer_digits ∧
      0 ≤ (⟨int8, -7⟩ : FixedPoint).fractional_digits ∧
      int8.holds 1 ∧ int8.holds 3 ∧
      int8.holds_rat (FixedPoint.value ⟨int8, -7⟩ 1 / FixedPoint.value ⟨int8, -7⟩ 3
        / 2 ^ (-7 : Int)) ∧
      divide_intermediate_type ⟨int8, -7⟩ ⟨int8, -7⟩ ⟨int8, -7⟩ = ⟨make_int true 2, -8⟩ ∧
      operator_div ⟨int8, -7⟩ ⟨int8, -7⟩ 1 3 = some 0 ∧
      ¬ (|FixedPoint.value ⟨int8, -7⟩ 0
          - FixedPoint.value ⟨int8, -7⟩ 1 / FixedPoint.value ⟨int8, -7⟩ 3|
        < 2 ^ (-7 : Int))) ∧
    (0 ≤ (⟨int, -16⟩ : FixedPoint).integer_digits ∧
      0 ≤ (⟨int, -16⟩ : FixedPoint).fractional_digits ∧
      2 * (⟨int, -16⟩ : FixedPoint).fractional_digits ≤ num_bits int ∧
      int.holds (-2147483648) ∧ int.holds 131072 ∧
      int.holds_rat (FixedPoint.value ⟨int, -16⟩ (-2147483648)
        / FixedPoint.value ⟨int, -16⟩ 131072 / 2 ^ (-16 : Int)) ∧
      operator_div ⟨int, -16⟩ ⟨int, -16⟩ (-2147483648) 131072 = none) := by
  refine ⟨⟨by decide, by decide, by decide, by decide, ?_, by decide, by decide, ?_⟩,
    by decide, by decide, by decide, by decide, by decide, ?_, by decide⟩
  · unfold IntType.holds_rat
    norm_num [FixedPoint.value, IntType.min_value, IntType.max_value, int8, make_int, num_bits]
  · norm_num [FixedPoint.value, abs_of_nonneg]
  · unfold IntType.holds_rat
    norm_num [FixedPoint.value, IntType.min_value, IntType.max_value, int, make_int, num_bits]

/-- C30 (amended): for every `fixed_point<R,E>` with non-negative
`integer_digits` and `fractional_digits`, at most half as many fractional
digits as `R` has bits, and a supported type of twice the width, and every pair
of operands `a`, `b ≠ 0` of that type whose true quotient lies within the
type's range, `a / b` returns a value of the type that differs from the true
quotient `value(a) / value(b)` by less than one unit of the resolution, `2^E`,
provided that the conversion of a negative dividend to the intermediate type (a
left shift by `num_bits<R>() + E` bits through the signed overload of
`shift_left`) negates neither the most negative value of the promoted `R` nor a
shifted value equal to the most negative value of the promoted intermediate
representation. -/
theorem C30_division_precision (F : FixedPoint) (a b : Int)
    (hF : F.repr_type.supported) (hN : (next_size F.repr_type).supported)
    (_hI : 0 ≤ F.integer_digits) (hFr : 0 ≤ F.fractional_digits)
    (hEw : 2 * F.fractional_digits ≤ num_bits F.repr_type)
    (ha : F.repr_type.holds a) (hb : F.repr_type.holds b) (hb0 : b ≠ 0)
    (hq : F.repr_type.holds_rat (F.value a / F.value b / 2 ^ F.exponent))
    (hn : shift_right_negation_defined (-(num_bits F.repr_type : Int) - F.exponent)
      (next_size F.repr_type) F.repr_type a) :
    ∃ r, operator_div F F a b = some r ∧ F.repr_type.holds r ∧
      |F.value r - F.value a / F.value b| < 2 ^ F.exponent := by
  have hE : F.fractional_digits = -F.exponent := by
    unfold FixedPoint.fractional_digits FixedPoint.integer_digits
    ring
  obtain ⟨r, hr, hrh, hnear⟩ := operator_div_self F a b hF hN (by omega) (by omega)
    ha hb hb0 hq hn
  refine ⟨r, hr, hrh, ?_⟩
  have hu : (0 : ℚ) < 2 ^ F.exponent := by positivity
  have e : F.value r - F.value a / F.value b
      = ((r : ℚ) - F.value a / F.value b / 2 ^ F.exponent) * 2 ^ F.exponent := by
    rw [sub_mul, div_mul_cancel₀ _ hu.ne']
    rfl
  rw [e, abs_mul, abs_of_pos hu]
  calc |(r : ℚ) - F.value a / F.value b / 2 ^ F.exponent| * 2 ^ F.exponent
      < 1 * 2 ^ F.exponent := mul_lt_mul_of_pos_right hnear hu
    _ = 2 ^ F.exponent := one_mul _

/-- Witness for C30: `-3.5 / 3` in `fixed_point<int8_t, -4>`. -/
theorem C30_division_precision_witness :
    ∃ r, operator_div ⟨int8, -4⟩ ⟨int8, -4⟩ (-56) 48 = some r ∧ int8.holds r ∧
      |FixedPoint.value ⟨int8, -4⟩ r
          - FixedPoint.value ⟨int8, -4⟩ (-56) / FixedPoint.value ⟨int8, -4⟩ 48|
        < 2 ^ (-4 : Int) :=
  C30_division_precision ⟨int8, -4⟩ (-56) 48 (by decide) (by decide) (by decide) (by decide)
    (by decide) (by decide) (by decide) (by decide) (by
      unfold IntType.holds_rat
      norm_num [FixedPoint.value, IntType.min_value, IntType.max_value, int8, make_int,
        num_bits]) (by decide)


/-! ## The intermediate product of `_impl::multiply` -/

/-- C31: for every pair of `fixed_point` operand types over the supported
integer types (any mix of widths and signedness) and every pair of operand
values, each representation is unchanged by the cast to
`next_size<common_type<Lhs,Rhs>::repr_type>`, and the product of the two cast
representations is representable in that intermediate type and is computed
exactly. -/
theorem C31_multiply_intermediate_exact (Lhs Rhs : FixedPoint) (a b : Int)
    (hL : Lhs.repr_type.supported) (hR : Rhs.repr_type.supported)
    (ha : Lhs.repr_type.holds a) (hb : Rhs.repr_type.holds b) :
    static_cast (next_size (common_type Lhs Rhs).repr_type) a = a ∧
      static_cast (next_size (common_type Lhs Rhs).repr_type) b = b ∧
      (next_size (common_type Lhs Rhs).repr_type).holds
        (static_cast (next_size (common_type Lhs Rhs).repr_type) a
          * static_cast (next_size (common_type Lhs Rhs).repr_type) b) ∧
      builtin_mul (next_size (common_type Lhs Rhs).repr_type)
        (static_cast (next_size (common_type Lhs Rhs).repr_type) a)
        (static_cast (next_size (common_type Lhs Rhs).repr_type) b) = some (a * b) := by
  have hLp := supported_pos hL
  have hRp := supported_pos hR
  have hrepr : (common_type Lhs Rhs).repr_type
      = common_repr_type Lhs.repr_type [Rhs.repr_type] := rfl
  obtain ⟨hprod, hmul⟩ := product_exact Lhs.repr_type Rhs.repr_type a b hLp hRp ha hb
  rw [hrepr]
  have hpair := common_repr_type_pair Lhs.repr_type Rhs.repr_type
  have hbytes : (next_size (common_repr_type Lhs.repr_type [Rhs.repr_type])).bytes
      = max Lhs.repr_type.bytes Rhs.repr_type.bytes * 2 := by
    rw [hpair]; rfl
  have hsign : (next_size (common_repr_type Lhs.repr_type [Rhs.repr_type])).is_signed
      = (Lhs.repr_type.is_signed || Rhs.repr_type.is_signed) := by
    rw [hpair]; rfl
  have hNp : 0 < (next_size (common_repr_type Lhs.repr_type [Rhs.repr_type])).bytes := by
    rw [hbytes]
    have := le_max_left Lhs.repr_type.bytes Rhs.repr_type.bytes
    omega
  have hah : (next_size (common_repr_type Lhs.repr_type [Rhs.repr_type])).holds a :=
    holds_of_wider hLp ha (by
      rw [hbytes]
      have := le_max_left Lhs.repr_type.bytes Rhs.repr_type.bytes
      omega) (fun h => by rw [hsign, holds_neg_signed ha h]; rfl)
  have hbh : (next_size (common_repr_type Lhs.repr_type [Rhs.repr_type])).holds b :=
    holds_of_wider hRp hb (by
      rw [hbytes]
      have := le_max_right Lhs.repr_type.bytes Rhs.repr_type.bytes
      omega) (fun h => by rw [hsign, holds_neg_signed hb h]; simp)
  have hca := static_cast_of_holds hNp hah
  have hcb := static_cast_of_holds hNp hbh
  refine ⟨hca, hcb, ?_, hmul⟩
  rw [hca, hcb]
  exact hprod

/-- Witness for C31: the largest `uint8_t` times the smallest `int8_t`, in the
intermediate type `int16_t`. -/
theorem C31_multiply_intermediate_exact_witness :
    static_cast (next_size (common_type ⟨make_int false 1, 0⟩ ⟨int8, 0⟩).repr_type) 255 = 255 ∧
      static_cast (next_size (common_type ⟨make_int false 1, 0⟩ ⟨int8, 0⟩).repr_type) (-128)
        = -128 ∧
      (next_size (common_type ⟨make_int false 1, 0⟩ ⟨int8, 0⟩).repr_type).holds
        (static_cast (next_size (common_type ⟨make_int false 1, 0⟩ ⟨int8, 0⟩).repr_type) 255
          * static_cast (next_size (common_type ⟨make_int false 1, 0⟩ ⟨int8, 0⟩).repr_type)
              (-128)) ∧
      builtin_mul (next_size (common_type ⟨make_int false 1, 0⟩ ⟨int8, 0⟩).repr_type)
        (static_cast (next_size (common_type ⟨make_int false 1, 0⟩ ⟨int8, 0⟩).repr_type) 255)
        (static_cast (next_size (common_type ⟨make_int false 1, 0⟩ ⟨int8, 0⟩).repr_type) (-128))
        = some (255 * -128) :=
  C31_multiply_intermediate_exact ⟨make_int false 1, 0⟩ ⟨int8, 0⟩ 255 (-128)
    (by decide) (by decide) (by decide) (by decide)

/-! ## Conversion to an integer -/

/-- C32: for every `fixed_point<R,E>` with `E < 0` and `-E` smaller than the
width at which the shift is executed, every value `x` and every integer type `S`
that holds the result, converting `x` to `S` returns `floor(x.data() * 2^E)`,
rounding toward negative infinity: the `fixed_point<int8_t, -4>` value `-3.5`
(raw `-56`) converts to `-4`. -/
theorem C32_conversion_to_integer_floors (F : FixedPoint) (S : IntType) (x : Int)
    (hR : F.repr_type.supported) (hS : S.supported) (hE : F.exponent < 0)
    (hw : -F.exponent < shift_right_width S F.repr_type)
    (hx : F.repr_type.holds x) (hr : S.holds ⌊(x : ℚ) * 2 ^ F.exponent⌋) :
    repr_to_integral F S x = some ⌊(x : ℚ) * 2 ^ F.exponent⌋ ∧
      ⌊(x : ℚ) * 2 ^ F.exponent⌋ = ⌊F.value x⌋ ∧
      repr_to_integral ⟨int8, -4⟩ int (-56) = some (-4) := by
  refine ⟨?_, rfl, by decide⟩
  unfold repr_to_integral
  exact shift_left_eq_floor F.exponent S F.repr_type x (supported_pos hS) (supported_pos hR) hx
    (by unfold shift_left_in_width; rw [if_neg (by omega)]; exact hw) hr
    (shift_left_negation_defined_of_exp _ _ _ hE.le)

/-- Witness for C32: the `fixed_point<int8_t, -4>` value `-3.5` converted to
`int`. -/
theorem C32_conversion_to_integer_floors_witness :
    repr_to_integral ⟨int8, -4⟩ int (-56)
        = some ⌊((-56 : Int) : ℚ) * 2 ^ (⟨int8, -4⟩ : FixedPoint).exponent⌋ ∧
      ⌊((-56 : Int) : ℚ) * 2 ^ (⟨int8, -4⟩ : FixedPoint).exponent⌋
        = ⌊FixedPoint.value ⟨int8, -4⟩ (-56)⌋ ∧
      repr_to_integral ⟨int8, -4⟩ int (-56) = some (-4) :=
  C32_conversion_to_integer_floors ⟨int8, -4⟩ int (-56) (by decide) (by decide) (by decide)
    (by decide) (by decide) (by
      have e : ⌊((-56 : Int) : ℚ) * 2 ^ (⟨int8, -4⟩ : FixedPoint).exponent⌋ = -4 := by
        show ⌊((-56 : Int) : ℚ) * 2 ^ (-4 : Int)⌋ = -4
        norm_num
      rw [e]
      decide)


/-! ## Order of the heterogeneous comparison -/

/-- The first candidate bit of `sqrt_bit`: `ReprType(1) << (num_bits - 2)` is
`4^K` with `num_bits = 2K + 2`, a value of the type. -/
theorem sqrt_bit_initial (T : IntType) (hT : 0 < T.bytes) :
    ∃ K : Nat, num_bits T = 2 * K + 2 ∧
      builtin_shl T (static_cast T 1) (num_bits T - 2) = some (4 ^ K) ∧
      static_cast T (4 ^ K) = 4 ^ K ∧ T.holds (4 ^ K) ∧
      2 * (4 : Int) ^ K ≤ T.max_value + 1 ∧ T.max_value + 1 ≤ 4 ^ (K + 1) := by
  obtain ⟨K, hK⟩ : ∃ K, num_bits T = 2 * K + 2 := ⟨4 * T.bytes - 1, by unfold num_bits; omega⟩
  have hmax := two_pow_le_max_value_succ hT
  have hK1 : (2 : Int) ^ (num_bits T - 1) = 2 * 4 ^ K := by
    have : num_bits T - 1 = 2 * K + 1 := by omega
    rw [this, pow_succ, pow_mul]; norm_num; ring
  have hK2 : (2 : Int) ^ num_bits T = 4 ^ (K + 1) := by
    have : num_bits T = 2 * (K + 1) := by omega
    rw [this, pow_mul]; norm_num
  have hK3 : (2 : Int) ^ (num_bits T - 2) = 4 ^ K := by
    have : num_bits T - 2 = 2 * K := by omega
    rw [this, pow_mul]; norm_num
  have hA : (0 : Int) < 4 ^ K := by positivity
  have hbh : T.holds (4 ^ K) := holds_of_nonneg_lt hA.le (by omega)
  have h1 : static_cast T 1 = 1 := static_cast_of_holds hT (holds_of_nonneg_lt (by norm_num)
    (by omega))
  refine ⟨K, hK, ?_, static_cast_of_holds hT hbh, hbh, by omega, by omega⟩
  unfold builtin_shl
  have hw := num_bits_le_promoted T
  rw [h1, if_pos (by omega), one_mul, hK3]
  congr 1
  exact static_cast_of_holds (promoted_bytes_pos hT) (holds_promoted hT hbh)

/-- With a negative `n` the recursion of `sqrt_bit` never reaches its base
case: every candidate bit is non-negative, hence greater than `n`, and no
depth bound yields a result. -/
theorem sqrt_bit_aux_of_neg (T : IntType) (hT : 0 < T.bytes) {n : Int} (hn : n < 0) :
    ∀ (fuel : Nat) (bit : Int), 0 ≤ bit → T.holds bit → sqrt_bit_aux T fuel n bit = none := by
  intro fuel
  induction fuel with
  | zero =>
    intro bit _ _
    rw [sqrt_bit_aux]
  | succ f ih =>
    intro bit h0 hbit
    have hb4 : T.holds (bit / 2 ^ 2) := holds_ediv_two_pow hbit 2
    rw [sqrt_bit_aux, if_pos (by omega), builtin_shr_small T _ (by norm_num : 2 < 32)]
    simp only [Option.some_bind]
    rw [static_cast_of_holds hT hb4]
    exact ih _ (Int.ediv_nonneg h0 (by norm_num)) hb4

theorem sqrt_bit_of_neg (T : IntType) (hT : 0 < T.bytes) {n : Int} (hn : n < 0) :
    sqrt_bit T n = none := by
  obtain ⟨K, _, hshl, hc, hh, _, _⟩ := sqrt_bit_initial T hT
  unfold sqrt_bit
  rw [hshl]
  simp only [Option.some_bind]
  rw [hc]
  exact sqrt_bit_aux_of_neg T hT hn _ _ (by positivity) hh

/-- C35 (as stated) fails: for the `fixed_point<int8_t, 0>` value `-4` the
promoted representation is `-4`, and `sqrt` has no result (in particular not
zero): the first candidate bit `2^14` of `sqrt_bit` is greater than the negative
input, and so is every later one, at any depth of recursion. -/
theorem C35_counterexample :
    int8.is_signed = true ∧ (next_size int8).supported ∧ int8.holds (-4) ∧
      promote ⟨int8, 0⟩ (-4) = some (-4) ∧
      (∀ fuel : Nat, sqrt_bit_aux (next_size int8) fuel (-4) (2 ^ 14) = none) ∧
      sqrt ⟨int8, 0⟩ (-4) = none ∧
      sqrt ⟨int8, 0⟩ (-4) ≠ some 0 := by
  refine ⟨by decide, by decide, by decide, by decide, ?_, by decide, by decide⟩
  intro fuel
  exact sqrt_bit_aux_of_neg (next_size int8) (by decide) (by decide) fuel _ (by decide)
    (by decide)

/-- C35 (amended): for every signed `fixed_point<R,E>` with
`-num_bits<R>() ≤ E ≤ 0` and a supported promoted width, and every `x` with
`x.data() < 0` whose promotion is defined (when `E < 0`, neither `x` nor the
promoted representation is the most negative value of a promoted integer type,
which the signed overload of `shift_left` would negate), the promoted
representation is negative and `sqrt(x)` has no result: every candidate bit of
`sqrt_bit` is greater than the negative input, so its recursion never reaches
the base case. -/
theorem C35_sqrt_of_negative_has_no_result (F : FixedPoint) (x : Int)
    (hF : F.repr_type.supported) (_hN : (next_size F.repr_type).supported)
    (_hs : F.repr_type.is_signed = true)
    (hE : F.exponent ≤ 0) (hEw : -F.exponent ≤ num_bits F.repr_type)
    (hx : F.repr_type.holds x) (hx0 : x < 0)
    (hn : shift_right_negation_defined F.exponent (next_size F.repr_type) F.repr_type x) :
    ∃ p, promote F x = some p ∧ p < 0 ∧
      (∀ (fuel : Nat) (bit : Int), 0 ≤ bit → (next_size F.repr_type).holds bit →
        sqrt_bit_aux (next_size F.repr_type) fuel p bit = none) ∧
      sqrt_bit (next_size F.repr_type) p = none ∧
      sqrt_solve1 (next_size F.repr_type) p = none ∧
      sqrt F x = none := by
  have hFp := supported_pos hF
  have hNp : 0 < (next_size F.repr_type).bytes := by
    show 0 < F.repr_type.bytes * 2
    omega
  obtain ⟨hprom, _⟩ := promote_eq F x hFp hx hE hEw hn
  have hp := floor_scale_neg_of_neg hx0 (-F.exponent)
  have hbit := sqrt_bit_of_neg (next_size F.repr_type) hNp hp
  have hs1 : sqrt_solve1 (next_size F.repr_type) (floor_scale x (-F.exponent)) = none := by
    unfold sqrt_solve1
    rw [hbit]
    rfl
  refine ⟨_, hprom, hp, sqrt_bit_aux_of_neg _ hNp hp, hbit, hs1, ?_⟩
  unfold sqrt
  rw [hprom]
  simp only [Option.some_bind, hs1]
  rfl

/-- Witness for C35: `fixed_point<int8_t, -4>` holding `-56` (the value `-3.5`). -/
theorem C35_sqrt_of_negative_has_no_result_witness :
    ∃ p, promote ⟨int8, -4⟩ (-56) = some p ∧ p < 0 ∧
      (∀ (fuel : Nat) (bit : Int), 0 ≤ bit → (next_size int8).holds bit →
        sqrt_bit_aux (next_size int8) fuel p bit = none) ∧
      sqrt_bit (next_size int8) p = none ∧
      sqrt_solve1 (next_size int8) p = none ∧
      sqrt ⟨int8, -4⟩ (-56) = none :=
  C35_sqrt_of_negative_has_no_result ⟨int8, -4⟩ (-56) (by decide) (by decide) (by decide)
    (by decide) (by decide) (by decide) (by decide) (by decide)

end sg14
